import Mathlib

/-!
# The das command-line parser (`libdasc/parse/parse.go`)

A shallow embedding of the recursive-descent parser of `parse.go`: the
three-slot token cursor, the command loop, the term parser, the redirection
parser, the panic/recover boundary of `Parse` and the error context of a
node, followed by theorems about them.

Conventions of the embedding.

* A Go `string` is a sequence of bytes: `GoString := List UInt8`.  `len`,
  slicing and `strings.IndexRune` for an ASCII rune are the byte operations
  of the list.
* The receiver `t *Tree` is mutated in place; every method is a function from
  the state before the call to a `Result` carrying the state after it.  A Go
  `panic` is the `abort` result, which keeps the state reached when the panic
  was raised (the mutations made before a panic stay visible to `recover`).
* `panic(fmt.Errorf(...))` of `errorf` is `Abort.grammar`; a Go run-time
  panic (index or slice out of range, nil dereference) is `Abort.fault`.
  The message of a grammar error is kept as its format together with its
  arguments (`ParseError`); the location text put in front of it by
  `errorf` is not represented.
* Loops run on fuel taken from the length of the remaining input;
  `Abort.diverge` is the result of an exhausted fuel, and is shown never to
  occur.
* `int` is the 64-bit Go `int`.
-/

namespace Dasc

/-! ## Go strings and the library functions used by the parser -/

/-- A Go string: its bytes. -/
abbrev GoString := List UInt8

/-- The bytes (UTF-8) of a string literal. -/
def str (s : String) : GoString := s.toList.flatMap String.utf8EncodeChar

/-- Go slice expression `s[lo:hi]`; `none` is the run-time panic raised when
the bounds are not `lo ≤ hi ≤ len(s)`. -/
def slice (s : GoString) (lo hi : Int) : Option GoString :=
  if 0 ≤ lo ∧ lo ≤ hi ∧ hi ≤ (s.length : Int) then
    some ((s.take hi.toNat).drop lo.toNat)
  else none

/-- Byte index of the first occurrence of an ASCII byte, as
`strings.IndexRune` returns it for a rune below `utf8.RuneSelf`; `none` is
the result `-1`. -/
def IndexRune : GoString → UInt8 → Option Nat
  | [], _ => none
  | b :: rest, c => if b = c then some 0 else (IndexRune rest c).map (· + 1)

namespace os

/-- Flag `os.O_RDONLY` (linux). -/
def O_RDONLY : Nat := 0
/-- Flag `os.O_WRONLY` (linux). -/
def O_WRONLY : Nat := 1
/-- Flag `os.O_RDWR` (linux). -/
def O_RDWR : Nat := 2
/-- Flag `os.O_CREATE` (linux). -/
def O_CREATE : Nat := 0x40
/-- Flag `os.O_TRUNC` (linux). -/
def O_TRUNC : Nat := 0x200
/-- Flag `os.O_APPEND` (linux). -/
def O_APPEND : Nat := 0x400

end os

namespace strconv

/-- Largest value of the 64-bit Go `int`. -/
def maxInt : Nat := 2 ^ 63 - 1

/-- ASCII decimal digit. -/
def isDigit (b : UInt8) : Bool := decide (48 ≤ b.toNat ∧ b.toNat ≤ 57)

/-- Value of a run of decimal digits, most significant first. -/
def digitsValue (ds : List UInt8) : Nat :=
  ds.foldl (fun n b => n * 10 + (b.toNat - 48)) 0

/-- Go `strconv.Atoi`: an optional sign `+` or `-`, then at least one decimal
digit and nothing else, the value being in the range of `int`.  `none` stands
for every non-nil error (syntax or range): the parser only tests
`err != nil`. -/
def Atoi (s : GoString) : Option Int :=
  match s with
  | [] => none
  | c :: rest =>
    let ds := if c = 43 ∨ c = 45 then rest else s
    if ds = [] then none
    else if ds.all isDigit = false then none
    else if c = 45 then
      (if digitsValue ds ≤ maxInt + 1 then some (-(digitsValue ds : Int)) else none)
    else
      (if digitsValue ds ≤ maxInt then some (digitsValue ds : Int) else none)

/-- Rune `utf8.RuneError`. -/
def RuneError : Nat := 0xFFFD

/-- Continuation byte test with explicit bounds. -/
def inRange (b lo hi : UInt8) : Bool := decide (lo.toNat ≤ b.toNat ∧ b.toNat ≤ hi.toNat)

/-- Low six bits of a continuation byte. -/
def cont (b : UInt8) : Nat := b.toNat % 64

/-- Go `utf8.DecodeRuneInString`: the first rune of `s` and its width in
bytes; `(RuneError, 0)` for the empty string and `(RuneError, 1)` for an
invalid encoding. -/
def DecodeRune (s : GoString) : Nat × Nat :=
  match s with
  | [] => (RuneError, 0)
  | b0 :: rest =>
    if b0.toNat < 0x80 then (b0.toNat, 1)
    else if inRange b0 0xC2 0xDF then
      match rest with
      | b1 :: _ =>
        if inRange b1 0x80 0xBF then ((b0.toNat % 32) * 64 + cont b1, 2) else (RuneError, 1)
      | _ => (RuneError, 1)
    else if inRange b0 0xE0 0xEF then
      match rest with
      | b1 :: b2 :: _ =>
        let lo : UInt8 := if b0 = 0xE0 then 0xA0 else 0x80
        let hi : UInt8 := if b0 = 0xED then 0x9F else 0xBF
        if inRange b1 lo hi && inRange b2 0x80 0xBF then
          ((b0.toNat % 16) * 4096 + cont b1 * 64 + cont b2, 3)
        else (RuneError, 1)
      | _ => (RuneError, 1)
    else if inRange b0 0xF0 0xF4 then
      match rest with
      | b1 :: b2 :: b3 :: _ =>
        let lo : UInt8 := if b0 = 0xF0 then 0x90 else 0x80
        let hi : UInt8 := if b0 = 0xF4 then 0x8F else 0xBF
        if inRange b1 lo hi && inRange b2 0x80 0xBF && inRange b3 0x80 0xBF then
          ((b0.toNat % 8) * 262144 + cont b1 * 4096 + cont b2 * 64 + cont b3, 4)
        else (RuneError, 1)
      | _ => (RuneError, 1)
    else (RuneError, 1)

/-- Go `utf8.ValidRune`. -/
def ValidRune (r : Nat) : Bool := decide (r < 0xD800 ∨ (0xE000 ≤ r ∧ r ≤ 0x10FFFF))

/-- Go `utf8.AppendRune` on an empty buffer: the UTF-8 encoding of `r`, the
encoding of `RuneError` for an invalid rune. -/
def EncodeRune (r : Nat) : GoString :=
  if r < 0x80 then [r.toUInt8]
  else if r < 0x800 then [(0xC0 + r / 64).toUInt8, (0x80 + r % 64).toUInt8]
  else if ValidRune r = false then [0xEF, 0xBF, 0xBD]
  else if r < 0x10000 then
    [(0xE0 + r / 4096).toUInt8, (0x80 + r / 64 % 64).toUInt8, (0x80 + r % 64).toUInt8]
  else
    [(0xF0 + r / 262144).toUInt8, (0x80 + r / 4096 % 64).toUInt8,
     (0x80 + r / 64 % 64).toUInt8, (0x80 + r % 64).toUInt8]

/-- Go `utf8.ValidString`, on fuel bounding the number of runes. -/
def ValidStringAux : Nat → GoString → Bool
  | _, [] => true
  | 0, _ :: _ => false
  | n + 1, b :: rest =>
    let d := DecodeRune (b :: rest)
    if d.1 = RuneError ∧ d.2 = 1 then false
    else ValidStringAux n ((b :: rest).drop d.2)

/-- Go `utf8.ValidString`. -/
def ValidString (s : GoString) : Bool := ValidStringAux s.length s

/-- Value of a hexadecimal digit (`unhex`). -/
def unhex (b : UInt8) : Option Nat :=
  if inRange b 48 57 then some (b.toNat - 48)
  else if inRange b 97 102 then some (b.toNat - 97 + 10)
  else if inRange b 65 70 then some (b.toNat - 65 + 10)
  else none

/-- Value of a run of hexadecimal digits; `none` if one is not a digit. -/
def hexValue : List UInt8 → Nat → Option Nat
  | [], v => some v
  | b :: rest, v =>
    match unhex b with
    | some x => hexValue rest (v * 16 + x)
    | none => none

/-- Value of a run of octal digits; `none` if one is not a digit. -/
def octValue : List UInt8 → Nat → Option Nat
  | [], v => some v
  | b :: rest, v => if inRange b 48 55 then octValue rest (v * 8 + (b.toNat - 48)) else none

/-- Go `strconv.UnquoteChar`: decodes the first character or escape
sequence of `s` inside a literal delimited by `quote`.  The result is the
value, whether it is a multibyte rune, and the rest of `s`; `none` is
`ErrSyntax`. -/
def UnquoteChar (s : GoString) (quote : UInt8) : Option (Nat × Bool × GoString) :=
  match s with
  | [] => none
  | c :: s1 =>
    if c = quote ∧ (quote = 39 ∨ quote = 34) then none
    else if 0x80 ≤ c.toNat then
      let d := DecodeRune s
      some (d.1, true, s.drop d.2)
    else if c ≠ 92 then some (c.toNat, false, s1)
    else
      match s1 with
      | [] => none
      | e :: s2 =>
        if e = 97 then some (7, false, s2)
        else if e = 98 then some (8, false, s2)
        else if e = 102 then some (12, false, s2)
        else if e = 110 then some (10, false, s2)
        else if e = 114 then some (13, false, s2)
        else if e = 116 then some (9, false, s2)
        else if e = 118 then some (11, false, s2)
        else if e = 120 ∨ e = 117 ∨ e = 85 then
          let n := if e = 120 then 2 else if e = 117 then 4 else 8
          if s2.length < n then none
          else
            match hexValue (s2.take n) 0 with
            | none => none
            | some v =>
              if e = 120 then some (v, false, s2.drop n)
              else if ValidRune v = false then none
              else some (v, true, s2.drop n)
        else if inRange e 48 55 then
          if s2.length < 2 then none
          else
            match octValue (s2.take 2) (e.toNat - 48) with
            | none => none
            | some v => if v > 255 then none else some (v, false, s2.drop 2)
        else if e = 92 then some (92, false, s2)
        else if e = 39 ∨ e = 34 then
          if e ≠ quote then none else some (e.toNat, false, s2)
        else none

/-- The loop of `strconv.Unquote` over a literal with escape sequences:
decodes characters up to the terminating quote, and returns the decoded
bytes with what follows that quote; `none` is `ErrSyntax`. -/
def unquoteLoop : Nat → GoString → UInt8 → GoString → Option (GoString × GoString)
  | 0, _, _, _ => none
  | n + 1, inp, quote, buf =>
    match inp with
    | [] => none
    | c :: rest =>
      if c = quote then some (buf, rest)
      else
        match UnquoteChar inp quote with
        | none => none
        | some (r, multibyte, rem) =>
          if c = 10 then none
          else
            let buf1 := if r < 0x80 ∨ multibyte = false then buf ++ [r.toUInt8]
                        else buf ++ EncodeRune r
            if quote = 39 then
              (match rem with
               | [] => none
               | q :: rem1 => if q = quote then some (buf1, rem1) else none)
            else unquoteLoop n rem quote buf1

/-- Go `strconv.Unquote`: interprets `s` as a double-quoted, single-quoted
or backquoted Go string literal and returns the string it quotes; `none` is
`ErrSyntax`. -/
def Unquote (s : GoString) : Option GoString :=
  match s with
  | [] => none
  | [_] => none
  | quote :: body =>
    match IndexRune body quote with
    | none => none
    | some i =>
      -- `inner` is `in[1:end-1]`, `after` is `in[end:]`
      let inner := body.take i
      let after := body.drop (i + 1)
      if quote = 96 then
        if after = [] then some (inner.filter (· ≠ 13)) else none
      else if quote = 34 ∨ quote = 39 then
        let plain := ¬ (92 ∈ inner) ∧ ¬ (10 ∈ inner)
        let valid :=
          if quote = 34 then ValidString inner
          else decide ((DecodeRune inner).2 = inner.length ∧
                ((DecodeRune inner).1 ≠ RuneError ∨ (DecodeRune inner).2 ≠ 1))
        if plain ∧ valid = true then
          (if after = [] then some inner else none)
        else
          match unquoteLoop (body.length + 1) body quote [] with
          | none => none
          | some (out, rem) => if rem = [] then some out else none
      else none

end strconv

/-! ## Tokens, nodes and the parse session -/

/-- Modelled from the spec: the type tag of a token (the declaration of
`ItemType` is not among the sources).  The tags the parser names, and
`ItemOther` for every further tag of the lexer. -/
inductive ItemType where
  | ItemError
  | ItemEOF
  | ItemSpace
  | ItemBare
  | ItemSingleQuoted
  | ItemDoubleQuoted
  | ItemRedirLeader
  | ItemOther (k : Nat)
  deriving DecidableEq, Repr

/-- Modelled from the spec: the may-continue bit of a token's end flag (the
declaration of the constant is not among the sources). -/
def MayContinue : Nat := 2

/-- Modelled from the spec: a token of the lexer (the declaration of `Item`
is not among the sources): type tag, start position, raw text and end
flag. -/
structure Item where
  Typ : ItemType
  Pos : Nat
  Val : GoString
  End : Nat
  deriving DecidableEq, Repr

/-- Modelled from the spec: the lexer (not among the sources), as the
sequence of tokens it has still to deliver; an exhausted lexer keeps
delivering end-of-input. -/
structure Lexer where
  items : List Item
  deriving DecidableEq, Repr

/-- The end-of-input token of an exhausted lexer. -/
def eofItem : Item := { Typ := .ItemEOF, Pos := 0, Val := [], End := 0 }

/-- Method `Lexer.NextItem`: the next token and the lexer after it. -/
def Lexer.NextItem (lx : Lexer) : Item × Lexer :=
  match lx.items with
  | [] => (eofItem, lx)
  | it :: rest => (it, { items := rest })

/-- Modelled from the spec: a node of the tree (the declaration is not among
the sources); its only variant is the string node, with position, raw text
and unquoted value. -/
inductive Node where
  | StringNode (pos : Nat) (quoted : GoString) (text : GoString)
  deriving DecidableEq, Repr

/-- Constructor `newString`. -/
def newString (pos : Nat) (quoted text : GoString) : Node := .StringNode pos quoted text

/-- Modelled from the spec: a redirection (the declaration is not among the
sources). -/
inductive Redir where
  | FilenameRedir (oldfd : Int) (flag : Nat) (target : Node)
  | FdRedir (oldfd newfd : Int)
  | CloseRedir (oldfd : Int)
  deriving DecidableEq, Repr

/-- Constructor `newFilenameRedir`. -/
def newFilenameRedir (oldfd : Int) (flag : Nat) (target : Node) : Redir :=
  .FilenameRedir oldfd flag target

/-- Constructor `newFdRedir`. -/
def newFdRedir (oldfd newfd : Int) : Redir := .FdRedir oldfd newfd

/-- Constructor `newCloseRedir`. -/
def newCloseRedir (oldfd : Int) : Redir := .CloseRedir oldfd

/-- Modelled from the spec: the command node (the declaration is not among
the sources): position, argument nodes and redirections, in input order. -/
structure CommandNode where
  Pos : Nat
  Nodes : List Node
  Redirs : List Redir
  deriving DecidableEq, Repr

/-- Constructor `newCommand`: a command with no argument and no
redirection. -/
def newCommand (pos : Nat) : CommandNode := { Pos := pos, Nodes := [], Redirs := [] }

/-- Method `CommandNode.append`: adds an argument node at the end. -/
def CommandNode.append (c : CommandNode) (n : Node) : CommandNode :=
  { c with Nodes := c.Nodes ++ [n] }

/-- Modelled from the spec: the continuation context (the declaration is not
among the sources); a nil `Context` is `none` of `Option Context`. -/
inductive Context where
  | ArgContext (text : GoString)
  deriving DecidableEq, Repr

/-- Constructor `NewArgContext`. -/
def NewArgContext (text : GoString) : Context := .ArgContext text

/-- The parse session `Tree`.  The array `token [3]Item` is the three fields
`token0`, `token1`, `token2`. -/
structure Tree where
  Name : GoString
  ParseName : GoString
  Root : Option CommandNode
  Ctx : Option Context
  text : GoString
  tab : Bool
  lex : Option Lexer
  token0 : Item
  token1 : Item
  token2 : Item
  peekCount : Nat
  deriving DecidableEq, Repr

/-- The zero value of `Item`. -/
def zeroItem : Item := { Typ := .ItemError, Pos := 0, Val := [], End := 0 }

/-- Function `New`: a fresh session with the given name. -/
def New (name : GoString) : Tree :=
  { Name := name, ParseName := [], Root := none, Ctx := none, text := [], tab := false,
    lex := none, token0 := zeroItem, token1 := zeroItem, token2 := zeroItem, peekCount := 0 }

/-- Read of `t.token[i]`; `none` is the index-out-of-range panic. -/
def Tree.tokenAt (t : Tree) (i : Nat) : Option Item :=
  match i with
  | 0 => some t.token0
  | 1 => some t.token1
  | 2 => some t.token2
  | _ => none

/-! ## Results of the parsing methods -/

/-- A Go run-time panic. -/
inductive Fault where
  | indexOutOfRange
  | sliceOutOfRange
  | nilDereference
  deriving DecidableEq, Repr

/-- The error returned by `unquote`. -/
inductive UnquoteError where
  /-- Error `strconv.ErrSyntax`, from `strconv.Unquote`. -/
  | ErrSyntax
  /-- Error `Can't unquote token: %v`. -/
  | cantUnquote (token : Item)
  deriving DecidableEq, Repr

/-- The message of a grammar error raised through `errorf`: its format and
arguments. -/
inductive ParseError where
  /-- Message `unexpected %s in %s`. -/
  | unexpected (token : Item) (context : GoString)
  /-- Message `Unexpected redirection direction %q`. -/
  | unexpectedDirection (dir : GoString)
  /-- Message `Invalid oldfd in qualified redirection %q`. -/
  | invalidOldfd (s : GoString)
  /-- Message `Invalid newfd in qualified redirection %q`. -/
  | invalidNewfd (s : GoString)
  /-- Message `%s` of an error of `unquote`. -/
  | unquoting (e : UnquoteError)
  deriving DecidableEq, Repr

/-- Why a method did not return. -/
inductive Abort where
  /-- The panic of `errorf`, carrying an `error`. -/
  | grammar (e : ParseError)
  /-- A run-time panic. -/
  | fault (f : Fault)
  /-- The fuel of a loop ran out. -/
  | diverge
  deriving DecidableEq, Repr

/-- Outcome of a method on the session: the value returned with the state
after the call, or the panic with the state at the time it was raised. -/
inductive Result (α : Type) where
  | ok (a : α) (t : Tree)
  | abort (e : Abort) (t : Tree)
  deriving DecidableEq, Repr

/-- State carried by an outcome. -/
def Result.state {α : Type} : Result α → Tree
  | .ok _ t => t
  | .abort _ t => t

/-! ## The token cursor -/

/-- Method `next`: returns the next token. -/
def Tree.next (t : Tree) : Result Item :=
  if t.peekCount > 0 then
    let t1 := { t with peekCount := t.peekCount - 1 }
    match t1.tokenAt t1.peekCount with
    | some tok => .ok tok t1
    | none => .abort (.fault .indexOutOfRange) t1
  else
    match t.lex with
    | none => .abort (.fault .nilDereference) t
    | some lx =>
      let t1 := { t with token0 := lx.NextItem.1, lex := some lx.NextItem.2 }
      match t1.tokenAt t1.peekCount with
      | some tok => .ok tok t1
      | none => .abort (.fault .indexOutOfRange) t1

/-- Method `backup`: backs the input stream up one token. -/
def Tree.backup (t : Tree) : Tree := { t with peekCount := t.peekCount + 1 }

/-- Method `backup2`: backs the input stream up two tokens. -/
def Tree.backup2 (t : Tree) (t1 : Item) : Tree := { t with token1 := t1, peekCount := 2 }

/-- Method `backup3`: backs the input stream up three tokens. -/
def Tree.backup3 (t : Tree) (t2 t1 : Item) : Tree :=
  { t with token1 := t1, token2 := t2, peekCount := 3 }

/-- Method `peek`: returns but does not consume the next token. -/
def Tree.peek (t : Tree) : Result Item :=
  if t.peekCount > 0 then
    match t.tokenAt (t.peekCount - 1) with
    | some tok => .ok tok t
    | none => .abort (.fault .indexOutOfRange) t
  else
    let t1 := { t with peekCount := 1 }
    match t1.lex with
    | none => .abort (.fault .nilDereference) t1
    | some lx =>
      let t2 := { t1 with token0 := lx.NextItem.1, lex := some lx.NextItem.2 }
      .ok t2.token0 t2

/-- Number of tokens the cursor can still deliver before the lexer is
exhausted: the fuel of the loops. -/
def Tree.remaining (t : Tree) : Nat :=
  t.peekCount + (match t.lex with | none => 0 | some lx => lx.items.length)

/-- The loop of `nextNonSpace` and `peekNonSpace`: calls `next` until the
token is not a space. -/
def Tree.nextNonSpaceLoop : Nat → Tree → Result Item
  | 0, t => .abort .diverge t
  | n + 1, t =>
    match t.next with
    | .abort e t1 => .abort e t1
    | .ok token t1 =>
      if token.Typ ≠ .ItemSpace then .ok token t1
      else Tree.nextNonSpaceLoop n t1

/-- Method `nextNonSpace`: returns the next non-space token. -/
def Tree.nextNonSpace (t : Tree) : Result Item :=
  Tree.nextNonSpaceLoop (t.remaining + 1) t

/-- Method `peekNonSpace`: returns but does not consume the next non-space
token. -/
def Tree.peekNonSpace (t : Tree) : Result Item :=
  match Tree.nextNonSpaceLoop (t.remaining + 1) t with
  | .abort e t1 => .abort e t1
  | .ok token t1 => .ok token t1.backup

/-! ## Errors -/

/-- Method `errorf`: clears the root, formats the error (reading the line
number of the lexer) and panics with it. -/
def Tree.errorf {α : Type} (t : Tree) (e : ParseError) : Result α :=
  let t1 := { t with Root := none }
  match t1.lex with
  | none => .abort (.fault .nilDereference) t1
  | some _ => .abort (.grammar e) t1

/-- Method `error`: terminates processing with the message of `err`. -/
def Tree.error {α : Type} (t : Tree) (err : UnquoteError) : Result α :=
  t.errorf (.unquoting err)

/-- Method `unexpected`: complains about the token and terminates
processing. -/
def Tree.unexpected {α : Type} (t : Tree) (token : Item) (context : GoString) : Result α :=
  t.errorf (.unexpected token context)

/-! ## Terms -/

/-- Function `unquote`.  The outer `none` is the slice-out-of-range panic of
`token.Val[1:len(token.Val)-1]`. -/
def unquote (token : Item) : Option (Except UnquoteError GoString) :=
  match token.Typ with
  | .ItemBare => some (.ok token.Val)
  | .ItemSingleQuoted =>
    (slice token.Val 1 ((token.Val.length : Int) - 1)).map .ok
  | .ItemDoubleQuoted =>
    match strconv.Unquote token.Val with
    | some text => some (.ok text)
    | none => some (.error .ErrSyntax)
  | _ => some (.error (.cantUnquote token))

/-- Method `term`: parses one term. -/
def Tree.term (t : Tree) : Result Node :=
  match t.next with
  | .abort e t1 => .abort e t1
  | .ok token t1 =>
    if token.Typ = .ItemBare ∨ token.Typ = .ItemSingleQuoted ∨
        token.Typ = .ItemDoubleQuoted then
      match unquote token with
      | none => .abort (.fault .sliceOutOfRange) t1
      | some (.error err) => t1.error err
      | some (.ok text) =>
        let t2 :=
          if token.End &&& MayContinue ≠ 0 then
            { t1 with Ctx := some (NewArgContext token.Val) }
          else { t1 with Ctx := none }
        .ok (newString token.Pos token.Val text) t2
    else t1.unexpected token (str "term")

/-! ## Redirections -/

/-- The partition of the text of a redirection leader into direction and
qualifier; `none` is the slice-out-of-range panic of
`leader.Val[i+1:len(leader.Val)-1]`. -/
def partition (val : GoString) : Option (GoString × GoString) :=
  match IndexRune val 91 with
  | some i =>
    match slice val ((i : Int) + 1) ((val.length : Int) - 1) with
    | some qual => some (val.take i, qual)
    | none => none
  | none => some (val, [])

/-- The `switch dir` of `redir`: the flag and the default oldfd of a
direction; `none` is the `default` case. -/
def direction (dir : GoString) : Option (Nat × Int) :=
  if dir = str "<" then some (os.O_RDONLY, 0)
  else if dir = str "<>" then some (os.O_RDWR ||| os.O_CREATE, 0)
  else if dir = str ">" then some (os.O_WRONLY ||| os.O_CREATE, 1)
  else if dir = str ">>" then some (os.O_WRONLY ||| os.O_CREATE ||| os.O_APPEND, 1)
  else none

/-- The end of `redir`, a filename redirection: skips spaces and parses the
target as a term. -/
def Tree.redirFilename (t : Tree) (oldfd : Int) (flag : Nat) : Result Redir :=
  match t.peekNonSpace with
  | .abort e t1 => .abort e t1
  | .ok _ t1 =>
    match t1.term with
    | .abort e t2 => .abort e t2
    | .ok target t2 => .ok (newFilenameRedir oldfd flag target) t2

/-- What `redir` makes of the text of the leader, before it reads any
further token. -/
inductive Leader where
  /-- The slice-out-of-range panic of the partition. -/
  | fault
  /-- A call of `errorf` with this message. -/
  | error (e : ParseError)
  /-- The redirection returned from the qualifier alone (`FdRedir` or
  `CloseRedir`). -/
  | done (r : Redir)
  /-- The fall through to the filename redirection, with the resolved oldfd
  and flag. -/
  | filename (oldfd : Int) (flag : Nat)
  deriving DecidableEq, Repr

/-- The body of `redir` from the partition of the leader down to the
`// FilenameRedir` comment: it reads the text of the leader only. -/
def redirLeader (val : GoString) : Leader :=
  match partition val with
  | none => .fault
  | some (dir, qual) =>
    match direction dir with
    | none => .error (.unexpectedDirection dir)
    | some (flag, oldfd) =>
      if qual.length > 0 then
        match IndexRune qual 61 with
        | some i =>
          let lhs := qual.take i
          let rhs := qual.drop (i + 1)
          match (if lhs.length > 0 then strconv.Atoi lhs else some oldfd) with
          | none => .error (.invalidOldfd lhs)
          | some oldfd1 =>
            if rhs.length > 0 then
              match strconv.Atoi rhs with
              | none => .error (.invalidNewfd rhs)
              | some newfd => .done (newFdRedir oldfd1 newfd)
            else .done (newCloseRedir oldfd1)
        | none =>
          match strconv.Atoi qual with
          | none => .error (.invalidOldfd qual)
          | some oldfd1 => .filename oldfd1 flag
      else .filename oldfd flag

/-- Method `redir`: parses an IO redirection. -/
def Tree.redir (t : Tree) : Result Redir :=
  match t.next with
  | .abort e t1 => .abort e t1
  | .ok leader t1 =>
    match redirLeader leader.Val with
    | .fault => .abort (.fault .sliceOutOfRange) t1
    | .error e => t1.errorf e
    | .done r => .ok r t1
    | .filename oldfd flag => t1.redirFilename oldfd flag

/-! ## The command loop and the entry points -/

/-- The `for` loop of `parse`. -/
def Tree.parseLoop : Nat → Tree → Result Unit
  | 0, t => .abort .diverge t
  | n + 1, t =>
    match t.peekNonSpace with
    | .abort e t1 => .abort e t1
    | .ok token t1 =>
      if token.Typ = .ItemBare ∨ token.Typ = .ItemSingleQuoted ∨
          token.Typ = .ItemDoubleQuoted then
        match t1.term with
        | .abort e t2 => .abort e t2
        | .ok node t2 =>
          match t2.Root with
          | none => .abort (.fault .nilDereference) t2
          | some root => Tree.parseLoop n { t2 with Root := some (root.append node) }
      else if token.Typ = .ItemRedirLeader then
        match t1.redir with
        | .abort e t2 => .abort e t2
        | .ok r t2 =>
          match t2.Root with
          | none => .abort (.fault .nilDereference) t2
          | some root =>
            Tree.parseLoop n { t2 with Root := some { root with Redirs := root.Redirs ++ [r] } }
      else .ok () t1

/-- Method `parse`: the top-level parser, which parses one command. -/
def Tree.parse (t : Tree) : Result Unit :=
  match t.peek with
  | .abort e t1 => .abort e t1
  | .ok token t1 =>
    let t2 := { t1 with Root := some (newCommand token.Pos) }
    Tree.parseLoop (t2.remaining + 1) t2

/-- Method `startParse`: initializes the parser, using the lexer. -/
def Tree.startParse (t : Tree) (lx : Lexer) : Tree :=
  { t with Root := none, lex := some lx }

/-- Method `stopParse`: terminates parsing. -/
def Tree.stopParse (t : Tree) : Tree :=
  let t1 := { t with lex := none }
  if t1.tab then { t1 with Root := none } else { t1 with Ctx := none }

/-- What a call of `Parse` or `Do` does: it returns the session with an
error (`none` is the nil error), or a run-time panic propagates out of it. -/
inductive Outcome where
  | returned (t : Tree) (err : Option ParseError)
  | panicked (f : Fault) (t : Tree)
  | diverged
  deriving DecidableEq, Repr

/-- The statements of `Parse` before the call of `parse`.  The lexer `lx` is
the value of `Lex(t.Name, text)`. -/
def Tree.prepare (t : Tree) (lx : Lexer) (text : GoString) (tab : Bool) : Tree :=
  let t1 := { t with tab := tab, ParseName := t.Name }
  let t2 := t1.startParse lx
  { t2 with text := text }

/-- Method `Parse`, with its deferred `recover`.  A panic carrying an `error`
is turned into the returned error after `stopParse`; a run-time panic is
raised again. -/
def Tree.Parse (t : Tree) (lx : Lexer) (text : GoString) (tab : Bool) : Outcome :=
  match (t.prepare lx text tab).parse with
  | .ok _ t4 => .returned t4.stopParse none
  | .abort (.grammar e) t4 => .returned t4.stopParse (some e)
  | .abort (.fault f) t4 => .panicked f t4
  | .abort .diverge _ => .diverged

/-- Function `Do`: parses `text` in a fresh session.  The lexer `lx` is the
value of `Lex(name, text)`. -/
def Do (lx : Lexer) (name text : GoString) (tab : Bool) : Outcome :=
  (New name).Parse lx text tab


/-! ## Reading the cursor -/

/-- The tokens the cursor delivers next, in order, in a state with a lexer
and at most one buffered token (the states the parser is in between two
calls); `none` in every other state. -/
def Tree.pending (t : Tree) : Option (List Item) :=
  match t.lex with
  | none => none
  | some lx =>
    if t.peekCount = 0 then some lx.items
    else if t.peekCount = 1 then some (t.token0 :: lx.items)
    else none

/-- A token of the type of a term: bareword, single-quoted or
double-quoted. -/
def isTerm (tok : Item) : Bool :=
  decide (tok.Typ = .ItemBare ∨ tok.Typ = .ItemSingleQuoted ∨ tok.Typ = .ItemDoubleQuoted)

/-- A whitespace token. -/
def isSpace (tok : Item) : Bool := decide (tok.Typ = .ItemSpace)

/-- The continuation context `term` leaves after the token. -/
def termCtx (tok : Item) : Option Context :=
  if tok.End &&& MayContinue ≠ 0 then some (NewArgContext tok.Val) else none

/-- The node `term` builds from a token: `none` when the token is not of
the type of a term or does not unquote. -/
def termNode (tok : Item) : Option Node :=
  if isTerm tok then
    match unquote tok with
    | some (.ok text) => some (newString tok.Pos tok.Val text)
    | _ => none
  else none

/-- One term or one redirection of a command line, as the tokens it is
written with: the space tokens in front of it included. -/
inductive Piece where
  /-- A term token. -/
  | arg (spaces : List Item) (token : Item)
  /-- A redirection leader that is a redirection on its own. -/
  | redirFd (spaces : List Item) (leader : Item)
  /-- A redirection leader and the term token of its target. -/
  | redirFile (spaces : List Item) (leader : Item) (spaces2 : List Item) (target : Item)
  deriving DecidableEq, Repr

/-- The tokens of a piece, in input order. -/
def Piece.tokens : Piece → List Item
  | .arg sps tok => sps ++ [tok]
  | .redirFd sps leader => sps ++ [leader]
  | .redirFile sps leader sps2 tok => sps ++ leader :: (sps2 ++ [tok])

/-- The argument node of a well-formed term piece. -/
def Piece.node : Piece → Option Node
  | .arg sps tok => if sps.all isSpace then termNode tok else none
  | _ => none

/-- The redirection of a well-formed redirection piece. -/
def Piece.redir : Piece → Option Redir
  | .arg _ _ => none
  | .redirFd sps leader =>
    if sps.all isSpace ∧ leader.Typ = .ItemRedirLeader then
      match redirLeader leader.Val with
      | .done r => some r
      | _ => none
    else none
  | .redirFile sps leader sps2 tok =>
    if sps.all isSpace ∧ leader.Typ = .ItemRedirLeader ∧ sps2.all isSpace then
      match redirLeader leader.Val, termNode tok with
      | .filename oldfd flag, some target => some (newFilenameRedir oldfd flag target)
      | _, _ => none
    else none

/-- A piece is well formed when it is a term that unquotes or a redirection
the redirection parser accepts. -/
def Piece.wellFormed (p : Piece) : Bool := p.node.isSome || p.redir.isSome

/-- The argument nodes of a sequence of pieces, in order. -/
def argsOf (ps : List Piece) : List Node := ps.filterMap Piece.node

/-- The redirections of a sequence of pieces, in order. -/
def redirsOf (ps : List Piece) : List Redir := ps.filterMap Piece.redir

/-- The continuation context after a sequence of pieces: the one left by
the last term token, or the initial one when there is none. -/
def ctxAfter (c : Option Context) : List Piece → Option Context
  | [] => c
  | .arg _ tok :: ps => ctxAfter (termCtx tok) ps
  | .redirFd _ _ :: ps => ctxAfter c ps
  | .redirFile _ _ _ tok :: ps => ctxAfter (termCtx tok) ps

/-- A token at which the command loop stops: neither a space nor the
start of a term or of a redirection. -/
def isStop (tok : Item) : Bool :=
  !(isSpace tok) && !(isTerm tok) && decide (tok.Typ ≠ .ItemRedirLeader)

/-- The property every parsing method keeps: the interactive flag of the
session is left as it was, and a panic raised through `errorf` leaves the
session with its root cleared. -/
def Result.Kept {α : Type} (r : Result α) (t : Tree) : Prop :=
  r.state.tab = t.tab ∧ ∀ e t1, r = .abort (.grammar e) t1 → t1.Root = none

/-- The root of the session a call returned; `none` also when the call did
not return. -/
def Outcome.root : Outcome → Option CommandNode
  | .returned t _ => t.Root
  | _ => none

/-- The error a call returned; `none` is the nil error, and also stands for
a call that did not return. -/
def Outcome.err : Outcome → Option ParseError
  | .returned _ e => e
  | _ => none

/-- The continuation context of the session a call returned. -/
def Outcome.ctx : Outcome → Option Context
  | .returned t _ => t.Ctx
  | _ => none

/-- Whether the call returned to its caller. -/
def Outcome.isReturned : Outcome → Bool
  | .returned _ _ => true
  | _ => false

/-- A decimal numeral: a non-empty run of decimal digits. -/
def isNumeral (s : GoString) : Bool := !s.isEmpty && s.all strconv.isDigit

/-- A token with the given type, position and text, its end flag cleared. -/
def tok (typ : ItemType) (pos : Nat) (s : String) : Item :=
  { Typ := typ, Pos := pos, Val := str s, End := 0 }

/-- A fresh session reading the given tokens: the state of the cursor when
`Parse` calls `parse`. -/
def startAt (items : List Item) : Tree := (New []).startParse ⟨items⟩

/-- An integer numeral: a decimal numeral with an optional sign `+` or `-`
in front. -/
def isIntNumeral (s : GoString) : Bool :=
  match s with
  | [] => false
  | c :: rest => if c = 43 ∨ c = 45 then isNumeral rest else isNumeral s

/-- The outcome is not an exhausted fuel: the loop it stands for came to an
end. -/
def Result.Terminates {α : Type} (r : Result α) : Prop :=
  ∀ t1, r ≠ .abort .diverge t1

/-- The term tokens of a well-formed command line: a bareword, a
single-quoted token of at least two bytes, or a double-quoted token that is
a valid string literal. -/
def isGoodTerm (tok : Item) : Bool :=
  decide (tok.Typ = .ItemBare)
    || (decide (tok.Typ = .ItemSingleQuoted) && decide (2 ≤ tok.Val.length))
    || (decide (tok.Typ = .ItemDoubleQuoted) && (strconv.Unquote tok.Val).isSome)

/-- The unquoted value of a term token as the specification words it: a
bareword is unchanged, a single-quoted token loses its first and its last
character, a double-quoted token is decoded as a string literal. -/
def termValue (tok : Item) : GoString :=
  match tok.Typ with
  | .ItemBare => tok.Val
  | .ItemSingleQuoted => (tok.Val.drop 1).dropLast
  | .ItemDoubleQuoted => (strconv.Unquote tok.Val).getD []
  | _ => []

/-- A byte that stands for itself inside a double-quoted literal: ASCII and
neither the backslash, the double quote nor the newline. -/
def isPlainByte (b : UInt8) : Bool :=
  decide (b.toNat < 0x80) && decide (b ≠ 92) && decide (b ≠ 34) && decide (b ≠ 10)

/-- The bytes that may follow a backslash in a double-quoted literal: the
letters of the conventional escapes, `x`, `u`, `U`, an octal digit, the
backslash and the double quote. -/
def isEscapeByte (c : UInt8) : Bool :=
  decide (c ∈ ([97, 98, 102, 110, 114, 116, 118, 120, 117, 85, 92, 34] : List UInt8))
    || strconv.inRange c 48 55

/-- The outcome leaves at most one token buffered and is not the panic of an
index of the token buffer out of range. -/
def Result.Within {α : Type} (r : Result α) : Prop :=
  r.state.peekCount ≤ 1 ∧ ∀ t1, r ≠ .abort (.fault .indexOutOfRange) t1

/-- The session a call left behind: the one it returned, or the one it had
when a run-time panic left it. -/
def Outcome.state : Outcome → Option Tree
  | .returned t _ => some t
  | .panicked _ t => some t
  | .diverged => none

/-- The run-time panic that left a call; `none` when the call returned. -/
def Outcome.fault : Outcome → Option Fault
  | .panicked f _ => some f
  | _ => none

/-! ## The error context -/

/-- Modelled from the spec: method `Position` of a node (the declaration is
not among the sources): the position the node carries. -/
def Node.Position : Node → Nat
  | .StringNode pos _ _ => pos

namespace strings

/-- Go `strings.LastIndex` for a one-byte separator: the index of its last
occurrence; `none` is the result `-1`. -/
def LastIndex (s : GoString) (c : UInt8) : Option Nat :=
  match IndexRune s.reverse c with
  | none => none
  | some j => some (s.length - 1 - j)

/-- Go `strings.Count` for a one-byte separator. -/
def Count (s : GoString) (c : UInt8) : Nat := s.count c

end strings

namespace fmt

/-- The digits of the verb `%d` for a natural number, on fuel. -/
def itoaAux : Nat → Nat → GoString → GoString
  | 0, _, acc => acc
  | fuel + 1, n, acc =>
    if n < 10 then (48 + n).toUInt8 :: acc
    else itoaAux fuel (n / 10) ((48 + n % 10).toUInt8 :: acc)

/-- The text of the verb `%d` for a natural number. -/
def itoa (n : Nat) : GoString := itoaAux (n + 1) n []

/-- The loop of `truncateString`: the bytes of the first `n` runes of `s`, a
byte that starts no valid encoding counting as one rune. -/
def truncateAux : Nat → Nat → GoString → GoString
  | 0, _, _ => []
  | _ + 1, _, [] => []
  | fuel + 1, n, b :: rest =>
    if n = 0 then []
    else
      (b :: rest).take (strconv.DecodeRune (b :: rest)).2
        ++ truncateAux fuel (n - 1) ((b :: rest).drop (strconv.DecodeRune (b :: rest)).2)

/-- Go `fmt` truncation of a string by the precision of the verb `%.Ns`: the
precision is measured in runes. -/
def truncateString (n : Nat) (s : GoString) : GoString := truncateAux s.length n s

/-- Go `utf8.RuneCountInString`, on fuel. -/
def runeCountAux : Nat → GoString → Nat
  | 0, _ => 0
  | _ + 1, [] => 0
  | fuel + 1, b :: rest =>
    1 + runeCountAux fuel ((b :: rest).drop (strconv.DecodeRune (b :: rest)).2)

/-- Go `utf8.RuneCountInString`: the number of characters of a string. -/
def RuneCount (s : GoString) : Nat := runeCountAux s.length s

end fmt

/-- Method `ErrorContext`: the location of the node in the input text and a
shortened rendering of the node.  The method `String` of the node, which is
not among the sources, is the parameter `render`; `none` is the
slice-out-of-range panic of `t.text[:pos]`. -/
def Tree.ErrorContext (render : Node → GoString) (t : Tree) (n : Node) :
    Option (GoString × GoString) :=
  let pos := n.Position
  match slice t.text 0 pos with
  | none => none
  | some text =>
    let byteNum :=
      match strings.LastIndex text 10 with
      | none => pos
      | some i => pos - (i + 1)
    let lineNum := 1 + strings.Count text 10
    let context := render n
    let context :=
      if context.length > 20 then fmt.truncateString 20 context ++ str "..." else context
    some (t.ParseName ++ str ":" ++ fmt.itoa lineNum ++ str ":" ++ fmt.itoa byteNum, context)

/-- The value of an integer numeral is in the range of `int`: at most
2^63 - 1, or at least -2^63 under a minus sign. -/
def inIntRange (s : GoString) : Bool :=
  match s with
  | [] => false
  | c :: rest =>
    if c = 45 then decide (strconv.digitsValue rest ≤ strconv.maxInt + 1)
    else if c = 43 then decide (strconv.digitsValue rest ≤ strconv.maxInt)
    else decide (strconv.digitsValue s ≤ strconv.maxInt)

/-- The grammar error `term` raises on a token: the unexpected-token error
when the token is not of the type of a term, the unquoting error when it
does not unquote; `none` when `term` raises no grammar error. -/
def termError (tok : Item) : Option ParseError :=
  if isTerm tok then
    match unquote tok with
    | some (.error err) => some (.unquoting err)
    | _ => none
  else some (.unexpected tok (str "term"))

/-- The tokens on which one round of the command loop raises a grammar
error, the space tokens in front included. -/
inductive Failure where
  /-- A term token that does not unquote. -/
  | term (spaces : List Item) (token : Item)
  /-- A redirection leader whose text is rejected. -/
  | leader (spaces : List Item) (leader : Item)
  /-- A redirection leader of a filename redirection and the token, not a
  space, on which the term parser fails. -/
  | target (spaces : List Item) (leader : Item) (spaces2 : List Item) (token : Item)
  deriving DecidableEq, Repr

/-- The tokens of a failure, in input order. -/
def Failure.tokens : Failure → List Item
  | .term sps token => sps ++ [token]
  | .leader sps lead => sps ++ [lead]
  | .target sps lead sps2 token => sps ++ lead :: (sps2 ++ [token])

/-- The grammar error raised on the tokens of a failure; `none` when the
tokens are not a failure of that kind. -/
def Failure.error : Failure → Option ParseError
  | .term sps token =>
    if sps.all isSpace ∧ isTerm token = true then termError token else none
  | .leader sps lead =>
    if sps.all isSpace ∧ lead.Typ = .ItemRedirLeader then
      match redirLeader lead.Val with
      | .error e => some e
      | _ => none
    else none
  | .target sps lead sps2 token =>
    if sps.all isSpace ∧ lead.Typ = .ItemRedirLeader ∧ sps2.all isSpace
        ∧ isSpace token = false then
      match redirLeader lead.Val with
      | .filename _ _ => termError token
      | _ => none
    else none

/-! # Theorems -/

theorem next_pending (t : Tree) (tok : Item) (rest : List Item)
    (h : t.pending = some (tok :: rest)) :
    t.next = .ok tok { t with token0 := tok, lex := some ⟨rest⟩, peekCount := 0 } := by
  obtain ⟨nm, pn, root, ctx, text, tab, lex, t0, t1, t2, pc⟩ := t
  cases lex with
  | none => simp [Tree.pending] at h
  | some lx =>
    obtain ⟨items⟩ := lx
    simp only [Tree.pending] at h
    by_cases h0 : pc = 0
    · subst h0
      simp only [if_true] at h
      have hi : items = tok :: rest := by simpa using h
      subst hi
      simp [Tree.next, Tree.tokenAt, Lexer.NextItem]
    · by_cases h1 : pc = 1
      · subst h1
        simp at h
        obtain ⟨rfl, rfl⟩ := h
        simp [Tree.next, Tree.tokenAt]
      · simp [h0, h1] at h

theorem pending_after (t : Tree) (tok : Item) (rest : List Item) (root : Option CommandNode)
    (ctx : Option Context) :
    Tree.pending { t with Root := root, Ctx := ctx, token0 := tok, lex := some ⟨rest⟩,
                          peekCount := 0 } = some rest := by
  simp [Tree.pending]

theorem pending_backup (t : Tree) (tok : Item) (rest : List Item) :
    Tree.pending { t with token0 := tok, lex := some ⟨rest⟩, peekCount := 1 }
      = some (tok :: rest) := by
  simp [Tree.pending]

theorem remaining_of_pending (t : Tree) (l : List Item) (h : t.pending = some l) :
    t.remaining = l.length := by
  obtain ⟨nm, pn, root, ctx, text, tab, lex, t0, t1, t2, pc⟩ := t
  cases lex with
  | none => simp [Tree.pending] at h
  | some lx =>
    simp only [Tree.pending] at h
    by_cases h0 : pc = 0
    · subst h0
      simp at h
      simp [Tree.remaining, h]
    · by_cases h1 : pc = 1
      · subst h1
        simp at h
        subst h
        simp [Tree.remaining]; omega
      · simp [h0, h1] at h

theorem nextNonSpaceLoop_pending (sps : List Item) :
    ∀ (n : Nat) (t : Tree) (tok : Item) (rest : List Item),
      t.pending = some (sps ++ tok :: rest) → (∀ s ∈ sps, isSpace s = true) →
      isSpace tok = false → sps.length < n →
      Tree.nextNonSpaceLoop n t
        = .ok tok { t with token0 := tok, lex := some ⟨rest⟩, peekCount := 0 } := by
  induction sps with
  | nil =>
    intro n t tok rest hp _ htok hn
    obtain ⟨m, rfl⟩ : ∃ m, n = m + 1 := ⟨n - 1, by simp at hn; omega⟩
    have hne : tok.Typ ≠ .ItemSpace := by simpa [isSpace] using htok
    simp [Tree.nextNonSpaceLoop, next_pending t tok rest (by simpa using hp), hne]
  | cons s sps ih =>
    intro n t tok rest hp hs htok hn
    obtain ⟨m, rfl⟩ : ∃ m, n = m + 1 := ⟨n - 1, by simp at hn; omega⟩
    have hsp : s.Typ = .ItemSpace := by
      have := hs s (by simp)
      simpa [isSpace] using this
    have hnx := next_pending t s (sps ++ tok :: rest) (by simpa using hp)
    have := ih m { t with token0 := s, lex := some ⟨sps ++ tok :: rest⟩, peekCount := 0 }
      tok rest (by simp [Tree.pending]) (fun x hx => hs x (by simp [hx])) htok
      (by simp at hn; omega)
    simp [Tree.nextNonSpaceLoop, hnx, hsp, this]

theorem peekNonSpace_pending (t : Tree) (sps : List Item) (tok : Item) (rest : List Item)
    (hp : t.pending = some (sps ++ tok :: rest)) (hs : ∀ s ∈ sps, isSpace s = true)
    (htok : isSpace tok = false) :
    t.peekNonSpace
      = .ok tok { t with token0 := tok, lex := some ⟨rest⟩, peekCount := 1 } := by
  have hr := remaining_of_pending t _ hp
  have := nextNonSpaceLoop_pending sps (t.remaining + 1) t tok rest hp hs htok
    (by rw [hr]; simp; omega)
  simp [Tree.peekNonSpace, this, Tree.backup]

theorem term_pending (t : Tree) (tok : Item) (rest : List Item) (text : GoString)
    (hp : t.pending = some (tok :: rest)) (ht : isTerm tok = true)
    (hu : unquote tok = some (.ok text)) :
    t.term = .ok (newString tok.Pos tok.Val text)
      { t with Ctx := termCtx tok, token0 := tok, lex := some ⟨rest⟩, peekCount := 0 } := by
  have ht2 : tok.Typ = .ItemBare ∨ tok.Typ = .ItemSingleQuoted ∨
      tok.Typ = .ItemDoubleQuoted := by simpa [isTerm] using ht
  simp only [Tree.term, next_pending t tok rest hp, ht2, if_true, hu, termCtx]
  split <;> rfl

theorem peek_pending (t : Tree) (tok : Item) (rest : List Item)
    (h : t.pending = some (tok :: rest)) :
    t.peek = .ok tok { t with token0 := tok, lex := some ⟨rest⟩, peekCount := 1 } := by
  obtain ⟨nm, pn, root, ctx, text, tab, lex, t0, t1, t2, pc⟩ := t
  cases lex with
  | none => simp [Tree.pending] at h
  | some lx =>
    obtain ⟨items⟩ := lx
    simp only [Tree.pending] at h
    by_cases h0 : pc = 0
    · subst h0
      simp only [if_true] at h
      have hi : items = tok :: rest := by simpa using h
      subst hi
      simp [Tree.peek, Lexer.NextItem]
    · by_cases h1 : pc = 1
      · subst h1
        simp at h
        obtain ⟨rfl, rfl⟩ := h
        simp [Tree.peek, Tree.tokenAt]
      · simp [h0, h1] at h

theorem termNode_some (tok : Item) (n : Node) (h : termNode tok = some n) :
    isTerm tok = true ∧ ∃ text, unquote tok = some (.ok text) ∧
      n = newString tok.Pos tok.Val text := by
  unfold termNode at h
  split at h
  · rename_i ht
    refine ⟨ht, ?_⟩
    split at h
    · rename_i text hu
      exact ⟨text, hu, by simpa using h.symm⟩
    · simp at h
  · simp at h

theorem isSpace_false_of_isTerm (tok : Item) (h : isTerm tok = true) : isSpace tok = false := by
  simp only [isTerm, decide_eq_true_eq] at h
  simp only [isSpace, decide_eq_false_iff_not]
  rcases h with h | h | h <;> simp [h]

theorem isSpace_false_of_leader (tok : Item) (h : tok.Typ = .ItemRedirLeader) :
    isSpace tok = false := by
  simp [isSpace, h]

theorem isTerm_false_of_leader (tok : Item) (h : tok.Typ = .ItemRedirLeader) :
    isTerm tok = false := by
  simp [isTerm, h]

theorem redirFilename_pending (t : Tree) (sps : List Item) (tok : Item) (rest : List Item)
    (text : GoString) (oldfd : Int) (flag : Nat)
    (hp : t.pending = some (sps ++ tok :: rest)) (hs : ∀ s ∈ sps, isSpace s = true)
    (ht : isTerm tok = true) (hu : unquote tok = some (.ok text)) :
    t.redirFilename oldfd flag
      = .ok (newFilenameRedir oldfd flag (newString tok.Pos tok.Val text))
          { t with Ctx := termCtx tok, token0 := tok, lex := some ⟨rest⟩, peekCount := 0 } := by
  have h1 := peekNonSpace_pending t sps tok rest hp hs (isSpace_false_of_isTerm tok ht)
  have h2 := term_pending { t with token0 := tok, lex := some ⟨rest⟩, peekCount := 1 }
    tok rest text (by simp [Tree.pending]) ht hu
  simp [Tree.redirFilename, h1, h2]
theorem redir_done (t : Tree) (leader : Item) (rest : List Item) (r : Redir)
    (hp : t.pending = some (leader :: rest)) (hl : redirLeader leader.Val = .done r) :
    t.redir = .ok r { t with token0 := leader, lex := some ⟨rest⟩, peekCount := 0 } := by
  simp [Tree.redir, next_pending t leader rest hp, hl]

theorem redir_error (t : Tree) (leader : Item) (rest : List Item) (e : ParseError)
    (hp : t.pending = some (leader :: rest)) (hl : redirLeader leader.Val = .error e) :
    t.redir = .abort (.grammar e)
      { t with Root := none, token0 := leader, lex := some ⟨rest⟩, peekCount := 0 } := by
  simp [Tree.redir, next_pending t leader rest hp, hl, Tree.errorf]

theorem redir_filename (t : Tree) (leader : Item) (sps : List Item) (tok : Item)
    (rest : List Item) (text : GoString) (oldfd : Int) (flag : Nat)
    (hp : t.pending = some (leader :: (sps ++ tok :: rest)))
    (hl : redirLeader leader.Val = .filename oldfd flag)
    (hs : ∀ s ∈ sps, isSpace s = true) (ht : isTerm tok = true)
    (hu : unquote tok = some (.ok text)) :
    t.redir = .ok (newFilenameRedir oldfd flag (newString tok.Pos tok.Val text))
      { t with Ctx := termCtx tok, token0 := tok, lex := some ⟨rest⟩, peekCount := 0 } := by
  have h2 := redirFilename_pending
    { t with token0 := leader, lex := some ⟨sps ++ tok :: rest⟩, peekCount := 0 }
    sps tok rest text oldfd flag (by simp [Tree.pending]) hs ht hu
  simp [Tree.redir, next_pending t leader _ hp, hl, h2]

theorem parseLoop_stop (n : Nat) (t : Tree) (sps : List Item) (stop : Item) (rest : List Item)
    (hp : t.pending = some (sps ++ stop :: rest)) (hs : ∀ s ∈ sps, isSpace s = true)
    (hstop : isStop stop = true) :
    Tree.parseLoop (n + 1) t
      = .ok () { t with token0 := stop, lex := some ⟨rest⟩, peekCount := 1 } := by
  simp only [isStop, Bool.and_eq_true, Bool.not_eq_true', decide_eq_true_eq] at hstop
  obtain ⟨⟨hsp, hterm⟩, hlead⟩ := hstop
  have h1 := peekNonSpace_pending t sps stop rest hp hs hsp
  have hterm2 : ¬ (stop.Typ = .ItemBare ∨ stop.Typ = .ItemSingleQuoted ∨
      stop.Typ = .ItemDoubleQuoted) := by simpa [isTerm] using hterm
  simp [Tree.parseLoop, h1, hterm2, hlead]

theorem parseLoop_arg (n : Nat) (t : Tree) (root : CommandNode) (sps : List Item) (tok : Item)
    (rest : List Item) (text : GoString)
    (hp : t.pending = some (sps ++ tok :: rest)) (hs : ∀ s ∈ sps, isSpace s = true)
    (ht : isTerm tok = true) (hu : unquote tok = some (.ok text))
    (hroot : t.Root = some root) :
    Tree.parseLoop (n + 1) t
      = Tree.parseLoop n
          { t with Root := some (root.append (newString tok.Pos tok.Val text)),
                   Ctx := termCtx tok, token0 := tok, lex := some ⟨rest⟩, peekCount := 0 } := by
  have h1 := peekNonSpace_pending t sps tok rest hp hs (isSpace_false_of_isTerm tok ht)
  have h2 := term_pending { t with token0 := tok, lex := some ⟨rest⟩, peekCount := 1 }
    tok rest text (by simp [Tree.pending]) ht hu
  have ht2 : tok.Typ = .ItemBare ∨ tok.Typ = .ItemSingleQuoted ∨
      tok.Typ = .ItemDoubleQuoted := by simpa [isTerm] using ht
  rw [Tree.parseLoop, h1]
  simp only [ht2, if_true]
  rw [h2]
  simp [hroot]

theorem parseLoop_redir_done (n : Nat) (t : Tree) (root : CommandNode) (sps : List Item)
    (leader : Item) (rest : List Item) (r : Redir)
    (hp : t.pending = some (sps ++ leader :: rest)) (hs : ∀ s ∈ sps, isSpace s = true)
    (hl : leader.Typ = .ItemRedirLeader) (hr : redirLeader leader.Val = .done r)
    (hroot : t.Root = some root) :
    Tree.parseLoop (n + 1) t
      = Tree.parseLoop n
          { t with Root := some { root with Redirs := root.Redirs ++ [r] },
                   token0 := leader, lex := some ⟨rest⟩, peekCount := 0 } := by
  have h1 := peekNonSpace_pending t sps leader rest hp hs (isSpace_false_of_leader leader hl)
  have h2 := redir_done { t with token0 := leader, lex := some ⟨rest⟩, peekCount := 1 }
    leader rest r (by simp [Tree.pending]) hr
  have hnt : ¬ (leader.Typ = .ItemBare ∨ leader.Typ = .ItemSingleQuoted ∨
      leader.Typ = .ItemDoubleQuoted) := by simp [hl]
  rw [Tree.parseLoop, h1]
  simp only [hnt, if_false, hl, if_true]
  rw [h2]
  simp [hroot]

theorem parseLoop_redir_file (n : Nat) (t : Tree) (root : CommandNode) (sps : List Item)
    (leader : Item) (sps2 : List Item) (tok : Item) (rest : List Item) (text : GoString)
    (oldfd : Int) (flag : Nat)
    (hp : t.pending = some (sps ++ leader :: (sps2 ++ tok :: rest)))
    (hs : ∀ s ∈ sps, isSpace s = true)
    (hl : leader.Typ = .ItemRedirLeader) (hr : redirLeader leader.Val = .filename oldfd flag)
    (hs2 : ∀ s ∈ sps2, isSpace s = true) (ht : isTerm tok = true)
    (hu : unquote tok = some (.ok text)) (hroot : t.Root = some root) :
    Tree.parseLoop (n + 1) t
      = Tree.parseLoop n
          { t with Root := some { root with Redirs := root.Redirs ++
                     [newFilenameRedir oldfd flag (newString tok.Pos tok.Val text)] },
                   Ctx := termCtx tok, token0 := tok, lex := some ⟨rest⟩, peekCount := 0 } := by
  have h1 := peekNonSpace_pending t sps leader (sps2 ++ tok :: rest) hp hs
    (isSpace_false_of_leader leader hl)
  have h2 := redir_filename
    { t with token0 := leader, lex := some ⟨sps2 ++ tok :: rest⟩, peekCount := 1 }
    leader sps2 tok rest text oldfd flag (by simp [Tree.pending]) hr hs2 ht hu
  have hnt : ¬ (leader.Typ = .ItemBare ∨ leader.Typ = .ItemSingleQuoted ∨
      leader.Typ = .ItemDoubleQuoted) := by simp [hl]
  rw [Tree.parseLoop, h1]
  simp only [hnt, if_false, hl, if_true]
  rw [h2]
  simp [hroot]

theorem wellFormed_arg (sps : List Item) (tok : Item)
    (h : (Piece.arg sps tok).wellFormed = true) :
    (∀ s ∈ sps, isSpace s = true) ∧ isTerm tok = true ∧
      ∃ text, unquote tok = some (.ok text) ∧
        (Piece.arg sps tok).node = some (newString tok.Pos tok.Val text) := by
  simp only [Piece.wellFormed, Piece.node, Piece.redir, Option.isSome_none,
    Bool.or_false] at h
  split at h
  · rename_i hsp
    obtain ⟨node, hnode⟩ := Option.isSome_iff_exists.mp h
    obtain ⟨hterm, text, hu, rfl⟩ := termNode_some tok node hnode
    exact ⟨by simpa using hsp, hterm, text, hu, by simp [Piece.node, hsp, hnode]⟩
  · simp at h

theorem wellFormed_redirFd (sps : List Item) (leader : Item)
    (h : (Piece.redirFd sps leader).wellFormed = true) :
    (∀ s ∈ sps, isSpace s = true) ∧ leader.Typ = .ItemRedirLeader ∧
      ∃ r, redirLeader leader.Val = .done r ∧ (Piece.redirFd sps leader).redir = some r := by
  simp only [Piece.wellFormed, Piece.node, Piece.redir, Option.isSome_none,
    Bool.false_or] at h
  split at h
  · rename_i hc
    obtain ⟨hsp, hl⟩ := hc
    cases hr : redirLeader leader.Val with
    | done r => exact ⟨by simpa using hsp, hl, r, rfl, by simp [Piece.redir, hsp, hl, hr]⟩
    | fault => simp [hr] at h
    | error e => simp [hr] at h
    | filename o f => simp [hr] at h
  · simp at h

theorem wellFormed_redirFile (sps : List Item) (leader : Item) (sps2 : List Item) (tok : Item)
    (h : (Piece.redirFile sps leader sps2 tok).wellFormed = true) :
    (∀ s ∈ sps, isSpace s = true) ∧ leader.Typ = .ItemRedirLeader ∧
      (∀ s ∈ sps2, isSpace s = true) ∧ isTerm tok = true ∧
      ∃ oldfd flag text, redirLeader leader.Val = .filename oldfd flag ∧
        unquote tok = some (.ok text) ∧
        (Piece.redirFile sps leader sps2 tok).redir
          = some (newFilenameRedir oldfd flag (newString tok.Pos tok.Val text)) := by
  simp only [Piece.wellFormed, Piece.node, Piece.redir, Option.isSome_none,
    Bool.false_or] at h
  split at h
  · rename_i hc
    obtain ⟨hsp, hl, hsp2⟩ := hc
    cases hr : redirLeader leader.Val with
    | filename o f =>
      cases hn : termNode tok with
      | none => simp [hr, hn] at h
      | some node =>
        obtain ⟨hterm, text, hu, rfl⟩ := termNode_some tok node hn
        exact ⟨by simpa using hsp, hl, by simpa using hsp2, hterm, o, f, text, rfl, hu,
          by simp [Piece.redir, hsp, hl, hsp2, hr, hn]⟩
    | fault => simp [hr] at h
    | error e => simp [hr] at h
    | done r => simp [hr] at h
  · simp at h

theorem parseLoop_pieces (ps : List Piece) :
    ∀ (n : Nat) (t : Tree) (root : CommandNode) (sps : List Item) (stop : Item)
      (rest : List Item),
      (∀ p ∈ ps, p.wellFormed = true) →
      t.pending = some (ps.flatMap Piece.tokens ++ (sps ++ stop :: rest)) →
      t.Root = some root → (∀ s ∈ sps, isSpace s = true) → isStop stop = true →
      ps.length < n →
      Tree.parseLoop n t = .ok ()
        { t with Root := some { root with Nodes := root.Nodes ++ argsOf ps,
                                          Redirs := root.Redirs ++ redirsOf ps },
                 Ctx := ctxAfter t.Ctx ps, token0 := stop, lex := some ⟨rest⟩,
                 peekCount := 1 } := by
  induction ps with
  | nil =>
    intro n t root sps stop rest _ hp hroot hs hstop hn
    obtain ⟨m, rfl⟩ : ∃ m, n = m + 1 := ⟨n - 1, by simp at hn; omega⟩
    rw [parseLoop_stop m t sps stop rest (by simpa using hp) hs hstop]
    obtain ⟨nm, pn, root0, ctx, text, tab, lex, t0, t1, t2, pc⟩ := t
    simp only at hroot
    subst hroot
    simp [argsOf, redirsOf, ctxAfter]
  | cons p ps ih =>
    intro n t root sps stop rest hwf hp hroot hs hstop hn
    obtain ⟨m, rfl⟩ : ∃ m, n = m + 1 := ⟨n - 1, by simp at hn; omega⟩
    have hwfp := hwf p (by simp)
    have hwfps : ∀ q ∈ ps, q.wellFormed = true := fun q hq => hwf q (by simp [hq])
    have hm : ps.length < m := by simp at hn; omega
    cases p with
    | arg sps1 tok =>
      obtain ⟨hs1, hterm, text, hu, hnode⟩ := wellFormed_arg sps1 tok hwfp
      rw [parseLoop_arg m t root sps1 tok (ps.flatMap Piece.tokens ++ (sps ++ stop :: rest))
        text (by simpa [Piece.tokens, List.flatMap_cons] using hp) hs1 hterm hu hroot]
      rw [ih m _ (root.append (newString tok.Pos tok.Val text)) sps stop rest hwfps
        (by simp [Tree.pending]) rfl hs hstop hm]
      have hr : (Piece.arg sps1 tok).redir = none := rfl
      simp [CommandNode.append, argsOf, redirsOf, ctxAfter, hnode, hr]
    | redirFd sps1 leader =>
      obtain ⟨hs1, hlead, r, hr, hred⟩ := wellFormed_redirFd sps1 leader hwfp
      rw [parseLoop_redir_done m t root sps1 leader
        (ps.flatMap Piece.tokens ++ (sps ++ stop :: rest)) r
        (by simpa [Piece.tokens, List.flatMap_cons] using hp) hs1 hlead hr hroot]
      rw [ih m _ { root with Redirs := root.Redirs ++ [r] } sps stop rest hwfps
        (by simp [Tree.pending]) rfl hs hstop hm]
      have hnd : (Piece.redirFd sps1 leader).node = none := rfl
      simp [argsOf, redirsOf, ctxAfter, hred, hnd]
    | redirFile sps1 leader sps2 tok =>
      obtain ⟨hs1, hlead, hs2, hterm, oldfd, flag, text, hr, hu, hred⟩ :=
        wellFormed_redirFile sps1 leader sps2 tok hwfp
      rw [parseLoop_redir_file m t root sps1 leader sps2 tok
        (ps.flatMap Piece.tokens ++ (sps ++ stop :: rest)) text oldfd flag
        (by simpa [Piece.tokens, List.flatMap_cons] using hp) hs1 hlead hr hs2 hterm hu hroot]
      rw [ih m _ { root with Redirs := root.Redirs ++
            [newFilenameRedir oldfd flag (newString tok.Pos tok.Val text)] }
        sps stop rest hwfps (by simp [Tree.pending]) rfl hs hstop hm]
      have hnd : (Piece.redirFile sps1 leader sps2 tok).node = none := rfl
      simp [argsOf, redirsOf, ctxAfter, hred, hnd]
theorem next_kept (t : Tree) : t.next.Kept t := by
  unfold Tree.next
  split
  · dsimp only
    split <;> simp [Result.Kept, Result.state]
  · split
    · simp [Result.Kept, Result.state]
    · dsimp only
      split <;> simp [Result.Kept, Result.state]

theorem kept_bind_abort {α β : Type} (t t1 : Tree) (e : Abort) (r : Result α)
    (hr : r = .abort e t1) (hk : r.Kept t) : (Result.abort e t1 : Result β).Kept t := by
  subst hr
  refine ⟨by simpa [Result.state] using hk.1, ?_⟩
  intro e1 t2 h
  injection h with h1 h2
  subst h1 h2
  exact hk.2 _ _ rfl

theorem kept_trans {α β : Type} (t t1 : Tree) (a : α) (r : Result α) (r2 : Result β)
    (hr : r = .ok a t1) (hk : r.Kept t) (hk2 : r2.Kept t1) : r2.Kept t := by
  subst hr
  exact ⟨by rw [hk2.1]; simpa [Result.state] using hk.1, hk2.2⟩

theorem nextNonSpaceLoop_kept (n : Nat) : ∀ t : Tree, (Tree.nextNonSpaceLoop n t).Kept t := by
  induction n with
  | zero => intro t; simp [Tree.nextNonSpaceLoop, Result.Kept, Result.state]
  | succ n ih =>
    intro t
    unfold Tree.nextNonSpaceLoop
    have hk := next_kept t
    cases hn : t.next with
    | abort e t1 => exact kept_bind_abort t t1 e _ hn hk
    | ok token t1 =>
      dsimp only
      split
      · exact ⟨by simpa [Result.state, hn] using hk.1, by simp⟩
      · exact kept_trans t t1 token _ _ hn hk (ih t1)

theorem peekNonSpace_kept (t : Tree) : t.peekNonSpace.Kept t := by
  unfold Tree.peekNonSpace
  have hk := nextNonSpaceLoop_kept (t.remaining + 1) t
  cases hn : Tree.nextNonSpaceLoop (t.remaining + 1) t with
  | abort e t1 => exact kept_bind_abort t t1 e _ hn hk
  | ok token t1 =>
    exact ⟨by simpa [Result.state, hn, Tree.backup] using hk.1, by simp⟩

theorem errorf_kept {α : Type} (t : Tree) (e : ParseError) :
    (t.errorf e : Result α).Kept t := by
  unfold Tree.errorf
  dsimp only
  split
  · simp [Result.Kept, Result.state]
  · refine ⟨by simp [Result.state], ?_⟩
    intro e1 t1 h
    injection h with h1 h2
    subst h2
    rfl

theorem term_kept (t : Tree) : t.term.Kept t := by
  unfold Tree.term
  have hk := next_kept t
  cases hn : t.next with
  | abort e t1 => exact kept_bind_abort t t1 e _ hn hk
  | ok token t1 =>
    dsimp only
    refine kept_trans t t1 token _ _ hn hk ?_
    split
    · split
      · simp [Result.Kept, Result.state]
      · exact errorf_kept t1 _
      · refine ⟨?_, by simp⟩
        split <;> simp [Result.state]
    · exact errorf_kept t1 _

theorem redirFilename_kept (t : Tree) (oldfd : Int) (flag : Nat) :
    (t.redirFilename oldfd flag).Kept t := by
  unfold Tree.redirFilename
  have hk := peekNonSpace_kept t
  cases hn : t.peekNonSpace with
  | abort e t1 => exact kept_bind_abort t t1 e _ hn hk
  | ok token t1 =>
    dsimp only
    refine kept_trans t t1 token _ _ hn hk ?_
    have hk2 := term_kept t1
    cases hm : t1.term with
    | abort e t2 => exact kept_bind_abort t1 t2 e _ hm hk2
    | ok target t2 =>
      exact ⟨by simpa [Result.state, hm] using hk2.1, by simp⟩

theorem redir_kept (t : Tree) : t.redir.Kept t := by
  unfold Tree.redir
  have hk := next_kept t
  cases hn : t.next with
  | abort e t1 => exact kept_bind_abort t t1 e _ hn hk
  | ok leader t1 =>
    dsimp only
    refine kept_trans t t1 leader _ _ hn hk ?_
    split
    · simp [Result.Kept, Result.state]
    · exact errorf_kept t1 _
    · simp [Result.Kept, Result.state]
    · exact redirFilename_kept t1 _ _

theorem parseLoop_kept (n : Nat) : ∀ t : Tree, (Tree.parseLoop n t).Kept t := by
  induction n with
  | zero => intro t; simp [Tree.parseLoop, Result.Kept, Result.state]
  | succ n ih =>
    intro t
    unfold Tree.parseLoop
    have hk := peekNonSpace_kept t
    cases hn : t.peekNonSpace with
    | abort e t1 => exact kept_bind_abort t t1 e _ hn hk
    | ok token t1 =>
      dsimp only
      refine kept_trans t t1 token _ _ hn hk ?_
      split
      · have hk2 := term_kept t1
        cases hm : t1.term with
        | abort e t2 => exact kept_bind_abort t1 t2 e _ hm hk2
        | ok node t2 =>
          dsimp only
          refine kept_trans t1 t2 node _ _ hm hk2 ?_
          split
          · simp [Result.Kept, Result.state]
          · have := ih { t2 with Root := some (CommandNode.append ‹_› node) }
            exact ⟨this.1, this.2⟩
      · split
        · have hk2 := redir_kept t1
          cases hm : t1.redir with
          | abort e t2 => exact kept_bind_abort t1 t2 e _ hm hk2
          | ok r t2 =>
            dsimp only
            refine kept_trans t1 t2 r _ _ hm hk2 ?_
            split
            · simp [Result.Kept, Result.state]
            · rename_i root _
              have := ih { t2 with Root := some { root with Redirs := root.Redirs ++ [r] } }
              exact ⟨this.1, this.2⟩
        · simp [Result.Kept, Result.state]

theorem peek_kept (t : Tree) : t.peek.Kept t := by
  unfold Tree.peek
  split
  · split <;> simp [Result.Kept, Result.state]
  · dsimp only
    split <;> simp [Result.Kept, Result.state]

theorem parse_kept (t : Tree) : t.parse.Kept t := by
  unfold Tree.parse
  have hk := peek_kept t
  cases hn : t.peek with
  | abort e t1 => exact kept_bind_abort t t1 e _ hn hk
  | ok token t1 =>
    dsimp only
    refine kept_trans t t1 token _ _ hn hk ?_
    have := parseLoop_kept
      (Tree.remaining { t1 with Root := some (newCommand token.Pos) } + 1)
      { t1 with Root := some (newCommand token.Pos) }
    exact ⟨this.1, this.2⟩
/-! ## The loops come to an end -/

theorem next_remaining (t : Tree) :
    t.next.Terminates ∧ ∀ tok t1, t.next = .ok tok t1 →
      t1.remaining = t.remaining - 1 ∧ (t.remaining = 0 → tok = eofItem) := by
  obtain ⟨nm, pn, root, ctx, text, tab, lex, t0, t1, t2, pc⟩ := t
  unfold Tree.next
  by_cases hpc : pc > 0
  · simp only [hpc, if_true]
    cases htk : Tree.tokenAt
        { Name := nm, ParseName := pn, Root := root, Ctx := ctx, text := text, tab := tab,
          lex := lex, token0 := t0, token1 := t1, token2 := t2, peekCount := pc - 1 } (pc - 1) with
    | none => simp [Result.Terminates]
    | some tk =>
      refine ⟨by simp [Result.Terminates], ?_⟩
      intro tok s h
      simp only [Result.ok.injEq] at h
      obtain ⟨_, rfl⟩ := h
      simp only [Tree.remaining]
      constructor <;> omega
  · have hz : pc = 0 := by omega
    subst hz
    simp only [gt_iff_lt, lt_self_iff_false, if_false]
    cases lex with
    | none => simp [Result.Terminates]
    | some lx =>
      obtain ⟨items⟩ := lx
      cases items with
      | nil =>
        simp [Result.Terminates, Tree.tokenAt, Lexer.NextItem, Tree.remaining]
      | cons it rest =>
        simp [Result.Terminates, Tree.tokenAt, Lexer.NextItem, Tree.remaining]

theorem nextNonSpaceLoop_total (n : Nat) :
    ∀ t : Tree, t.remaining < n →
      (Tree.nextNonSpaceLoop n t).Terminates ∧
      ∀ tok t1, Tree.nextNonSpaceLoop n t = .ok tok t1 →
        t1.remaining < t.remaining ∨ (tok.Typ = .ItemEOF ∧ t1.remaining = 0) := by
  induction n with
  | zero => intro t h; omega
  | succ n ih =>
    intro t hlt
    obtain ⟨hterm, hnext⟩ := next_remaining t
    unfold Tree.nextNonSpaceLoop
    cases hn : t.next with
    | abort e s =>
      refine ⟨?_, by simp⟩
      intro s1 h
      simp only [Result.abort.injEq] at h
      exact hterm s (by rw [hn, h.1])
    | ok tok s =>
      obtain ⟨hrem, hzero⟩ := hnext tok s hn
      dsimp only
      by_cases hsp : tok.Typ ≠ .ItemSpace
      · rw [if_pos hsp]
        refine ⟨by simp [Result.Terminates], ?_⟩
        intro tok1 s1 h
        simp only [Result.ok.injEq] at h
        obtain ⟨rfl, rfl⟩ := h
        by_cases hz : t.remaining = 0
        · right
          rw [hzero hz]
          exact ⟨rfl, by omega⟩
        · left; omega
      · rw [if_neg hsp]
        have hz : t.remaining ≠ 0 := by
          intro hz
          have := hzero hz
          subst this
          exact hsp (by simp [eofItem])
        obtain ⟨ht2, hr2⟩ := ih s (by omega)
        refine ⟨ht2, ?_⟩
        intro tok1 s1 h
        rcases hr2 tok1 s1 h with h1 | h1
        · left; omega
        · left; omega

theorem peekNonSpace_total (t : Tree) :
    t.peekNonSpace.Terminates ∧
    ∀ tok t1, t.peekNonSpace = .ok tok t1 →
      1 ≤ t1.peekCount ∧ t1.remaining ≤ t.remaining + 1 ∧
        (t1.remaining ≤ t.remaining ∨ tok.Typ = .ItemEOF) := by
  obtain ⟨hterm, hres⟩ := nextNonSpaceLoop_total (t.remaining + 1) t (by omega)
  unfold Tree.peekNonSpace
  cases hn : Tree.nextNonSpaceLoop (t.remaining + 1) t with
  | abort e s =>
    refine ⟨?_, by simp⟩
    intro s1 h
    simp only [Result.abort.injEq] at h
    exact hterm s (by rw [hn, h.1])
  | ok tok s =>
    refine ⟨by simp [Result.Terminates], ?_⟩
    intro tok1 s1 h
    simp only [Result.ok.injEq] at h
    obtain ⟨rfl, rfl⟩ := h
    have hb : s.backup.remaining = s.remaining + 1 := by
      simp [Tree.backup, Tree.remaining]; omega
    refine ⟨by simp [Tree.backup], ?_, ?_⟩
    · rcases hres tok s hn with h1 | h1 <;> omega
    · rcases hres tok s hn with h1 | h1
      · left; omega
      · right; exact h1.1

theorem errorf_terminates {α : Type} (t : Tree) (e : ParseError) :
    (t.errorf e : Result α).Terminates := by
  unfold Tree.errorf
  dsimp only
  split <;> simp [Result.Terminates]

theorem term_total (t : Tree) :
    t.term.Terminates ∧ ∀ n t1, t.term = .ok n t1 → t1.remaining = t.remaining - 1 := by
  obtain ⟨hterm, hnext⟩ := next_remaining t
  unfold Tree.term
  cases hn : t.next with
  | abort e s =>
    refine ⟨?_, by simp⟩
    intro s1 h
    simp only [Result.abort.injEq] at h
    exact hterm s (by rw [hn, h.1])
  | ok tok s =>
    obtain ⟨hrem, _⟩ := hnext tok s hn
    dsimp only
    split
    · split
      · simp [Result.Terminates]
      · exact ⟨errorf_terminates s _, by simp [Tree.error, Tree.errorf]; split <;> simp⟩
      · refine ⟨by simp [Result.Terminates], ?_⟩
        intro n s1 h
        simp only [Result.ok.injEq] at h
        obtain ⟨_, rfl⟩ := h
        rw [← hrem]
        split <;> rfl
    · exact ⟨errorf_terminates s _, by simp [Tree.unexpected, Tree.errorf]; split <;> simp⟩

theorem redirFilename_total (t : Tree) (oldfd : Int) (flag : Nat) :
    (t.redirFilename oldfd flag).Terminates ∧
    ∀ r t1, t.redirFilename oldfd flag = .ok r t1 → t1.remaining ≤ t.remaining := by
  obtain ⟨hterm, hres⟩ := peekNonSpace_total t
  unfold Tree.redirFilename
  cases hn : t.peekNonSpace with
  | abort e s =>
    refine ⟨?_, by simp⟩
    intro s1 h
    simp only [Result.abort.injEq] at h
    exact hterm s (by rw [hn, h.1])
  | ok tok s =>
    obtain ⟨hpc, hrem, _⟩ := hres tok s hn
    obtain ⟨hterm2, hres2⟩ := term_total s
    dsimp only
    cases hm : s.term with
    | abort e s2 =>
      refine ⟨?_, by simp⟩
      intro s1 h
      simp only [Result.abort.injEq] at h
      exact hterm2 s2 (by rw [hm, h.1])
    | ok target s2 =>
      refine ⟨by simp [Result.Terminates], ?_⟩
      intro r s1 h
      simp only [Result.ok.injEq] at h
      obtain ⟨_, rfl⟩ := h
      have h2 := hres2 target s2 hm
      have h3 : 1 ≤ s.remaining := by simp only [Tree.remaining]; omega
      omega

theorem redir_total (t : Tree) :
    t.redir.Terminates ∧ ∀ r t1, t.redir = .ok r t1 → t1.remaining ≤ t.remaining - 1 := by
  obtain ⟨hterm, hnext⟩ := next_remaining t
  unfold Tree.redir
  cases hn : t.next with
  | abort e s =>
    refine ⟨?_, by simp⟩
    intro s1 h
    simp only [Result.abort.injEq] at h
    exact hterm s (by rw [hn, h.1])
  | ok leader s =>
    obtain ⟨hrem, _⟩ := hnext leader s hn
    dsimp only
    split
    · simp [Result.Terminates]
    · exact ⟨errorf_terminates s _, by simp [Tree.errorf]; split <;> simp⟩
    · refine ⟨by simp [Result.Terminates], ?_⟩
      intro r s1 h
      simp only [Result.ok.injEq] at h
      obtain ⟨_, rfl⟩ := h
      omega
    · obtain ⟨h1, h2⟩ := redirFilename_total s ‹_› ‹_›
      refine ⟨h1, ?_⟩
      intro r s1 h
      have := h2 r s1 h
      omega

theorem parseLoop_terminates (n : Nat) :
    ∀ t : Tree, t.remaining < n → (Tree.parseLoop n t).Terminates := by
  induction n with
  | zero => intro t h; omega
  | succ n ih =>
    intro t hlt
    obtain ⟨hterm, hres⟩ := peekNonSpace_total t
    unfold Tree.parseLoop
    cases hn : t.peekNonSpace with
    | abort e s =>
      intro s1 h
      simp only [Result.abort.injEq] at h
      exact hterm s (by rw [hn, h.1])
    | ok tok s =>
      obtain ⟨hpc, _, hrem⟩ := hres tok s hn
      have hs1 : 1 ≤ s.remaining := by simp only [Tree.remaining]; omega
      dsimp only
      split
      · rename_i htyp
        have hle : s.remaining ≤ t.remaining := by
          rcases hrem with h | h
          · exact h
          · rw [h] at htyp; simp at htyp
        obtain ⟨hterm2, hres2⟩ := term_total s
        cases hm : s.term with
        | abort e s2 =>
          intro s1 h
          simp only [Result.abort.injEq] at h
          exact hterm2 s2 (by rw [hm, h.1])
        | ok node s2 =>
          have h2 := hres2 node s2 hm
          dsimp only
          split
          · simp [Result.Terminates]
          · exact ih _ (by simp only [Tree.remaining] at h2 hle hlt hs1 ⊢; omega)
      · split
        · rename_i _ htyp
          have hle : s.remaining ≤ t.remaining := by
            rcases hrem with h | h
            · exact h
            · rw [h] at htyp; simp at htyp
          obtain ⟨hterm2, hres2⟩ := redir_total s
          cases hm : s.redir with
          | abort e s2 =>
            intro s1 h
            simp only [Result.abort.injEq] at h
            exact hterm2 s2 (by rw [hm, h.1])
          | ok r s2 =>
            have h2 := hres2 r s2 hm
            dsimp only
            split
            · simp [Result.Terminates]
            · exact ih _ (by simp only [Tree.remaining] at h2 hle hlt hs1 ⊢; omega)
        · simp [Result.Terminates]

theorem peek_terminates (t : Tree) : t.peek.Terminates := by
  unfold Tree.peek
  split
  · split <;> simp [Result.Terminates]
  · dsimp only
    split <;> simp [Result.Terminates]

theorem parse_terminates (t : Tree) : t.parse.Terminates := by
  unfold Tree.parse
  cases hn : t.peek with
  | abort e s =>
    intro s1 h
    simp only [Result.abort.injEq] at h
    exact peek_terminates t s (by rw [hn, h.1])
  | ok tok s =>
    exact parseLoop_terminates _ _ (by omega)

theorem Parse_ne_diverged (t : Tree) (lx : Lexer) (text : GoString) (tab : Bool) :
    t.Parse lx text tab ≠ .diverged := by
  have h := parse_terminates (t.prepare lx text tab)
  unfold Tree.Parse
  split
  · simp
  · simp
  · simp
  · rename_i s hs
    exact absurd hs (h s)

theorem Do_ne_diverged (lx : Lexer) (name text : GoString) (tab : Bool) :
    Do lx name text tab ≠ .diverged :=
  Parse_ne_diverged (New name) lx text tab
theorem str_lbracket : str "[" = [91] := by decide
theorem str_rbracket : str "]" = [93] := by decide
theorem str_equals : str "=" = [61] := by decide
theorem str_minus : str "-" = [45] := by decide
theorem str_lt : str "<" = [60] := by decide
theorem str_gt : str ">" = [62] := by decide
theorem str_ltgt : str "<>" = [60, 62] := by decide
theorem str_gtgt : str ">>" = [62, 62] := by decide

theorem IndexRune_none (c : UInt8) : ∀ a : GoString, c ∉ a → IndexRune a c = none := by
  intro a
  induction a with
  | nil => intro _; rfl
  | cons x a ih =>
    intro h
    have hx : x ≠ c := fun hc => h (by simp [hc])
    have ha : c ∉ a := fun hc => h (by simp [hc])
    simp [IndexRune, hx, ih ha]

theorem IndexRune_append (c : UInt8) (b : GoString) :
    ∀ a : GoString, c ∉ a → IndexRune (a ++ c :: b) c = some a.length := by
  intro a
  induction a with
  | nil => intro _; simp [IndexRune]
  | cons x a ih =>
    intro h
    have hx : x ≠ c := fun hc => h (by simp [hc])
    have ha : c ∉ a := fun hc => h (by simp [hc])
    simp [IndexRune, hx, ih ha]

theorem direction_cases (d : GoString) (flag : Nat) (o : Int)
    (h : direction d = some (flag, o)) :
    (d = [60] ∧ flag = os.O_RDONLY ∧ o = 0) ∨
    (d = [60, 62] ∧ flag = os.O_RDWR ||| os.O_CREATE ∧ o = 0) ∨
    (d = [62] ∧ flag = os.O_WRONLY ||| os.O_CREATE ∧ o = 1) ∨
    (d = [62, 62] ∧ flag = os.O_WRONLY ||| os.O_CREATE ||| os.O_APPEND ∧ o = 1) := by
  unfold direction at h
  rw [str_lt, str_ltgt, str_gt, str_gtgt] at h
  split at h
  · rename_i hd
    simp only [Option.some.injEq, Prod.mk.injEq] at h
    exact Or.inl ⟨hd, h.1.symm, h.2.symm⟩
  · split at h
    · rename_i hd
      simp only [Option.some.injEq, Prod.mk.injEq] at h
      exact Or.inr (Or.inl ⟨hd, h.1.symm, h.2.symm⟩)
    · split at h
      · rename_i hd
        simp only [Option.some.injEq, Prod.mk.injEq] at h
        exact Or.inr (Or.inr (Or.inl ⟨hd, h.1.symm, h.2.symm⟩))
      · split at h
        · rename_i hd
          simp only [Option.some.injEq, Prod.mk.injEq] at h
          exact Or.inr (Or.inr (Or.inr ⟨hd, h.1.symm, h.2.symm⟩))
        · simp at h

theorem direction_no_bracket (d : GoString) (flag : Nat) (o : Int)
    (h : direction d = some (flag, o)) : (91 : UInt8) ∉ d := by
  rcases direction_cases d flag o h with h | h | h | h <;>
    · rw [h.1]; decide

theorem partition_plain (d : GoString) (h : (91 : UInt8) ∉ d) : partition d = some (d, []) := by
  simp [partition, IndexRune_none 91 d h]

theorem partition_qualified (d q : GoString) (h : (91 : UInt8) ∉ d) :
    partition (d ++ 91 :: (q ++ [93])) = some (d, q) := by
  have hs : slice (d ++ 91 :: (q ++ [93])) ((d.length : Int) + 1)
      (((d ++ 91 :: (q ++ [93])).length : Int) - 1) = some q := by
    unfold slice
    have hc : (0 : Int) ≤ (d.length : Int) + 1 ∧
        (d.length : Int) + 1 ≤ ((d ++ 91 :: (q ++ [93])).length : Int) - 1 ∧
        ((d ++ 91 :: (q ++ [93])).length : Int) - 1 ≤ ((d ++ 91 :: (q ++ [93])).length : Int) := by
      simp only [List.length_append, List.length_cons, List.length_nil]
      push_cast
      omega
    rw [if_pos hc]
    have h1 : (((d ++ 91 :: (q ++ [93])).length : Int) - 1).toNat = d.length + 1 + q.length := by
      simp only [List.length_append, List.length_cons, List.length_nil]
      push_cast
      omega
    have h2 : ((d.length : Int) + 1).toNat = d.length + 1 := by omega
    rw [h1, h2]
    have h3 : d ++ 91 :: (q ++ [93]) = (d ++ 91 :: q) ++ [93] := by simp
    rw [h3, List.take_left' (by simp; omega)]
    have h4 : d ++ 91 :: q = (d ++ [91]) ++ q := by simp
    rw [h4, List.drop_left' (by simp)]
  simp only [partition, IndexRune_append 91 (q ++ [93]) d h, hs, List.take_left']

theorem isDigit_ne (b c : UInt8) (hb : strconv.isDigit b = true)
    (hc : strconv.isDigit c = false) : b ≠ c := by
  intro h
  subst h
  rw [hb] at hc
  exact Bool.noConfusion hc

theorem not_mem_of_all_isDigit (a : GoString) (c : UInt8) (ha : a.all strconv.isDigit = true)
    (hc : strconv.isDigit c = false) : c ∉ a := by
  intro hmem
  have := List.all_eq_true.mp ha c hmem
  rw [this] at hc
  exact Bool.noConfusion hc

theorem Atoi_numeral (a : GoString) (ha : isNumeral a = true)
    (hr : strconv.digitsValue a ≤ strconv.maxInt) :
    strconv.Atoi a = some (strconv.digitsValue a : Int) := by
  simp only [isNumeral, Bool.and_eq_true, Bool.not_eq_true', List.isEmpty_eq_false] at ha
  obtain ⟨hne, hall⟩ := ha
  cases a with
  | nil => exact absurd rfl hne
  | cons c rest =>
    have hc : strconv.isDigit c = true := List.all_eq_true.mp hall c (by simp)
    have h43 : c ≠ 43 := isDigit_ne c 43 hc (by decide)
    have h45 : c ≠ 45 := isDigit_ne c 45 hc (by decide)
    simp [strconv.Atoi, h43, h45, hall, hr]

theorem Atoi_negative (a : GoString) (ha : isNumeral a = true)
    (hr : strconv.digitsValue a ≤ strconv.maxInt + 1) :
    strconv.Atoi (45 :: a) = some (-(strconv.digitsValue a : Int)) := by
  simp only [isNumeral, Bool.and_eq_true, Bool.not_eq_true', List.isEmpty_eq_false] at ha
  obtain ⟨hne, hall⟩ := ha
  simp [strconv.Atoi, hne, hall, hr]

theorem redirLeader_plain (d : GoString) (flag : Nat) (o : Int)
    (hd : direction d = some (flag, o)) : redirLeader d = .filename o flag := by
  simp [redirLeader, partition_plain d (direction_no_bracket d flag o hd), hd]

theorem redirLeader_equals (d lhs rhs : GoString) (flag : Nat) (o : Int)
    (hd : direction d = some (flag, o)) (hl : (61 : UInt8) ∉ lhs) :
    redirLeader (d ++ 91 :: ((lhs ++ 61 :: rhs) ++ [93]))
      = match (if lhs.length > 0 then strconv.Atoi lhs else some o) with
        | none => .error (.invalidOldfd lhs)
        | some oldfd1 =>
          if rhs.length > 0 then
            match strconv.Atoi rhs with
            | none => .error (.invalidNewfd rhs)
            | some newfd => .done (newFdRedir oldfd1 newfd)
          else .done (newCloseRedir oldfd1) := by
  simp only [redirLeader, partition_qualified d _ (direction_no_bracket d flag o hd), hd,
    IndexRune_append 61 rhs lhs hl]
  have h1 : (lhs ++ 61 :: rhs).take lhs.length = lhs := by simp
  have h2 : (lhs ++ 61 :: rhs).drop (lhs.length + 1) = rhs := by
    have : lhs ++ 61 :: rhs = (lhs ++ [61]) ++ rhs := by simp
    rw [this, List.drop_left' (by simp)]
  simp only [h1, h2]
  simp

theorem redirLeader_number (d q : GoString) (flag : Nat) (o : Int)
    (hd : direction d = some (flag, o)) (hq : q ≠ []) (hl : (61 : UInt8) ∉ q) :
    redirLeader (d ++ 91 :: (q ++ [93]))
      = match strconv.Atoi q with
        | none => .error (.invalidOldfd q)
        | some oldfd1 => .filename oldfd1 flag := by
  have hlen : q.length > 0 := List.length_pos.mpr hq
  simp only [redirLeader, partition_qualified d _ (direction_no_bracket d flag o hd), hd,
    IndexRune_none 61 q hl, hlen, if_true]
theorem length_le_flatMap_tokens (ps : List Piece) :
    ps.length ≤ (ps.flatMap Piece.tokens).length := by
  induction ps with
  | nil => simp
  | cons p ps ih =>
    have hp : 1 ≤ p.tokens.length := by
      cases p
      · simp [Piece.tokens]
      · simp [Piece.tokens]
      · simp [Piece.tokens]; omega
    simp only [List.flatMap_cons, List.length_append, List.length_cons]
    omega

theorem parse_pieces (t : Tree) (ps : List Piece) (sps : List Item) (stop : Item)
    (rest : List Item) (first : Item) (tl : List Item)
    (hwf : ∀ p ∈ ps, p.wellFormed = true)
    (hp : t.pending = some (ps.flatMap Piece.tokens ++ (sps ++ stop :: rest)))
    (hfirst : ps.flatMap Piece.tokens ++ (sps ++ stop :: rest) = first :: tl)
    (hs : ∀ s ∈ sps, isSpace s = true) (hstop : isStop stop = true) :
    t.parse = .ok ()
      { t with Root := some { Pos := first.Pos, Nodes := argsOf ps, Redirs := redirsOf ps },
               Ctx := ctxAfter t.Ctx ps, token0 := stop, lex := some ⟨rest⟩,
               peekCount := 1 } := by
  have hpk := peek_pending t first tl (by rw [hp, hfirst])
  have hlen : ps.length < tl.length + 1 := by
    have h1 := length_le_flatMap_tokens ps
    have h2 := congrArg List.length hfirst
    simp only [List.length_append, List.length_cons] at h2
    omega
  have hloop := parseLoop_pieces ps
    (Tree.remaining { t with Root := some (newCommand first.Pos), token0 := first,
                             lex := some ⟨tl⟩, peekCount := 1 } + 1)
    { t with Root := some (newCommand first.Pos), token0 := first, lex := some ⟨tl⟩,
             peekCount := 1 }
    (newCommand first.Pos) sps stop rest hwf (by simp [Tree.pending, hfirst]) rfl hs hstop
    (by simp [Tree.remaining]; omega)
  rw [Tree.parse, hpk]
  simp only
  rw [hloop]
  simp [newCommand]

theorem Do_pieces (ps : List Piece) (sps : List Item) (stop : Item) (rest : List Item)
    (first : Item) (tl : List Item) (name text : GoString) (tab : Bool)
    (hwf : ∀ p ∈ ps, p.wellFormed = true)
    (hfirst : ps.flatMap Piece.tokens ++ (sps ++ stop :: rest) = first :: tl)
    (hs : ∀ s ∈ sps, isSpace s = true) (hstop : isStop stop = true) :
    Do ⟨ps.flatMap Piece.tokens ++ (sps ++ stop :: rest)⟩ name text tab
      = .returned
          { New name with
              ParseName := name, text := text, tab := tab,
              Root := if tab then none
                      else some { Pos := first.Pos, Nodes := argsOf ps, Redirs := redirsOf ps },
              Ctx := if tab then ctxAfter none ps else none,
              token0 := stop, lex := none, peekCount := 1 } none := by
  have h := parse_pieces
    ((New name).prepare ⟨ps.flatMap Piece.tokens ++ (sps ++ stop :: rest)⟩ text tab)
    ps sps stop rest first tl hwf (by simp [Tree.pending, Tree.prepare, Tree.startParse, New])
    hfirst hs hstop
  simp only [Do, Tree.Parse, h]
  cases tab <;> simp [Tree.stopParse, Tree.prepare, Tree.startParse, New]
/-! ## The direction table (C1, C2) -/

theorem pending_startAt (items : List Item) : (startAt items).pending = some items := by
  simp [startAt, Tree.pending, Tree.startParse, New]

/-- C1 at the failing input: the parse of `cmd > out.txt` gives one argument
and one filename redirection of oldfd 1 to `out.txt`, but its open flag is
write-only + create-if-missing only: the truncate bit, which the rows of
`<>` and `>>` show in the conventional flag sets next to it, is missing, so
the flag is not write-only + create-if-missing + truncate. -/
theorem redir_write_lacks_truncate :
    (Do ⟨[tok .ItemBare 0 "cmd", tok .ItemSpace 3 " ", tok .ItemRedirLeader 4 ">",
          tok .ItemSpace 5 " ", tok .ItemBare 6 "out.txt", tok .ItemEOF 13 ""]⟩
        (str "sh") (str "cmd > out.txt") false).root
      = some { Pos := 0, Nodes := [newString 0 (str "cmd") (str "cmd")],
               Redirs := [newFilenameRedir 1 (os.O_WRONLY ||| os.O_CREATE)
                            (newString 6 (str "out.txt") (str "out.txt"))] }
    ∧ (os.O_WRONLY ||| os.O_CREATE) ≠ (os.O_WRONLY ||| os.O_CREATE ||| os.O_TRUNC) := by
  decide

/-- What `redir` does on an unqualified leader `>`: followed, after
optional space tokens, by a term token that unquotes, it yields a filename
redirection with oldfd 1, the open flag `O_WRONLY|O_CREATE`, in which the
truncate bit is not set, and that term as target, consuming the tokens up
to the target. -/
theorem redir_write_flags (t : Tree) (leader : Item) (sps : List Item) (target : Item)
    (rest : List Item) (text : GoString)
    (hp : t.pending = some (leader :: (sps ++ target :: rest)))
    (hv : leader.Val = str ">")
    (hs : ∀ s ∈ sps, isSpace s = true) (ht : isTerm target = true)
    (hu : unquote target = some (.ok text)) :
    t.redir = .ok (newFilenameRedir 1 (os.O_WRONLY ||| os.O_CREATE)
                    (newString target.Pos target.Val text))
        { t with Ctx := termCtx target, token0 := target, lex := some ⟨rest⟩, peekCount := 0 }
    ∧ (os.O_WRONLY ||| os.O_CREATE) &&& os.O_TRUNC = 0
    ∧ (Do ⟨[tok .ItemBare 0 "cmd", tok .ItemSpace 3 " ", tok .ItemRedirLeader 4 ">",
            tok .ItemSpace 5 " ", tok .ItemBare 6 "out.txt", tok .ItemEOF 13 ""]⟩
          (str "sh") (str "cmd > out.txt") false).root
        = some { Pos := 0, Nodes := [newString 0 (str "cmd") (str "cmd")],
                 Redirs := [newFilenameRedir 1 (os.O_WRONLY ||| os.O_CREATE)
                              (newString 6 (str "out.txt") (str "out.txt"))] } := by
  have hl : redirLeader leader.Val = .filename 1 (os.O_WRONLY ||| os.O_CREATE) := by
    rw [hv]; decide
  exact ⟨redir_filename t leader sps target rest text 1 _ hp hl hs ht hu, by decide, by decide⟩

/-- The leader `>` followed by a space and the bareword `out.txt`. -/
theorem redir_write_flags_witness :
    (startAt [tok .ItemRedirLeader 4 ">", tok .ItemSpace 5 " ", tok .ItemBare 6 "out.txt",
              tok .ItemEOF 13 ""]).redir
      = .ok (newFilenameRedir 1 (os.O_WRONLY ||| os.O_CREATE)
              (newString 6 (str "out.txt") (str "out.txt")))
          { startAt [] with token0 := tok .ItemBare 6 "out.txt",
                            lex := some ⟨[tok .ItemEOF 13 ""]⟩ } :=
  (redir_write_flags
    (startAt [tok .ItemRedirLeader 4 ">", tok .ItemSpace 5 " ", tok .ItemBare 6 "out.txt",
              tok .ItemEOF 13 ""])
    (tok .ItemRedirLeader 4 ">") [tok .ItemSpace 5 " "] (tok .ItemBare 6 "out.txt")
    [tok .ItemEOF 13 ""] (str "out.txt") (pending_startAt _) rfl (by decide) (by decide)
    rfl).1

/-- C2: the direction of an unqualified leader determines the flag and the
default oldfd: `<` gives read-only with oldfd 0, `<>` gives read-write +
create-if-missing with oldfd 0, `>>` gives write-only + create-if-missing +
append with oldfd 1; and when a term token that unquotes follows (after
optional space tokens), `redir` returns the filename redirection with these
values and that term as target. -/
theorem redir_direction_table (t : Tree) (leader : Item) (sps : List Item) (target : Item)
    (rest : List Item) (text : GoString)
    (hp : t.pending = some (leader :: (sps ++ target :: rest)))
    (hs : ∀ s ∈ sps, isSpace s = true) (ht : isTerm target = true)
    (hu : unquote target = some (.ok text)) :
    redirLeader (str "<") = .filename 0 os.O_RDONLY
    ∧ redirLeader (str "<>") = .filename 0 (os.O_RDWR ||| os.O_CREATE)
    ∧ redirLeader (str ">>") = .filename 1 (os.O_WRONLY ||| os.O_CREATE ||| os.O_APPEND)
    ∧ (leader.Val = str "<" →
        t.redir = .ok (newFilenameRedir 0 os.O_RDONLY (newString target.Pos target.Val text))
          { t with Ctx := termCtx target, token0 := target, lex := some ⟨rest⟩,
                   peekCount := 0 })
    ∧ (leader.Val = str "<>" →
        t.redir = .ok (newFilenameRedir 0 (os.O_RDWR ||| os.O_CREATE)
                        (newString target.Pos target.Val text))
          { t with Ctx := termCtx target, token0 := target, lex := some ⟨rest⟩,
                   peekCount := 0 })
    ∧ (leader.Val = str ">>" →
        t.redir = .ok (newFilenameRedir 1 (os.O_WRONLY ||| os.O_CREATE ||| os.O_APPEND)
                        (newString target.Pos target.Val text))
          { t with Ctx := termCtx target, token0 := target, lex := some ⟨rest⟩,
                   peekCount := 0 }) := by
  have h1 : redirLeader (str "<") = .filename 0 os.O_RDONLY := by decide
  have h2 : redirLeader (str "<>") = .filename 0 (os.O_RDWR ||| os.O_CREATE) := by decide
  have h3 : redirLeader (str ">>")
      = .filename 1 (os.O_WRONLY ||| os.O_CREATE ||| os.O_APPEND) := by decide
  refine ⟨h1, h2, h3, ?_, ?_, ?_⟩
  · intro hv
    exact redir_filename t leader sps target rest text 0 _ hp (by rw [hv]; exact h1) hs ht hu
  · intro hv
    exact redir_filename t leader sps target rest text 0 _ hp (by rw [hv]; exact h2) hs ht hu
  · intro hv
    exact redir_filename t leader sps target rest text 1 _ hp (by rw [hv]; exact h3) hs ht hu

/-- Witness of C2: the leader `>>` followed by a space and the single-quoted
token `'a b'`. -/
theorem redir_direction_table_witness :
    (startAt [tok .ItemRedirLeader 0 ">>", tok .ItemSpace 2 " ",
              tok .ItemSingleQuoted 3 "'a b'", tok .ItemEOF 8 ""]).redir
      = .ok (newFilenameRedir 1 (os.O_WRONLY ||| os.O_CREATE ||| os.O_APPEND)
              (newString 3 (str "'a b'") (str "a b")))
          { startAt [] with token0 := tok .ItemSingleQuoted 3 "'a b'",
                            lex := some ⟨[tok .ItemEOF 8 ""]⟩ } :=
  (redir_direction_table
    (startAt [tok .ItemRedirLeader 0 ">>", tok .ItemSpace 2 " ",
              tok .ItemSingleQuoted 3 "'a b'", tok .ItemEOF 8 ""])
    (tok .ItemRedirLeader 0 ">>") [tok .ItemSpace 2 " "] (tok .ItemSingleQuoted 3 "'a b'")
    [tok .ItemEOF 8 ""] (str "a b") (pending_startAt _) (by decide) (by decide)
    rfl).2.2.2.2.2 rfl
/-! ## Qualified redirections (C3, C4, C5, C6) -/

theorem equals_not_mem_numeral (a : GoString) (ha : isNumeral a = true) : (61 : UInt8) ∉ a := by
  simp only [isNumeral, Bool.and_eq_true] at ha
  exact not_mem_of_all_isDigit a 61 ha.2 (by decide)

theorem isNumeral_ne_nil (a : GoString) (ha : isNumeral a = true) : a ≠ [] := by
  intro h
  subst h
  simp [isNumeral] at ha

theorem Atoi_none_of_not_isIntNumeral (s : GoString) (h : isIntNumeral s = false) :
    strconv.Atoi s = none := by
  cases s with
  | nil => rfl
  | cons c rest =>
    simp only [isIntNumeral] at h
    by_cases hc : c = 43 ∨ c = 45
    · rw [if_pos hc] at h
      simp only [isNumeral, Bool.and_eq_false_iff, Bool.not_eq_false',
        List.isEmpty_iff] at h
      rcases h with h | h
      · simp [strconv.Atoi, hc, h]
      · by_cases hr : rest = []
        · simp [strconv.Atoi, hc, hr]
        · simp only [strconv.Atoi, if_pos hc, hr, if_false, h, if_true]
    · rw [if_neg hc] at h
      simp only [isNumeral, Bool.and_eq_false_iff, Bool.not_eq_false',
        List.isEmpty_iff] at h
      rcases h with h | h
      · exact absurd h (by simp)
      · simp only [strconv.Atoi, if_neg hc, h, if_true]
        simp

/-- C3, as stated, fails: `9223372036854775808` is a decimal numeral, and the
leader `>[9223372036854775808=2]` does not yield an FdRedir: the parse of
`cmd >[9223372036854775808=2]` ends in the invalid-oldfd error. -/
theorem redir_fd_numeral_counterexample :
    isNumeral (str "9223372036854775808") = true
    ∧ (Do ⟨[tok .ItemBare 0 "cmd", tok .ItemSpace 3 " ",
            tok .ItemRedirLeader 4 ">[9223372036854775808=2]", tok .ItemEOF 28 ""]⟩
          (str "sh") (str "cmd >[9223372036854775808=2]") false).err
        = some (.invalidOldfd (str "9223372036854775808")) := by
  decide

/-- C3 (amended): for every valid direction `d` with default oldfd `o` and
all decimal numerals `a` and `b` whose values are in the range of `int` (at
most 2^63 - 1): the leader `d[a=b]` yields FdRedir{a, b}, `d[=b]` yields
FdRedir{o, b}, `d[a=]` yields CloseRedir{a} and `d[=]` yields CloseRedir{o};
in each case `redir` consumes the leader token only, so the tokens after it
are still to be read and a term among them becomes an argument.  `cmd
>>[1=2]` gives FdRedir{1,2}, `cmd >[1=]` gives CloseRedir{1}, `cmd >[=3]`
gives FdRedir{1,3}, and in `cmd >[1=2] x` the term `x` is an argument. -/
theorem redir_fd_qualifier (t : Tree) (leader : Item) (rest : List Item) (d : GoString)
    (flag : Nat) (o : Int) (a b : GoString)
    (hp : t.pending = some (leader :: rest))
    (hd : direction d = some (flag, o))
    (ha : isNumeral a = true) (hb : isNumeral b = true)
    (hra : strconv.digitsValue a ≤ strconv.maxInt)
    (hrb : strconv.digitsValue b ≤ strconv.maxInt) :
    (leader.Val = d ++ str "[" ++ a ++ str "=" ++ b ++ str "]" →
      t.redir = .ok (newFdRedir (strconv.digitsValue a) (strconv.digitsValue b))
        { t with token0 := leader, lex := some ⟨rest⟩, peekCount := 0 })
    ∧ (leader.Val = d ++ str "[" ++ str "=" ++ b ++ str "]" →
      t.redir = .ok (newFdRedir o (strconv.digitsValue b))
        { t with token0 := leader, lex := some ⟨rest⟩, peekCount := 0 })
    ∧ (leader.Val = d ++ str "[" ++ a ++ str "=" ++ str "]" →
      t.redir = .ok (newCloseRedir (strconv.digitsValue a))
        { t with token0 := leader, lex := some ⟨rest⟩, peekCount := 0 })
    ∧ (leader.Val = d ++ str "[" ++ str "=" ++ str "]" →
      t.redir = .ok (newCloseRedir o)
        { t with token0 := leader, lex := some ⟨rest⟩, peekCount := 0 })
    ∧ Tree.pending { t with token0 := leader, lex := some ⟨rest⟩, peekCount := 0 }
        = some rest
    ∧ (Do ⟨[tok .ItemBare 0 "cmd", tok .ItemSpace 3 " ", tok .ItemRedirLeader 4 ">>[1=2]",
            tok .ItemEOF 11 ""]⟩ (str "sh") (str "cmd >>[1=2]") false).root
        = some { Pos := 0, Nodes := [newString 0 (str "cmd") (str "cmd")],
                 Redirs := [newFdRedir 1 2] }
    ∧ (Do ⟨[tok .ItemBare 0 "cmd", tok .ItemSpace 3 " ", tok .ItemRedirLeader 4 ">[1=]",
            tok .ItemEOF 9 ""]⟩ (str "sh") (str "cmd >[1=]") false).root
        = some { Pos := 0, Nodes := [newString 0 (str "cmd") (str "cmd")],
                 Redirs := [newCloseRedir 1] }
    ∧ (Do ⟨[tok .ItemBare 0 "cmd", tok .ItemSpace 3 " ", tok .ItemRedirLeader 4 ">[=3]",
            tok .ItemEOF 9 ""]⟩ (str "sh") (str "cmd >[=3]") false).root
        = some { Pos := 0, Nodes := [newString 0 (str "cmd") (str "cmd")],
                 Redirs := [newFdRedir 1 3] }
    ∧ (Do ⟨[tok .ItemBare 0 "cmd", tok .ItemSpace 3 " ", tok .ItemRedirLeader 4 ">[1=2]",
            tok .ItemSpace 10 " ", tok .ItemBare 11 "x", tok .ItemEOF 12 ""]⟩
          (str "sh") (str "cmd >[1=2] x") false).root
        = some { Pos := 0,
                 Nodes := [newString 0 (str "cmd") (str "cmd"), newString 11 (str "x") (str "x")],
                 Redirs := [newFdRedir 1 2] } := by
  have hea := equals_not_mem_numeral a ha
  have hane := isNumeral_ne_nil a ha
  have hbne := isNumeral_ne_nil b hb
  have hAa := Atoi_numeral a ha hra
  have hAb := Atoi_numeral b hb hrb
  have halen : a.length > 0 := List.length_pos.mpr hane
  have hblen : b.length > 0 := List.length_pos.mpr hbne
  refine ⟨?_, ?_, ?_, ?_, by simp [Tree.pending], by decide, by decide, by decide, by decide⟩
  · intro hv
    refine redir_done t leader rest _ hp ?_
    have hform : d ++ str "[" ++ a ++ str "=" ++ b ++ str "]"
        = d ++ 91 :: ((a ++ 61 :: b) ++ [93]) := by
      simp [str_lbracket, str_equals, str_rbracket]
    rw [hv, hform, redirLeader_equals d a b flag o hd hea]
    simp [halen, hblen, hAa, hAb]
  · intro hv
    refine redir_done t leader rest _ hp ?_
    have hform : d ++ str "[" ++ str "=" ++ b ++ str "]"
        = d ++ 91 :: (([] ++ 61 :: b) ++ [93]) := by
      simp [str_lbracket, str_equals, str_rbracket]
    rw [hv, hform, redirLeader_equals d [] b flag o hd (by simp)]
    simp [hblen, hAb]
  · intro hv
    refine redir_done t leader rest _ hp ?_
    have hform : d ++ str "[" ++ a ++ str "=" ++ str "]"
        = d ++ 91 :: ((a ++ 61 :: []) ++ [93]) := by
      simp [str_lbracket, str_equals, str_rbracket]
    rw [hv, hform, redirLeader_equals d a [] flag o hd hea]
    simp [halen, hAa]
  · intro hv
    refine redir_done t leader rest _ hp ?_
    have hform : d ++ str "[" ++ str "=" ++ str "]"
        = d ++ 91 :: (([] ++ 61 :: []) ++ [93]) := by
      simp [str_lbracket, str_equals, str_rbracket]
    rw [hv, hform, redirLeader_equals d [] [] flag o hd (by simp)]
    simp

/-- Witness of C3 (amended): the leader `<>[10=007]` yields FdRedir{10, 7}
and leaves the following token to be read. -/
theorem redir_fd_qualifier_witness :
    (startAt [tok .ItemRedirLeader 0 "<>[10=007]", tok .ItemEOF 10 ""]).redir
      = .ok (newFdRedir 10 7)
          { startAt [] with token0 := tok .ItemRedirLeader 0 "<>[10=007]",
                            lex := some ⟨[tok .ItemEOF 10 ""]⟩ } :=
  (redir_fd_qualifier
    (startAt [tok .ItemRedirLeader 0 "<>[10=007]", tok .ItemEOF 10 ""])
    (tok .ItemRedirLeader 0 "<>[10=007]") [tok .ItemEOF 10 ""] (str "<>")
    (os.O_RDWR ||| os.O_CREATE) 0 (str "10") (str "007")
    (pending_startAt _) (by decide) (by decide) (by decide) (by decide) (by decide)).1
    (by decide)
/-- C4, as stated, fails: `9223372036854775808` is a decimal numeral, and the
leader `>[9223372036854775808]` followed by the term `out.txt` does not
yield a FilenameRedir: the parse ends in the invalid-oldfd error. -/
theorem redir_oldfd_numeral_counterexample :
    isNumeral (str "9223372036854775808") = true
    ∧ (Do ⟨[tok .ItemBare 0 "cmd", tok .ItemSpace 3 " ",
            tok .ItemRedirLeader 4 ">[9223372036854775808]", tok .ItemSpace 26 " ",
            tok .ItemBare 27 "out.txt", tok .ItemEOF 34 ""]⟩
          (str "sh") (str "cmd >[9223372036854775808] out.txt") false).err
        = some (.invalidOldfd (str "9223372036854775808")) := by
  decide

/-- C4 (amended): for every valid direction `d` and every decimal numeral
`n` whose value is in the range of `int` (at most 2^63 - 1), the leader
`d[n]` followed, after optional space tokens, by a term token that unquotes
yields a FilenameRedir whose oldfd is `n`, whose flag is that of `d`, and
whose target is that term as the term parser builds it (position, raw text
and unquoted value). -/
theorem redir_filename_oldfd (t : Tree) (leader : Item) (sps : List Item) (target : Item)
    (rest : List Item) (text : GoString) (d : GoString) (flag : Nat) (o : Int) (n : GoString)
    (hp : t.pending = some (leader :: (sps ++ target :: rest)))
    (hd : direction d = some (flag, o))
    (hn : isNumeral n = true) (hr : strconv.digitsValue n ≤ strconv.maxInt)
    (hv : leader.Val = d ++ str "[" ++ n ++ str "]")
    (hs : ∀ s ∈ sps, isSpace s = true) (ht : isTerm target = true)
    (hu : unquote target = some (.ok text)) :
    t.redir = .ok (newFilenameRedir (strconv.digitsValue n) flag
                    (newString target.Pos target.Val text))
      { t with Ctx := termCtx target, token0 := target, lex := some ⟨rest⟩,
               peekCount := 0 } := by
  refine redir_filename t leader sps target rest text _ flag hp ?_ hs ht hu
  have hform : d ++ str "[" ++ n ++ str "]" = d ++ 91 :: (n ++ [93]) := by
    simp [str_lbracket, str_rbracket]
  rw [hv, hform, redirLeader_number d n flag o hd (isNumeral_ne_nil n hn)
    (equals_not_mem_numeral n hn), Atoi_numeral n hn hr]

/-- Witness of C4 (amended): the leader `>>[2]` followed by a space and the
double-quoted token `"e\tf"`. -/
theorem redir_filename_oldfd_witness :
    (startAt [tok .ItemRedirLeader 0 ">>[2]", tok .ItemSpace 5 " ",
              tok .ItemDoubleQuoted 6 "\"e\\tf\"", tok .ItemEOF 12 ""]).redir
      = .ok (newFilenameRedir 2 (os.O_WRONLY ||| os.O_CREATE ||| os.O_APPEND)
              (newString 6 (str "\"e\\tf\"") [101, 9, 102]))
          { startAt [] with token0 := tok .ItemDoubleQuoted 6 "\"e\\tf\"",
                            lex := some ⟨[tok .ItemEOF 12 ""]⟩ } :=
  redir_filename_oldfd
    (startAt [tok .ItemRedirLeader 0 ">>[2]", tok .ItemSpace 5 " ",
              tok .ItemDoubleQuoted 6 "\"e\\tf\"", tok .ItemEOF 12 ""])
    (tok .ItemRedirLeader 0 ">>[2]") [tok .ItemSpace 5 " "]
    (tok .ItemDoubleQuoted 6 "\"e\\tf\"") [tok .ItemEOF 12 ""] [101, 9, 102] (str ">>")
    (os.O_WRONLY ||| os.O_CREATE ||| os.O_APPEND) 1 (str "2")
    (pending_startAt _) (by decide) (by decide) (by decide) (by decide) (by decide)
    (by decide) rfl

/-- C5, as stated, fails: the signed numeral `-1` is accepted on either side
of `=`; `cmd >[-1=2]` parses without error to FdRedir{-1, 2} and `cmd
>[1=-2]` to FdRedir{1, -2}, redirections with a negative file descriptor. -/
theorem redir_negative_fd_counterexample :
    (Do ⟨[tok .ItemBare 0 "cmd", tok .ItemSpace 3 " ", tok .ItemRedirLeader 4 ">[-1=2]",
          tok .ItemEOF 11 ""]⟩ (str "sh") (str "cmd >[-1=2]") false)
      = .returned
          { New (str "sh") with
              ParseName := str "sh", text := str "cmd >[-1=2]",
              Root := some { Pos := 0, Nodes := [newString 0 (str "cmd") (str "cmd")],
                             Redirs := [newFdRedir (-1) 2] },
              token0 := tok .ItemEOF 11 "", peekCount := 1 } none
    ∧ (Do ⟨[tok .ItemBare 0 "cmd", tok .ItemSpace 3 " ", tok .ItemRedirLeader 4 ">[1=-2]",
            tok .ItemEOF 11 ""]⟩ (str "sh") (str "cmd >[1=-2]") false).root
        = some { Pos := 0, Nodes := [newString 0 (str "cmd") (str "cmd")],
                 Redirs := [newFdRedir 1 (-2)] } := by
  decide

/-- C5 (amended): in a qualified redirection `d[lhs=rhs]` of a valid
direction, every non-empty oldfd substring `lhs` and every non-empty newfd
substring `rhs` must be an integer that `strconv.Atoi` accepts (decimal
digits with an optional sign, the value in the range of `int`): when `lhs`
is rejected the leader gives the invalid-oldfd error, and when `lhs` is
empty or accepted and `rhs` is rejected it gives the invalid-newfd error.
A negative numeral is accepted: `d[-a=-b]` gives FdRedir{-a, -b}, a
redirection with negative file descriptors. -/
theorem redir_fd_integer (d : GoString) (flag : Nat) (o : Int) (lhs rhs : GoString)
    (hd : direction d = some (flag, o)) (hl : (61 : UInt8) ∉ lhs) :
    (lhs ≠ [] → strconv.Atoi lhs = none →
      redirLeader (d ++ str "[" ++ lhs ++ str "=" ++ rhs ++ str "]")
        = .error (.invalidOldfd lhs))
    ∧ (lhs = [] ∨ (strconv.Atoi lhs).isSome = true → rhs ≠ [] → strconv.Atoi rhs = none →
      redirLeader (d ++ str "[" ++ lhs ++ str "=" ++ rhs ++ str "]")
        = .error (.invalidNewfd rhs))
    ∧ (∀ a b : GoString, isNumeral a = true → isNumeral b = true →
        strconv.digitsValue a ≤ strconv.maxInt + 1 →
        strconv.digitsValue b ≤ strconv.maxInt + 1 →
        lhs = str "-" ++ a → rhs = str "-" ++ b →
        redirLeader (d ++ str "[" ++ lhs ++ str "=" ++ rhs ++ str "]")
          = .done (newFdRedir (-(strconv.digitsValue a : Int))
                     (-(strconv.digitsValue b : Int)))) := by
  have hform : d ++ str "[" ++ lhs ++ str "=" ++ rhs ++ str "]"
      = d ++ 91 :: ((lhs ++ 61 :: rhs) ++ [93]) := by
    simp [str_lbracket, str_equals, str_rbracket]
  rw [hform, redirLeader_equals d lhs rhs flag o hd hl]
  refine ⟨?_, ?_, ?_⟩
  · intro hne hA
    have hlen : lhs.length > 0 := List.length_pos.mpr hne
    simp [hlen, hA]
  · intro hlhs hne hA
    have hlen : rhs.length > 0 := List.length_pos.mpr hne
    rcases hlhs with h | h
    · subst h
      simp [hlen, hA]
    · obtain ⟨x, hx⟩ := Option.isSome_iff_exists.mp h
      by_cases hl0 : lhs.length > 0
      · simp [hl0, hx, hlen, hA]
      · simp [hl0, hlen, hA]
  · intro a b ha hb hra hrb hla hrb2
    rw [str_minus] at hla hrb2
    subst hla hrb2
    simp [Atoi_negative a ha hra, Atoi_negative b hb hrb]

/-- Witness of C5 (amended): in `>[-1=2x]` the oldfd `-1` is accepted and the
newfd `2x` is rejected with the invalid-newfd error. -/
theorem redir_fd_integer_witness :
    redirLeader (str ">" ++ str "[" ++ str "-1" ++ str "=" ++ str "2x" ++ str "]")
      = .error (.invalidNewfd (str "2x")) :=
  (redir_fd_integer (str ">") (os.O_WRONLY ||| os.O_CREATE) 1 (str "-1") (str "2x")
    (by decide) (by decide)).2.1 (Or.inr (by decide)) (by decide) (by decide)
theorem Atoi_isSome_iff (s : GoString) :
    (strconv.Atoi s).isSome = (isIntNumeral s && inIntRange s) := by
  cases s with
  | nil => rfl
  | cons c rest =>
    by_cases h45 : c = 45
    · subst h45
      by_cases hr : rest = []
      · subst hr; rfl
      · by_cases hd : rest.all strconv.isDigit = true
        · by_cases hv : strconv.digitsValue rest ≤ strconv.maxInt + 1
          · simp [strconv.Atoi, isIntNumeral, inIntRange, isNumeral, hr, hd, hv]
          · simp [strconv.Atoi, isIntNumeral, inIntRange, isNumeral, hr, hd, hv]
        · simp [strconv.Atoi, isIntNumeral, inIntRange, isNumeral, hr, hd]
    · by_cases h43 : c = 43
      · subst h43
        by_cases hr : rest = []
        · subst hr; rfl
        · by_cases hd : rest.all strconv.isDigit = true
          · by_cases hv : strconv.digitsValue rest ≤ strconv.maxInt
            · simp [strconv.Atoi, isIntNumeral, inIntRange, isNumeral, hr, hd, hv]
            · simp [strconv.Atoi, isIntNumeral, inIntRange, isNumeral, hr, hd, hv]
          · simp [strconv.Atoi, isIntNumeral, inIntRange, isNumeral, hr, hd]
      · by_cases hd : (c :: rest).all strconv.isDigit = true
        · by_cases hv : strconv.digitsValue (c :: rest) ≤ strconv.maxInt
          · simp [strconv.Atoi, isIntNumeral, inIntRange, isNumeral, h45, h43, hd, hv]
          · simp [strconv.Atoi, isIntNumeral, inIntRange, isNumeral, h45, h43, hd, hv]
        · simp [strconv.Atoi, isIntNumeral, inIntRange, isNumeral, h45, h43, hd]

/-- C6, as stated, fails: in `>[9223372036854775808=x]` the left part is an
integer numeral and the right part is not, and the parse fails with the
invalid-oldfd error, not the invalid-newfd error: the numeral is not in the
range of `int`. -/
theorem redir_invalid_fd_counterexample :
    isIntNumeral (str "9223372036854775808") = true
    ∧ isIntNumeral (str "x") = false
    ∧ (Do ⟨[tok .ItemBare 0 "cmd", tok .ItemSpace 3 " ",
            tok .ItemRedirLeader 4 ">[9223372036854775808=x]", tok .ItemEOF 28 ""]⟩
          (str "sh") (str "cmd >[9223372036854775808=x]") false).err
        = some (.invalidOldfd (str "9223372036854775808")) := by
  decide

/-- C6 (amended): for every valid direction and every qualifier `lhs=rhs`,
`lhs` being the part before the first `=`: if `lhs` is non-empty and is not
an integer in the range of `int` (`strconv.Atoi` rejects it), `redir` fails
with the invalid-oldfd error, whatever `rhs` is; if `lhs` is empty or an
integer in the range of `int` and `rhs` is non-empty and not an integer in
the range of `int`, `redir` fails with the invalid-newfd error.
`strconv.Atoi` accepts exactly the integer numerals whose value is in the
range of `int`, so a text that is not an integer numeral is rejected.  In
either failure the root is cleared and only the leader was consumed.  The
parse of `cmd >[x=2]` returns the invalid-oldfd error and no root. -/
theorem redir_invalid_fd (t : Tree) (leader : Item) (rest : List Item) (d : GoString)
    (flag : Nat) (o : Int) (lhs rhs : GoString)
    (hp : t.pending = some (leader :: rest))
    (hd : direction d = some (flag, o)) (hl : (61 : UInt8) ∉ lhs)
    (hv : leader.Val = d ++ str "[" ++ lhs ++ str "=" ++ rhs ++ str "]") :
    (lhs ≠ [] → strconv.Atoi lhs = none →
      t.redir = .abort (.grammar (.invalidOldfd lhs))
        { t with Root := none, token0 := leader, lex := some ⟨rest⟩, peekCount := 0 })
    ∧ (lhs = [] ∨ (strconv.Atoi lhs).isSome = true → rhs ≠ [] → strconv.Atoi rhs = none →
      t.redir = .abort (.grammar (.invalidNewfd rhs))
        { t with Root := none, token0 := leader, lex := some ⟨rest⟩, peekCount := 0 })
    ∧ (∀ s : GoString, isIntNumeral s = false → strconv.Atoi s = none)
    ∧ Do ⟨[tok .ItemBare 0 "cmd", tok .ItemSpace 3 " ", tok .ItemRedirLeader 4 ">[x=2]",
           tok .ItemEOF 10 ""]⟩ (str "sh") (str "cmd >[x=2]") false
        = .returned
            { New (str "sh") with
                ParseName := str "sh", text := str "cmd >[x=2]", Root := none,
                token0 := tok .ItemRedirLeader 4 ">[x=2]" }
            (some (.invalidOldfd (str "x")))
    ∧ (∀ s : GoString, (strconv.Atoi s).isSome = (isIntNumeral s && inIntRange s)) := by
  have hform : d ++ str "[" ++ lhs ++ str "=" ++ rhs ++ str "]"
      = d ++ 91 :: ((lhs ++ 61 :: rhs) ++ [93]) := by
    simp [str_lbracket, str_equals, str_rbracket]
  have hlead := redirLeader_equals d lhs rhs flag o hd hl
  rw [← hform, ← hv] at hlead
  refine ⟨?_, ?_, Atoi_none_of_not_isIntNumeral, by decide, Atoi_isSome_iff⟩
  · intro hne hA
    have hlen : lhs.length > 0 := List.length_pos.mpr hne
    refine redir_error t leader rest _ hp ?_
    rw [hlead]
    simp [hlen, hA]
  · intro hlhs hne hA
    have hlen : rhs.length > 0 := List.length_pos.mpr hne
    refine redir_error t leader rest _ hp ?_
    rw [hlead]
    rcases hlhs with h | h
    · subst h
      simp [hlen, hA]
    · obtain ⟨x, hx⟩ := Option.isSome_iff_exists.mp h
      by_cases hl0 : lhs.length > 0
      · simp [hl0, hx, hlen, hA]
      · simp [hl0, hlen, hA]

/-- Witness of C6 (amended): in `<[x=y]` both parts are bad and the error reported is
the invalid-oldfd error. -/
theorem redir_invalid_fd_witness :
    (startAt [tok .ItemRedirLeader 0 "<[x=y]", tok .ItemEOF 6 ""]).redir
      = .abort (.grammar (.invalidOldfd (str "x")))
          { startAt [] with Root := none, token0 := tok .ItemRedirLeader 0 "<[x=y]",
                            lex := some ⟨[tok .ItemEOF 6 ""]⟩ } :=
  (redir_invalid_fd
    (startAt [tok .ItemRedirLeader 0 "<[x=y]", tok .ItemEOF 6 ""])
    (tok .ItemRedirLeader 0 "<[x=y]") [tok .ItemEOF 6 ""] (str "<") os.O_RDONLY 0
    (str "x") (str "y") (pending_startAt _) (by decide) (by decide) (by decide)).1
    (by decide) (by decide)

/-! ## The recover boundary (C7) -/

/-- C7: whenever the parse of a non-interactive call (`tab = false`) is
stopped by `errorf` (an unexpected token in a term, an unexpected direction,
an invalid oldfd or newfd, an unquoting error), `Do` returns that error,
which is non-nil, and the root of the returned session is nil, whatever was
accepted before; its continuation context and its lexer are nil too. -/
theorem fatal_noninteractive_root_absent (lx : Lexer) (name text : GoString)
    (e : ParseError) (t4 : Tree)
    (h : ((New name).prepare lx text false).parse = .abort (.grammar e) t4) :
    Do lx name text false = .returned t4.stopParse (some e)
    ∧ (Do lx name text false).err = some e
    ∧ (Do lx name text false).root = none
    ∧ t4.stopParse.Root = none ∧ t4.stopParse.Ctx = none ∧ t4.stopParse.lex = none := by
  have hk := parse_kept ((New name).prepare lx text false)
  have hroot : t4.Root = none := hk.2 e t4 h
  have htab : t4.tab = false := by
    have := hk.1
    rw [h] at this
    simpa [Result.state, Tree.prepare, Tree.startParse] using this
  have hdo : Do lx name text false = .returned t4.stopParse (some e) := by
    simp [Do, Tree.Parse, h]
  have hs : t4.stopParse.Root = none := by simp [Tree.stopParse, htab, hroot]
  refine ⟨hdo, by rw [hdo]; rfl, by rw [hdo]; exact hs, hs, ?_, ?_⟩
  · simp [Tree.stopParse, htab]
  · simp [Tree.stopParse, htab]

/-- Witness of C7: in `cmd "bad\q"` the term `cmd` is accepted, the
double-quoted token has a malformed escape, and the session returned with
the error has no root. -/
theorem fatal_noninteractive_root_absent_witness :
    (Do ⟨[tok .ItemBare 0 "cmd", tok .ItemSpace 3 " ", tok .ItemDoubleQuoted 4 "\"bad\\q\"",
          tok .ItemEOF 11 ""]⟩ (str "sh") (str "cmd \"bad\\q\"") false).err
      = some (.unquoting .ErrSyntax)
    ∧ (Do ⟨[tok .ItemBare 0 "cmd", tok .ItemSpace 3 " ", tok .ItemDoubleQuoted 4 "\"bad\\q\"",
            tok .ItemEOF 11 ""]⟩ (str "sh") (str "cmd \"bad\\q\"") false).root = none :=
  have h := fatal_noninteractive_root_absent
    ⟨[tok .ItemBare 0 "cmd", tok .ItemSpace 3 " ", tok .ItemDoubleQuoted 4 "\"bad\\q\"",
      tok .ItemEOF 11 ""]⟩ (str "sh") (str "cmd \"bad\\q\"") (.unquoting .ErrSyntax)
    { New (str "sh") with
        ParseName := str "sh", text := str "cmd \"bad\\q\"",
        lex := some ⟨[tok .ItemEOF 11 ""]⟩,
        token0 := tok .ItemDoubleQuoted 4 "\"bad\\q\"" }
    (by decide)
  ⟨h.2.1, h.2.2.1⟩

/-! ## The command loop (C9, C10) -/

/-- C9: for every token stream made of a (possibly empty) sequence of
well-formed terms and redirections, then optional space tokens, then a token
`stop` that is neither a space nor a bareword, single-quoted, double-quoted
or redirection-leader token, `parse` returns without error and without
consuming `stop`: in the state it returns, `next` delivers exactly `stop`,
the tokens after `stop` are still in the lexer, and the root holds precisely
the arguments and redirections of the sequence, in input order. -/
theorem parse_stops_at_unrecognized (t : Tree) (ps : List Piece) (sps : List Item)
    (stop : Item) (rest : List Item) (first : Item) (tl : List Item)
    (hwf : ∀ p ∈ ps, p.wellFormed = true)
    (hp : t.pending = some (ps.flatMap Piece.tokens ++ (sps ++ stop :: rest)))
    (hfirst : ps.flatMap Piece.tokens ++ (sps ++ stop :: rest) = first :: tl)
    (hs : ∀ s ∈ sps, isSpace s = true) (hstop : isStop stop = true) :
    ∃ t1, t.parse = .ok () t1
      ∧ t1.Root = some { Pos := first.Pos, Nodes := argsOf ps, Redirs := redirsOf ps }
      ∧ t1.next = .ok stop { t1 with peekCount := 0 }
      ∧ t1.pending = some (stop :: rest)
      ∧ t1.lex = some ⟨rest⟩ := by
  refine ⟨_, parse_pieces t ps sps stop rest first tl hwf hp hfirst hs hstop, rfl, ?_, ?_, rfl⟩
  · simp [Tree.next, Tree.tokenAt]
  · simp [Tree.pending]

/-- Witness of C9: in `a >[2=1] < 'in' |` the loop takes the argument `a` and
the two redirections and stops in front of the token `|`, which is left to
be read, with the end-of-input token after it. -/
theorem parse_stops_at_unrecognized_witness :
    ∃ t1, (startAt [tok .ItemBare 0 "a", tok .ItemSpace 1 " ",
                    tok .ItemRedirLeader 2 ">[2=1]", tok .ItemSpace 8 " ",
                    tok .ItemRedirLeader 9 "<", tok .ItemSpace 10 " ",
                    tok .ItemSingleQuoted 11 "'in'", tok .ItemSpace 15 " ",
                    tok (.ItemOther 0) 16 "|", tok .ItemEOF 17 ""]).parse = .ok () t1
      ∧ t1.Root = some { Pos := 0, Nodes := [newString 0 (str "a") (str "a")],
                         Redirs := [newFdRedir 2 1,
                                    newFilenameRedir 0 os.O_RDONLY
                                      (newString 11 (str "'in'") (str "in"))] }
      ∧ t1.next = .ok (tok (.ItemOther 0) 16 "|") { t1 with peekCount := 0 }
      ∧ t1.pending = some [tok (.ItemOther 0) 16 "|", tok .ItemEOF 17 ""]
      ∧ t1.lex = some ⟨[tok .ItemEOF 17 ""]⟩ :=
  parse_stops_at_unrecognized
    (startAt [tok .ItemBare 0 "a", tok .ItemSpace 1 " ",
              tok .ItemRedirLeader 2 ">[2=1]", tok .ItemSpace 8 " ",
              tok .ItemRedirLeader 9 "<", tok .ItemSpace 10 " ",
              tok .ItemSingleQuoted 11 "'in'", tok .ItemSpace 15 " ",
              tok (.ItemOther 0) 16 "|", tok .ItemEOF 17 ""])
    [.arg [] (tok .ItemBare 0 "a"),
     .redirFd [tok .ItemSpace 1 " "] (tok .ItemRedirLeader 2 ">[2=1]"),
     .redirFile [tok .ItemSpace 8 " "] (tok .ItemRedirLeader 9 "<") [tok .ItemSpace 10 " "]
       (tok .ItemSingleQuoted 11 "'in'")]
    [tok .ItemSpace 15 " "] (tok (.ItemOther 0) 16 "|") [tok .ItemEOF 17 ""]
    (tok .ItemBare 0 "a") _ (by decide) (pending_startAt _) rfl (by decide) (by decide)

/-- C10, as stated, fails for the interactive flag set: `Do` on the empty
input with `tab = true` returns a nil error and a session whose root is nil,
not a command node. -/
theorem empty_input_interactive_counterexample :
    Do ⟨[tok .ItemEOF 0 ""]⟩ (str "sh") (str "") true
      = .returned
          { New (str "sh") with
              ParseName := str "sh", tab := true, Root := none,
              token0 := tok .ItemEOF 0 "", peekCount := 1 } none := by
  decide

/-- C10 (amended): `Do` on the empty input (a token stream consisting only of
the end-of-input token) returns a nil error for every value of the
interactive flag; with `tab = false` the root of the returned session is a
command node with zero argument terms and zero redirections, and with `tab =
true` the root is nil. -/
theorem empty_input (eof : Item) (name text : GoString) (h : eof.Typ = .ItemEOF) :
    Do ⟨[eof]⟩ name text false
      = .returned
          { New name with
              ParseName := name, text := text,
              Root := some { Pos := eof.Pos, Nodes := [], Redirs := [] },
              token0 := eof, peekCount := 1 } none
    ∧ Do ⟨[eof]⟩ name text true
      = .returned
          { New name with
              ParseName := name, text := text, tab := true, Root := none,
              token0 := eof, peekCount := 1 } none := by
  have hstop : isStop eof = true := by simp [isStop, isSpace, isTerm, h]
  have h1 := Do_pieces [] [] eof [] eof [] name text false (by simp) rfl (by simp) hstop
  have h2 := Do_pieces [] [] eof [] eof [] name text true (by simp) rfl (by simp) hstop
  constructor
  · simpa [argsOf, redirsOf, ctxAfter, New] using h1
  · simpa [argsOf, redirsOf, ctxAfter, New] using h2

/-- Witness of C10 (amended): the empty input, non-interactive. -/
theorem empty_input_witness :
    (Do ⟨[tok .ItemEOF 0 ""]⟩ (str "sh") (str "") false).root
      = some { Pos := 0, Nodes := [], Redirs := [] }
    ∧ (Do ⟨[tok .ItemEOF 0 ""]⟩ (str "sh") (str "") false).err = none :=
  have h := (empty_input (tok .ItemEOF 0 "") (str "sh") (str "") rfl).1
  ⟨by rw [h]; rfl, by rw [h]; rfl⟩
/-! ## Unquoting and the continuation context (C12, C14) -/

theorem slice_inner (s : GoString) (h : 2 ≤ s.length) :
    slice s 1 ((s.length : Int) - 1) = some ((s.drop 1).dropLast) := by
  unfold slice
  have hc : (0 : Int) ≤ 1 ∧ (1 : Int) ≤ (s.length : Int) - 1 ∧
      (s.length : Int) - 1 ≤ (s.length : Int) := by omega
  rw [if_pos hc]
  have h1 : ((s.length : Int) - 1).toNat = s.length - 1 := by omega
  have h2 : (1 : Int).toNat = 1 := rfl
  rw [h1, h2, List.dropLast_eq_take, List.length_drop, List.drop_take]

theorem slice_short (s : GoString) (h : s.length < 2) :
    slice s 1 ((s.length : Int) - 1) = none := by
  unfold slice
  have hc : ¬ ((0 : Int) ≤ 1 ∧ (1 : Int) ≤ (s.length : Int) - 1 ∧
      (s.length : Int) - 1 ≤ (s.length : Int)) := by omega
  rw [if_neg hc]

/-- C12: for every single-quoted token whose text has at least two bytes,
`unquote` returns, with no error, the text with its first and last byte
removed: the result is two shorter, and when the text is a body between two
delimiters the result is the body itself, byte for byte, a backslash
included (no escape is interpreted).  `'a b'` unquotes to `a b`. -/
theorem unquote_single_quoted (token : Item) (h : token.Typ = .ItemSingleQuoted)
    (hlen : 2 ≤ token.Val.length) :
    unquote token = some (.ok ((token.Val.drop 1).dropLast))
    ∧ ((token.Val.drop 1).dropLast).length = token.Val.length - 2
    ∧ (∀ body : GoString, token.Val = str "'" ++ body ++ str "'" →
        unquote token = some (.ok body))
    ∧ unquote (tok .ItemSingleQuoted 0 "'a b'") = some (.ok (str "a b"))
    ∧ unquote (tok .ItemSingleQuoted 0 "'a\\tb'") = some (.ok (str "a\\tb")) := by
  have hu : unquote token = some (.ok ((token.Val.drop 1).dropLast)) := by
    simp [unquote, h, slice_inner token.Val hlen]
  refine ⟨hu, by simp; omega, ?_, rfl, rfl⟩
  intro body hb
  have hq : str "'" = [39] := by decide
  rw [hu, hb, hq]
  simp

/-- Witness of C12: the single-quoted token `'\n'`, whose value is the two
bytes backslash and `n`. -/
theorem unquote_single_quoted_witness :
    unquote (tok .ItemSingleQuoted 4 "'\\n'") = some (.ok (str "\\n")) :=
  (unquote_single_quoted (tok .ItemSingleQuoted 4 "'\\n'") rfl (by decide)).2.2.1
    (str "\\n") (by decide)

/-- C14: for every term token that `term` reads and that unquotes, whatever
the continuation context was before: if the may-continue bit of the end flag
of the token is set, the continuation context after `term` is an argument
continuation carrying the raw text of the token; otherwise it is nil.
Nothing else of the session is changed after the token was read. -/
theorem term_sets_context (t t1 : Tree) (token : Item) (text : GoString)
    (hn : t.next = .ok token t1) (ht : isTerm token = true)
    (hu : unquote token = some (.ok text)) :
    ∃ t2, t.term = .ok (newString token.Pos token.Val text) t2
      ∧ (token.End &&& MayContinue ≠ 0 → t2.Ctx = some (NewArgContext token.Val))
      ∧ (token.End &&& MayContinue = 0 → t2.Ctx = none)
      ∧ t2 = { t1 with Ctx := t2.Ctx } := by
  have ht2 : token.Typ = .ItemBare ∨ token.Typ = .ItemSingleQuoted ∨
      token.Typ = .ItemDoubleQuoted := by simpa [isTerm] using ht
  by_cases hb : token.End &&& MayContinue ≠ 0
  · refine ⟨{ t1 with Ctx := some (NewArgContext token.Val) }, ?_, fun _ => rfl,
      fun h => absurd h hb, rfl⟩
    simp only [Tree.term, hn, ht2, if_true, hu]
    rw [if_pos hb]
  · refine ⟨{ t1 with Ctx := none }, ?_, fun h => absurd h hb, fun _ => rfl, rfl⟩
    simp only [Tree.term, hn, ht2, if_true, hu]
    rw [if_neg hb]

/-- Witness of C14: a bareword at the end of the input with the may-continue
bit set, read in a session whose context was an older one. -/
theorem term_sets_context_witness :
    ∃ t2, Tree.term { startAt [⟨.ItemBare, 0, str "ec", MayContinue⟩, tok .ItemEOF 2 ""] with
                        Ctx := some (NewArgContext (str "old")) }
        = .ok (newString 0 (str "ec") (str "ec")) t2
      ∧ (MayContinue &&& MayContinue ≠ 0 → t2.Ctx = some (NewArgContext (str "ec")))
      ∧ (MayContinue &&& MayContinue = 0 → t2.Ctx = none)
      ∧ t2 = { ({ startAt [tok .ItemEOF 2 ""] with
                    token0 := ⟨.ItemBare, 0, str "ec", MayContinue⟩ } : Tree) with
               Ctx := t2.Ctx } :=
  term_sets_context
    { startAt [⟨.ItemBare, 0, str "ec", MayContinue⟩, tok .ItemEOF 2 ""] with
        Ctx := some (NewArgContext (str "old")) }
    { startAt [tok .ItemEOF 2 ""] with
        Ctx := some (NewArgContext (str "old")),
        token0 := ⟨.ItemBare, 0, str "ec", MayContinue⟩ }
    ⟨.ItemBare, 0, str "ec", MayContinue⟩ (str "ec") (by decide) (by decide) rfl
/-! ## The cursor: peek, next and backup (C16) -/

/-- C16: in every state with `peekCount` between 0 and 3 and a lexer, `peek`
does what `next` followed by `backup` does: both return the same token and
leave the same buffer, the same `peekCount` and the same lexer.  So `next`
right after `peek` returns the peeked token, and after `next` returned `x`,
`backup` followed by `next` returns `x` again and leaves the state, the
lexer included, as the first `next` left it. -/
theorem peek_eq_next_backup (t : Tree) (hpc : t.peekCount ≤ 3)
    (hlex : t.peekCount = 0 → t.lex ≠ none) :
    (∃ tok t1, t.next = .ok tok t1 ∧ t.peek = .ok tok t1.backup)
    ∧ (∃ tok t1, t.peek = .ok tok t1 ∧
        t1.next = .ok tok { t1 with peekCount := t1.peekCount - 1 })
    ∧ (∀ x t1, t.next = .ok x t1 → t1.backup.next = .ok x t1) := by
  obtain ⟨nm, pn, root, ctx, text, tab, lex, t0, t1, t2, pc⟩ := t
  simp only at hpc hlex
  have hcases : pc = 0 ∨ pc = 1 ∨ pc = 2 ∨ pc = 3 := by omega
  rcases hcases with h | h | h | h
  · subst h
    cases lex with
    | none => exact absurd rfl (hlex rfl)
    | some lx =>
      refine ⟨?_, ?_, ?_⟩
      · exact ⟨_, _, rfl, rfl⟩
      · exact ⟨_, _, rfl, rfl⟩
      · intro x s h
        simp [Tree.next, Tree.tokenAt] at h
        obtain ⟨rfl, rfl⟩ := h
        simp [Tree.next, Tree.tokenAt, Tree.backup]
  · subst h
    refine ⟨?_, ?_, ?_⟩
    · exact ⟨_, _, rfl, rfl⟩
    · exact ⟨_, _, rfl, rfl⟩
    · intro x s h
      simp [Tree.next, Tree.tokenAt] at h
      obtain ⟨rfl, rfl⟩ := h
      simp [Tree.next, Tree.tokenAt, Tree.backup]
  · subst h
    refine ⟨?_, ?_, ?_⟩
    · exact ⟨_, _, rfl, rfl⟩
    · exact ⟨_, _, rfl, rfl⟩
    · intro x s h
      simp [Tree.next, Tree.tokenAt] at h
      obtain ⟨rfl, rfl⟩ := h
      simp [Tree.next, Tree.tokenAt, Tree.backup]
  · subst h
    refine ⟨?_, ?_, ?_⟩
    · exact ⟨_, _, rfl, rfl⟩
    · exact ⟨_, _, rfl, rfl⟩
    · intro x s h
      simp [Tree.next, Tree.tokenAt] at h
      obtain ⟨rfl, rfl⟩ := h
      simp [Tree.next, Tree.tokenAt, Tree.backup]

/-- Witness of C16: a state with two tokens pushed back by `backup2`. -/
theorem peek_eq_next_backup_witness :
    ∃ tok1 t1,
      ((startAt [tok .ItemEOF 9 ""]).backup2 (tok .ItemBare 0 "a")).next = .ok tok1 t1
      ∧ ((startAt [tok .ItemEOF 9 ""]).backup2 (tok .ItemBare 0 "a")).peek
          = .ok tok1 t1.backup :=
  (peek_eq_next_backup ((startAt [tok .ItemEOF 9 ""]).backup2 (tok .ItemBare 0 "a"))
    (by decide) (by decide)).1
/-! ## The empty qualifier (C20) -/

theorem term_unexpected (t : Tree) (bad : Item) (rest : List Item)
    (hp : t.pending = some (bad :: rest)) (ht : isTerm bad = false) :
    t.term = .abort (.grammar (.unexpected bad (str "term")))
      { t with Root := none, token0 := bad, lex := some ⟨rest⟩, peekCount := 0 } := by
  have ht2 : ¬ (bad.Typ = .ItemBare ∨ bad.Typ = .ItemSingleQuoted ∨
      bad.Typ = .ItemDoubleQuoted) := by simpa [isTerm] using ht
  simp [Tree.term, next_pending t bad rest hp, ht2, Tree.unexpected, Tree.errorf]

theorem redirFilename_unexpected (t : Tree) (sps : List Item) (bad : Item) (rest : List Item)
    (oldfd : Int) (flag : Nat)
    (hp : t.pending = some (sps ++ bad :: rest)) (hs : ∀ s ∈ sps, isSpace s = true)
    (hb : isSpace bad = false) (ht : isTerm bad = false) :
    t.redirFilename oldfd flag = .abort (.grammar (.unexpected bad (str "term")))
      { t with Root := none, token0 := bad, lex := some ⟨rest⟩, peekCount := 0 } := by
  have h1 := peekNonSpace_pending t sps bad rest hp hs hb
  have h2 := term_unexpected { t with token0 := bad, lex := some ⟨rest⟩, peekCount := 1 }
    bad rest (by simp [Tree.pending]) ht
  simp [Tree.redirFilename, h1, h2]

theorem redir_to_filename (t : Tree) (leader : Item) (rest : List Item) (oldfd : Int)
    (flag : Nat) (hp : t.pending = some (leader :: rest))
    (hl : redirLeader leader.Val = .filename oldfd flag) :
    t.redir = Tree.redirFilename
      { t with token0 := leader, lex := some ⟨rest⟩, peekCount := 0 } oldfd flag := by
  simp [Tree.redir, next_pending t leader rest hp, hl]

theorem redirFilename_token0 (t : Tree) (a b : Item) (rest : List Item) (oldfd : Int)
    (flag : Nat) :
    Tree.redirFilename { t with token0 := a, lex := some ⟨rest⟩, peekCount := 0 } oldfd flag
      = Tree.redirFilename { t with token0 := b, lex := some ⟨rest⟩, peekCount := 0 }
          oldfd flag := by
  simp [Tree.redirFilename, Tree.peekNonSpace, Tree.remaining, Tree.nextNonSpaceLoop,
    Tree.next, Tree.tokenAt]

theorem redirLeader_empty_brackets (d : GoString) (flag : Nat) (o : Int)
    (hd : direction d = some (flag, o)) : redirLeader (d ++ str "[]") = .filename o flag := by
  have hb : str "[]" = [91, 93] := by decide
  have hform : d ++ str "[]" = d ++ 91 :: ([] ++ [93]) := by simp [hb]
  rw [hform]
  simp only [redirLeader, partition_qualified d [] (direction_no_bracket d flag o hd), hd]
  simp

/-- C20: for every valid direction `d`, the leader `d[]` is handled exactly
like the unqualified leader `d`: its text gives the same fall through to the
filename redirection, with the default oldfd and the flag of `d` and no
invalid-oldfd error, and `redir` gives on it the very result it gives on `d`
in front of the same tokens: the FilenameRedir whose target is the next
term when a term that unquotes follows, and the unexpected-token-in-term
error when the next token that is not a space is not a term. -/
theorem redir_empty_brackets (t : Tree) (leader plain : Item) (rest : List Item)
    (d : GoString) (flag : Nat) (o : Int)
    (hp : t.pending = some (leader :: rest)) (hd : direction d = some (flag, o))
    (hv : leader.Val = d ++ str "[]") (hplain : plain.Val = d) :
    redirLeader leader.Val = .filename o flag
    ∧ redirLeader plain.Val = .filename o flag
    ∧ t.redir = Tree.redir { t with token0 := plain, lex := some ⟨rest⟩, peekCount := 1 }
    ∧ (∀ sps target rest1 text, rest = sps ++ target :: rest1 →
        (∀ s ∈ sps, isSpace s = true) → isTerm target = true →
        unquote target = some (.ok text) →
        t.redir = .ok (newFilenameRedir o flag (newString target.Pos target.Val text))
          { t with Ctx := termCtx target, token0 := target, lex := some ⟨rest1⟩,
                   peekCount := 0 })
    ∧ (∀ sps bad rest1, rest = sps ++ bad :: rest1 →
        (∀ s ∈ sps, isSpace s = true) → isSpace bad = false → isTerm bad = false →
        t.redir = .abort (.grammar (.unexpected bad (str "term")))
          { t with Root := none, token0 := bad, lex := some ⟨rest1⟩, peekCount := 0 }) := by
  have h1 : redirLeader leader.Val = .filename o flag := by
    rw [hv]; exact redirLeader_empty_brackets d flag o hd
  have h2 : redirLeader plain.Val = .filename o flag := by
    rw [hplain]; exact redirLeader_plain d flag o hd
  have h3 := redir_to_filename t leader rest o flag hp h1
  refine ⟨h1, h2, ?_, ?_, ?_⟩
  · have h4 := redir_to_filename
      { t with token0 := plain, lex := some ⟨rest⟩, peekCount := 1 } plain rest o flag
      (by simp [Tree.pending]) h2
    rw [h3, h4]
    exact redirFilename_token0 t leader plain rest o flag
  · intro sps target rest1 text hr hs ht hu
    subst hr
    exact redir_filename t leader sps target rest1 text o flag hp h1 hs ht hu
  · intro sps bad rest1 hr hs hb ht
    subst hr
    rw [h3]
    exact redirFilename_unexpected _ sps bad rest1 o flag (by simp [Tree.pending]) hs hb ht

/-- Witness of C20: the leader `>>[]` followed by the end of the input fails
with the unexpected-token-in-term error, as `>>` does. -/
theorem redir_empty_brackets_witness :
    (startAt [tok .ItemRedirLeader 0 ">>[]", tok .ItemEOF 4 ""]).redir
      = .abort (.grammar (.unexpected (tok .ItemEOF 4 "") (str "term")))
          { startAt [] with Root := none, token0 := tok .ItemEOF 4 "" } :=
  (redir_empty_brackets (startAt [tok .ItemRedirLeader 0 ">>[]", tok .ItemEOF 4 ""])
    (tok .ItemRedirLeader 0 ">>[]") (tok .ItemRedirLeader 0 ">>") [tok .ItemEOF 4 ""]
    (str ">>") (os.O_WRONLY ||| os.O_CREATE ||| os.O_APPEND) 1
    (pending_startAt _) (by decide) (by decide) (by decide)).2.2.2.2
    [] (tok .ItemEOF 4 "") [] rfl (by decide) (by decide) (by decide)
/-! ## Command lines made of terms (C11) -/

theorem unquote_of_isGoodTerm (tok : Item) (h : isGoodTerm tok = true) :
    isTerm tok = true ∧ unquote tok = some (.ok (termValue tok)) := by
  simp only [isGoodTerm, Bool.or_eq_true, Bool.and_eq_true, decide_eq_true_eq] at h
  rcases h with (h | ⟨h, hlen⟩) | ⟨h, hq⟩
  · exact ⟨by simp [isTerm, h], by simp [unquote, termValue, h]⟩
  · exact ⟨by simp [isTerm, h], by simp [unquote, termValue, h, slice_inner tok.Val hlen]⟩
  · obtain ⟨s, hs⟩ := Option.isSome_iff_exists.mp hq
    exact ⟨by simp [isTerm, h], by simp [unquote, termValue, h, hs]⟩

theorem wellFormed_of_isGoodTerm (sps : List Item) (tok : Item)
    (hs : ∀ s ∈ sps, isSpace s = true) (h : isGoodTerm tok = true) :
    (Piece.arg sps tok).wellFormed = true
    ∧ (Piece.arg sps tok).node = some (newString tok.Pos tok.Val (termValue tok)) := by
  obtain ⟨ht, hu⟩ := unquote_of_isGoodTerm tok h
  have hall : sps.all isSpace = true := by simpa using hs
  have hn : (Piece.arg sps tok).node = some (newString tok.Pos tok.Val (termValue tok)) := by
    simp [Piece.node, hall, termNode, ht, hu]
  exact ⟨by simp [Piece.wellFormed, hn], hn⟩

theorem pieces_of_terms (ts : List (List Item × Item))
    (hts : ∀ p ∈ ts, (∀ s ∈ p.1, isSpace s = true) ∧ isGoodTerm p.2 = true) :
    (∀ q ∈ ts.map (fun p => Piece.arg p.1 p.2), q.wellFormed = true)
    ∧ (ts.map (fun p => Piece.arg p.1 p.2)).flatMap Piece.tokens
        = ts.flatMap (fun p => p.1 ++ [p.2])
    ∧ argsOf (ts.map (fun p => Piece.arg p.1 p.2))
        = ts.map (fun p => newString p.2.Pos p.2.Val (termValue p.2))
    ∧ redirsOf (ts.map (fun p => Piece.arg p.1 p.2)) = [] := by
  induction ts with
  | nil => simp [argsOf, redirsOf]
  | cons p ts ih =>
    obtain ⟨hsp, hg⟩ := hts p (by simp)
    obtain ⟨h1, h2, h3, h4⟩ := ih (fun q hq => hts q (by simp [hq]))
    obtain ⟨hw, hn⟩ := wellFormed_of_isGoodTerm p.1 p.2 hsp hg
    have hr : (Piece.arg p.1 p.2).redir = none := rfl
    refine ⟨?_, ?_, ?_, ?_⟩
    · intro q hq
      simp only [List.map_cons, List.mem_cons] at hq
      rcases hq with hq | hq
      · rw [hq]; exact hw
      · exact h1 q hq
    · simp only [List.map_cons, List.flatMap_cons, h2, Piece.tokens]
    · simp only [argsOf] at h3 ⊢
      simp only [List.map_cons, List.filterMap_cons, hn, h3]
    · simp only [redirsOf] at h4 ⊢
      simp only [List.map_cons, List.filterMap_cons, hr, h4]

/-- C11: for every token stream made only of term tokens (barewords,
single-quoted tokens of at least two bytes, double-quoted tokens that are
valid string literals), each after optional space tokens, and ended by the
end-of-input token, the non-interactive `Do` returns no error; the
redirection list of the root is empty and its argument list has one node
per term token, in input order, the i-th node carrying the position and the
raw text of the i-th term token and its unquoted value, which for a
bareword is the text of the token itself. -/
theorem terms_only (ts : List (List Item × Item)) (sps : List Item) (eof : Item)
    (name text : GoString)
    (hts : ∀ p ∈ ts, (∀ s ∈ p.1, isSpace s = true) ∧ isGoodTerm p.2 = true)
    (hs : ∀ s ∈ sps, isSpace s = true) (heof : eof.Typ = .ItemEOF) :
    (Do ⟨ts.flatMap (fun p => p.1 ++ [p.2]) ++ (sps ++ [eof])⟩ name text false).isReturned
      = true
    ∧ (Do ⟨ts.flatMap (fun p => p.1 ++ [p.2]) ++ (sps ++ [eof])⟩ name text false).err = none
    ∧ ((Do ⟨ts.flatMap (fun p => p.1 ++ [p.2]) ++ (sps ++ [eof])⟩ name text false).root.map
        (fun c => c.Redirs)) = some []
    ∧ ((Do ⟨ts.flatMap (fun p => p.1 ++ [p.2]) ++ (sps ++ [eof])⟩ name text false).root.map
        (fun c => c.Nodes))
        = some (ts.map (fun p => newString p.2.Pos p.2.Val (termValue p.2)))
    ∧ (ts.map (fun p => newString p.2.Pos p.2.Val (termValue p.2))).length = ts.length
    ∧ (∀ b : Item, b.Typ = .ItemBare → termValue b = b.Val) := by
  obtain ⟨hw, hflat, hargs, hredirs⟩ := pieces_of_terms ts hts
  have hstop : isStop eof = true := by simp [isStop, isSpace, isTerm, heof]
  obtain ⟨first, tl, hfirst⟩ : ∃ first tl,
      (ts.map (fun p => Piece.arg p.1 p.2)).flatMap Piece.tokens ++ (sps ++ eof :: [])
        = first :: tl := by
    cases hc : (ts.map (fun p => Piece.arg p.1 p.2)).flatMap Piece.tokens ++ (sps ++ eof :: [])
      with
    | nil => simp at hc
    | cons a l => exact ⟨a, l, rfl⟩
  have hdo := Do_pieces (ts.map (fun p => Piece.arg p.1 p.2)) sps eof [] first tl name text
    false hw hfirst hs hstop
  rw [hflat] at hdo
  rw [hdo]
  refine ⟨rfl, rfl, ?_, ?_, by simp, ?_⟩
  · simp [Outcome.root, hredirs]
  · simp [Outcome.root, hargs]
  · intro b hb
    simp [termValue, hb]

/-- Witness of C11: the tokens of `echo 'a b' "c\td"`. -/
theorem terms_only_witness :
    ((Do ⟨[tok .ItemBare 0 "echo", tok .ItemSpace 4 " ", tok .ItemSingleQuoted 5 "'a b'",
           tok .ItemSpace 10 " ", tok .ItemDoubleQuoted 11 "\"c\\td\"",
           tok .ItemEOF 18 ""]⟩ (str "sh") (str "echo 'a b' \"c\\td\"") false).root.map
        (fun c => c.Nodes))
      = some [newString 0 (str "echo") (str "echo"),
              newString 5 (str "'a b'") (str "a b"),
              newString 11 (str "\"c\\td\"") [99, 9, 100]] :=
  (terms_only
    [([], tok .ItemBare 0 "echo"), ([tok .ItemSpace 4 " "], tok .ItemSingleQuoted 5 "'a b'"),
     ([tok .ItemSpace 10 " "], tok .ItemDoubleQuoted 11 "\"c\\td\"")]
    [] (tok .ItemEOF 18 "") (str "sh") (str "echo 'a b' \"c\\td\"")
    (by decide) (by decide) rfl).2.2.2.1
/-! ## Double-quoted terms (C13) -/

theorem IndexRune_append_left (q : UInt8) (b : GoString) :
    ∀ a : GoString, q ∉ a → IndexRune (a ++ b) q = (IndexRune b q).map (· + a.length) := by
  intro a
  induction a with
  | nil => intro _; simp
  | cons x a ih =>
    intro h
    have hx : x ≠ q := fun hc => h (by simp [hc])
    have ha : q ∉ a := fun hc => h (by simp [hc])
    rw [List.cons_append, IndexRune, if_neg hx, ih ha]
    cases IndexRune b q with
    | none => rfl
    | some j => simp only [Option.map_some', List.length_cons, Nat.add_assoc]

theorem UnquoteChar_plain (b : UInt8) (rest : GoString) (hb : isPlainByte b = true) :
    strconv.UnquoteChar (b :: rest) 34 = some (b.toNat, false, rest) := by
  simp only [isPlainByte, Bool.and_eq_true, decide_eq_true_eq] at hb
  obtain ⟨⟨⟨h1, h2⟩, h3⟩, _⟩ := hb
  have h80 : ¬ (0x80 ≤ b.toNat) := by omega
  simp [strconv.UnquoteChar, h3, h80, h2]

theorem UnquoteChar_bad_escape (c : UInt8) (post : GoString) (hc : isEscapeByte c = false) :
    strconv.UnquoteChar (92 :: c :: post) 34 = none := by
  simp only [isEscapeByte, Bool.or_eq_false_iff, decide_eq_false_iff_not, List.mem_cons,
    List.mem_singleton, not_or, List.not_mem_nil, not_false_eq_true, and_true] at hc
  obtain ⟨⟨h97, h98, h102, h110, h114, h116, h118, h120, h117, h85, h92, h34⟩, hoct⟩ := hc
  unfold strconv.UnquoteChar
  simp [h97, h98, h102, h110, h114, h116, h118, h120, h117, h85, h92, h34, hoct]
  decide

theorem unquoteLoop_bad_escape (c : UInt8) (post : GoString) (hc : isEscapeByte c = false) :
    ∀ (pre : GoString) (n : Nat) (buf : GoString),
      (∀ b ∈ pre, isPlainByte b = true) →
      strconv.unquoteLoop n (pre ++ 92 :: c :: post) 34 buf = none := by
  intro pre
  induction pre with
  | nil =>
    intro n buf _
    cases n with
    | zero => rfl
    | succ n =>
      simp [strconv.unquoteLoop, UnquoteChar_bad_escape c post hc]
  | cons b pre ih =>
    intro n buf hpre
    cases n with
    | zero => rfl
    | succ n =>
      have hb := hpre b (by simp)
      have hb2 := hb
      simp only [isPlainByte, Bool.and_eq_true, decide_eq_true_eq] at hb2
      obtain ⟨⟨⟨_, _⟩, h34⟩, h10⟩ := hb2
      have hrec := ih n (buf ++ [b.toNat.toUInt8]) (fun x hx => hpre x (by simp [hx]))
      simp only [List.cons_append, strconv.unquoteLoop, h34, if_false,
        UnquoteChar_plain b _ hb, h10]
      simpa using hrec

theorem Unquote_bad_escape (pre : GoString) (c : UInt8) (post : GoString)
    (hpre : ∀ b ∈ pre, isPlainByte b = true) (hc : isEscapeByte c = false) :
    strconv.Unquote (34 :: (pre ++ 92 :: c :: post)) = none := by
  have hq : (34 : UInt8) ∉ pre ++ [92, c] := by
    intro hm
    simp only [List.mem_append, List.mem_cons, List.mem_singleton, List.not_mem_nil,
      or_false] at hm
    rcases hm with hm | hm | hm
    · have := hpre 34 hm
      simp [isPlainByte] at this
    · exact absurd hm (by decide)
    · rw [← hm] at hc
      exact absurd hc (by decide)
  have hbody : pre ++ 92 :: c :: post = (pre ++ [92, c]) ++ post := by simp
  have hloop := unquoteLoop_bad_escape c post hc pre
    ((pre ++ 92 :: c :: post).length + 1) [] hpre
  cases hpre0 : pre ++ 92 :: c :: post with
  | nil => simp at hpre0
  | cons x body =>
    rw [hpre0] at hloop
    unfold strconv.Unquote
    cases hi : IndexRune (x :: body) 34 with
    | none => simp [hi]
    | some i =>
      have hi2 := hi
      rw [← hpre0, hbody, IndexRune_append_left 34 post _ hq] at hi2
      obtain ⟨j, _, hj⟩ := Option.map_eq_some'.mp hi2
      have hmem : (92 : UInt8) ∈ (x :: body).take i := by
        rw [← hpre0, hbody, ← hj]
        have : (pre ++ [92, c] ++ post).take (j + (pre ++ [92, c]).length)
            = (pre ++ [92, c]) ++ post.take j := by
          rw [Nat.add_comm, List.take_append]
        rw [this]
        simp
      simp only [List.length_cons] at hloop
      simp [hi, hmem, hloop]

theorem term_unquote_error (t : Tree) (bad : Item) (rest : List Item)
    (hp : t.pending = some (bad :: rest)) (ht : bad.Typ = .ItemDoubleQuoted)
    (hu : strconv.Unquote bad.Val = none) :
    t.term = .abort (.grammar (.unquoting .ErrSyntax))
      { t with Root := none, token0 := bad, lex := some ⟨rest⟩, peekCount := 0 } := by
  simp [Tree.term, next_pending t bad rest hp, ht, unquote, hu, Tree.error, Tree.errorf]
theorem parseLoop_prefix (ps : List Piece) :
    ∀ (k : Nat) (t : Tree) (root : CommandNode) (more : List Item),
      (∀ p ∈ ps, p.wellFormed = true) →
      t.pending = some (ps.flatMap Piece.tokens ++ more) →
      t.Root = some root →
      ∃ t1, Tree.parseLoop (ps.length + k) t = Tree.parseLoop k t1
        ∧ t1.pending = some more
        ∧ t1.Root = some { root with Nodes := root.Nodes ++ argsOf ps,
                                     Redirs := root.Redirs ++ redirsOf ps }
        ∧ t1.Ctx = ctxAfter t.Ctx ps ∧ t1.tab = t.tab := by
  induction ps with
  | nil =>
    intro k t root more _ hp hroot
    refine ⟨t, by simp, by simpa using hp, ?_, rfl, rfl⟩
    simp [argsOf, redirsOf, hroot]
  | cons p ps ih =>
    intro k t root more hwf hp hroot
    have hwfp := hwf p (by simp)
    have hwfps : ∀ q ∈ ps, q.wellFormed = true := fun q hq => hwf q (by simp [hq])
    have hfuel : (p :: ps).length + k = (ps.length + k) + 1 := by simp; omega
    rw [hfuel]
    cases p with
    | arg sps1 tok =>
      obtain ⟨hs1, hterm, text, hu, hnode⟩ := wellFormed_arg sps1 tok hwfp
      rw [parseLoop_arg (ps.length + k) t root sps1 tok (ps.flatMap Piece.tokens ++ more)
        text (by simpa [Piece.tokens, List.flatMap_cons] using hp) hs1 hterm hu hroot]
      obtain ⟨t1, h1, h2, h3, h4, h5⟩ := ih k
        { t with Root := some (root.append (newString tok.Pos tok.Val text)),
                 Ctx := termCtx tok, token0 := tok,
                 lex := some ⟨ps.flatMap Piece.tokens ++ more⟩, peekCount := 0 }
        (root.append (newString tok.Pos tok.Val text))
        more hwfps (by simp [Tree.pending]) rfl
      have hr : (Piece.arg sps1 tok).redir = none := rfl
      refine ⟨t1, h1, h2, ?_, ?_, h5⟩
      · rw [h3]
        simp [CommandNode.append, argsOf, redirsOf, hnode, hr]
      · rw [h4]
        simp [ctxAfter]
    | redirFd sps1 leader =>
      obtain ⟨hs1, hlead, r, hr, hred⟩ := wellFormed_redirFd sps1 leader hwfp
      rw [parseLoop_redir_done (ps.length + k) t root sps1 leader
        (ps.flatMap Piece.tokens ++ more) r
        (by simpa [Piece.tokens, List.flatMap_cons] using hp) hs1 hlead hr hroot]
      obtain ⟨t1, h1, h2, h3, h4, h5⟩ := ih k
        { t with Root := some { root with Redirs := root.Redirs ++ [r] },
                 token0 := leader, lex := some ⟨ps.flatMap Piece.tokens ++ more⟩,
                 peekCount := 0 }
        { root with Redirs := root.Redirs ++ [r] }
        more hwfps (by simp [Tree.pending]) rfl
      have hnd : (Piece.redirFd sps1 leader).node = none := rfl
      refine ⟨t1, h1, h2, ?_, ?_, h5⟩
      · rw [h3]
        simp [argsOf, redirsOf, hred, hnd]
      · rw [h4]
        simp [ctxAfter]
    | redirFile sps1 leader sps2 tok =>
      obtain ⟨hs1, hlead, hs2, hterm, oldfd, flag, text, hr, hu, hred⟩ :=
        wellFormed_redirFile sps1 leader sps2 tok hwfp
      rw [parseLoop_redir_file (ps.length + k) t root sps1 leader sps2 tok
        (ps.flatMap Piece.tokens ++ more) text oldfd flag
        (by simpa [Piece.tokens, List.flatMap_cons] using hp) hs1 hlead hr hs2 hterm hu hroot]
      obtain ⟨t1, h1, h2, h3, h4, h5⟩ := ih k
        { t with Root := some { root with Redirs := root.Redirs ++
                   [newFilenameRedir oldfd flag (newString tok.Pos tok.Val text)] },
                 Ctx := termCtx tok, token0 := tok,
                 lex := some ⟨ps.flatMap Piece.tokens ++ more⟩, peekCount := 0 }
        { root with Redirs := root.Redirs ++
            [newFilenameRedir oldfd flag (newString tok.Pos tok.Val text)] }
        more hwfps (by simp [Tree.pending]) rfl
      have hnd : (Piece.redirFile sps1 leader sps2 tok).node = none := rfl
      refine ⟨t1, h1, h2, ?_, ?_, h5⟩
      · rw [h3]
        simp [argsOf, redirsOf, hred, hnd]
      · rw [h4]
        simp [ctxAfter]

theorem parseLoop_unquote_error (n : Nat) (t : Tree) (sps : List Item) (bad : Item)
    (rest : List Item) (hp : t.pending = some (sps ++ bad :: rest))
    (hs : ∀ s ∈ sps, isSpace s = true) (ht : bad.Typ = .ItemDoubleQuoted)
    (hu : strconv.Unquote bad.Val = none) :
    Tree.parseLoop (n + 1) t = .abort (.grammar (.unquoting .ErrSyntax))
      { t with Root := none, token0 := bad, lex := some ⟨rest⟩, peekCount := 0 } := by
  have hterm : isTerm bad = true := by simp [isTerm, ht]
  have h1 := peekNonSpace_pending t sps bad rest hp hs (isSpace_false_of_isTerm bad hterm)
  have h2 := term_unquote_error { t with token0 := bad, lex := some ⟨rest⟩, peekCount := 1 }
    bad rest (by simp [Tree.pending]) ht hu
  rw [Tree.parseLoop, h1]
  simp only [ht, or_true, if_true]
  rw [h2]

theorem Do_unquote_error (ps : List Piece) (sps : List Item) (bad : Item) (rest : List Item)
    (name text : GoString) (tab : Bool)
    (hwf : ∀ p ∈ ps, p.wellFormed = true) (hs : ∀ s ∈ sps, isSpace s = true)
    (ht : bad.Typ = .ItemDoubleQuoted) (hu : strconv.Unquote bad.Val = none) :
    (Do ⟨ps.flatMap Piece.tokens ++ (sps ++ bad :: rest)⟩ name text tab).err
      = some (.unquoting .ErrSyntax)
    ∧ (Do ⟨ps.flatMap Piece.tokens ++ (sps ++ bad :: rest)⟩ name text tab).root = none := by
  obtain ⟨first, tl, hfirst⟩ : ∃ first tl,
      ps.flatMap Piece.tokens ++ (sps ++ bad :: rest) = first :: tl := by
    cases hc : ps.flatMap Piece.tokens ++ (sps ++ bad :: rest) with
    | nil => simp at hc
    | cons a l => exact ⟨a, l, rfl⟩
  have hlen : ps.length < tl.length + 1 := by
    have h1 := length_le_flatMap_tokens ps
    have h2 := congrArg List.length hfirst
    simp only [List.length_append, List.length_cons] at h2
    omega
  obtain ⟨k, hk⟩ : ∃ k, tl.length + 1 + 1 = ps.length + (k + 1) := by
    refine ⟨tl.length + 1 - ps.length, ?_⟩
    omega
  have hpk := peek_pending
    ((New name).prepare ⟨ps.flatMap Piece.tokens ++ (sps ++ bad :: rest)⟩ text tab) first tl
    (by simp [Tree.pending, Tree.prepare, Tree.startParse, New, hfirst])
  obtain ⟨t1, h1, h2, _, _, _⟩ := parseLoop_prefix ps (k + 1)
    { (New name).prepare ⟨ps.flatMap Piece.tokens ++ (sps ++ bad :: rest)⟩ text tab with
        Root := some (newCommand first.Pos), token0 := first, lex := some ⟨tl⟩, peekCount := 1 }
    (newCommand first.Pos) (sps ++ bad :: rest) hwf (by simp [Tree.pending, hfirst]) rfl
  have h3 := parseLoop_unquote_error k t1 sps bad rest h2 hs ht hu
  have hparse : Tree.parse
      ((New name).prepare ⟨ps.flatMap Piece.tokens ++ (sps ++ bad :: rest)⟩ text tab)
      = .abort (.grammar (.unquoting .ErrSyntax))
          { t1 with Root := none, token0 := bad, lex := some ⟨rest⟩, peekCount := 0 } := by
    rw [Tree.parse, hpk]
    simp only
    have hrem : Tree.remaining
        { (New name).prepare ⟨ps.flatMap Piece.tokens ++ (sps ++ bad :: rest)⟩ text tab with
            Root := some (newCommand first.Pos), token0 := first, lex := some ⟨tl⟩,
            peekCount := 1 } + 1 = ps.length + (k + 1) := by
      simp only [Tree.remaining]; omega
    rw [hrem, h1, h3]
  have hdo : Do ⟨ps.flatMap Piece.tokens ++ (sps ++ bad :: rest)⟩ name text tab
      = .returned
          (Tree.stopParse
            { t1 with Root := none, token0 := bad, lex := some ⟨rest⟩, peekCount := 0 })
          (some (.unquoting .ErrSyntax)) := by
    simp only [Do, Tree.Parse, hparse]
  rw [hdo]
  refine ⟨rfl, ?_⟩
  simp only [Outcome.root, Tree.stopParse]
  split <;> rfl

/-- C13: the value `term` gives a double-quoted token is what
`strconv.Unquote` decodes from its text: when the text is a valid string
literal the node carries the decoded string, with the conventional
backslash escapes interpreted (`"c\td"` decodes to the three bytes c, TAB,
d), and when it is not (`"bad\q"`, and every literal whose first backslash
is followed by a byte that starts no escape) `term` raises the fatal
unquoting error and `Do` returns that error, which is not nil, with no
root, whatever well-formed terms and redirections came before. -/
theorem double_quoted_term (t : Tree) (token : Item) (rest : List Item)
    (hp : t.pending = some (token :: rest)) (ht : token.Typ = .ItemDoubleQuoted) :
    (∀ s, strconv.Unquote token.Val = some s →
      t.term = .ok (newString token.Pos token.Val s)
        { t with Ctx := termCtx token, token0 := token, lex := some ⟨rest⟩, peekCount := 0 })
    ∧ (strconv.Unquote token.Val = none →
      t.term = .abort (.grammar (.unquoting .ErrSyntax))
        { t with Root := none, token0 := token, lex := some ⟨rest⟩, peekCount := 0 })
    ∧ strconv.Unquote (str "\"c\\td\"") = some [99, 9, 100]
    ∧ strconv.Unquote (str "\"\\a\\b\\f\\n\\r\\v\\\\\\\"\"") = some [7, 8, 12, 10, 13, 11, 92, 34]
    ∧ strconv.Unquote (str "\"\\x41\\101\\u00e9\"") = some [65, 65, 195, 169]
    ∧ strconv.Unquote (str "\"bad\\q\"") = none
    ∧ (∀ (pre : GoString) (c : UInt8) (post : GoString),
        (∀ b ∈ pre, isPlainByte b = true) → isEscapeByte c = false →
        strconv.Unquote (str "\"" ++ pre ++ str "\\" ++ [c] ++ post) = none)
    ∧ (∀ (ps : List Piece) (sps : List Item) (more : List Item) (name text : GoString)
        (tab : Bool),
        (∀ p ∈ ps, p.wellFormed = true) → (∀ s ∈ sps, isSpace s = true) →
        strconv.Unquote token.Val = none →
        (Do ⟨ps.flatMap Piece.tokens ++ (sps ++ token :: more)⟩ name text tab).err
          = some (.unquoting .ErrSyntax)
        ∧ (Do ⟨ps.flatMap Piece.tokens ++ (sps ++ token :: more)⟩ name text tab).root
          = none) := by
  refine ⟨?_, term_unquote_error t token rest hp ht, by decide, by decide, by decide,
    by decide, ?_, ?_⟩
  · intro s hs
    exact term_pending t token rest s hp (by simp [isTerm, ht]) (by simp [unquote, ht, hs])
  · intro pre c post hpre hc
    have h1 : str "\"" = [34] := by decide
    have h2 : str "\\" = [92] := by decide
    have hform : str "\"" ++ pre ++ str "\\" ++ [c] ++ post = 34 :: (pre ++ 92 :: c :: post) := by
      simp [h1, h2]
    rw [hform]
    exact Unquote_bad_escape pre c post hpre hc
  · intro ps sps more name text tab hwf hs hu
    exact Do_unquote_error ps sps token more name text tab hwf hs ht hu

/-- Witness of C13: the parse of `echo "bad\q"` returns the unquoting
error. -/
theorem double_quoted_term_witness :
    (Do ⟨[tok .ItemBare 0 "echo", tok .ItemSpace 4 " ", tok .ItemDoubleQuoted 5 "\"bad\\q\"",
          tok .ItemEOF 12 ""]⟩ (str "sh") (str "echo \"bad\\q\"") false).err
      = some (.unquoting .ErrSyntax) :=
  ((double_quoted_term
      (startAt [tok .ItemDoubleQuoted 5 "\"bad\\q\"", tok .ItemEOF 12 ""])
      (tok .ItemDoubleQuoted 5 "\"bad\\q\"") [tok .ItemEOF 12 ""]
      (pending_startAt _) rfl).2.2.2.2.2.2.2
    [.arg [] (tok .ItemBare 0 "echo")] [tok .ItemSpace 4 " "] [tok .ItemEOF 12 ""]
    (str "sh") (str "echo \"bad\\q\"") false (by decide) (by decide) (by decide)).1
/-! ## The lookahead never exceeds one token (C17) -/

theorem within_abort {α β : Type} (r : Result α) (e : Abort) (t1 : Tree)
    (hr : r = .abort e t1) (hw : r.Within) : (Result.abort e t1 : Result β).Within := by
  subst hr
  refine ⟨by simpa [Result.state] using hw.1, ?_⟩
  intro s h
  injection h with h1 h2
  subst h1 h2
  exact hw.2 _ rfl

theorem next_within (t : Tree) (h : t.peekCount ≤ 1) :
    t.next.Within ∧ ∀ a t1, t.next = .ok a t1 → t1.peekCount = 0 := by
  obtain ⟨nm, pn, root, ctx, text, tab, lex, t0, t1, t2, pc⟩ := t
  simp only at h
  have hcases : pc = 0 ∨ pc = 1 := by omega
  rcases hcases with hc | hc
  · subst hc
    cases lex with
    | none => simp [Tree.next, Result.Within, Result.state]
    | some lx =>
      simp only [Tree.next, Tree.tokenAt, Result.Within, Result.state]
      simp
  · subst hc
    simp only [Tree.next, Tree.tokenAt, Result.Within, Result.state]
    simp

theorem nextNonSpaceLoop_within (n : Nat) :
    ∀ t : Tree, t.peekCount ≤ 1 →
      (Tree.nextNonSpaceLoop n t).Within ∧
      ∀ a t1, Tree.nextNonSpaceLoop n t = .ok a t1 → t1.peekCount = 0 := by
  induction n with
  | zero =>
    intro t h
    simp [Tree.nextNonSpaceLoop, Result.Within, Result.state, h]
  | succ n ih =>
    intro t h
    obtain ⟨hw, hz⟩ := next_within t h
    unfold Tree.nextNonSpaceLoop
    cases hn : t.next with
    | abort e s => exact ⟨within_abort _ e s hn hw, by simp⟩
    | ok tok s =>
      have hs0 := hz tok s hn
      dsimp only
      split
      · refine ⟨⟨by simp [Result.state, hs0], by simp⟩, ?_⟩
        intro a s1 h1
        simp only [Result.ok.injEq] at h1
        rw [← h1.2]; exact hs0
      · exact ih s (by omega)

theorem peekNonSpace_within (t : Tree) (h : t.peekCount ≤ 1) : t.peekNonSpace.Within := by
  obtain ⟨hw, hz⟩ := nextNonSpaceLoop_within (t.remaining + 1) t h
  unfold Tree.peekNonSpace
  cases hn : Tree.nextNonSpaceLoop (t.remaining + 1) t with
  | abort e s => exact within_abort _ e s hn hw
  | ok tok s =>
    have hs0 := hz tok s hn
    exact ⟨by simp [Result.state, Tree.backup, hs0], by simp⟩

theorem nextNonSpace_within (t : Tree) (h : t.peekCount ≤ 1) : t.nextNonSpace.Within :=
  (nextNonSpaceLoop_within (t.remaining + 1) t h).1

theorem errorf_within {α : Type} (t : Tree) (e : ParseError) (h : t.peekCount ≤ 1) :
    (t.errorf e : Result α).Within := by
  unfold Tree.errorf
  dsimp only
  split <;> simp [Result.Within, Result.state, h]

theorem term_within (t : Tree) (h : t.peekCount ≤ 1) : t.term.Within := by
  obtain ⟨hw, hz⟩ := next_within t h
  unfold Tree.term
  cases hn : t.next with
  | abort e s => exact within_abort _ e s hn hw
  | ok tok s =>
    have hs0 := hz tok s hn
    dsimp only
    split
    · split
      · simp [Result.Within, Result.state, hs0]
      · exact errorf_within s _ (by omega)
      · refine ⟨?_, by simp⟩
        split <;> simp [Result.state, hs0]
    · exact errorf_within s _ (by omega)

theorem redirFilename_within (t : Tree) (oldfd : Int) (flag : Nat) (h : t.peekCount ≤ 1) :
    (t.redirFilename oldfd flag).Within := by
  have hw := peekNonSpace_within t h
  unfold Tree.redirFilename
  cases hn : t.peekNonSpace with
  | abort e s => exact within_abort _ e s hn hw
  | ok tok s =>
    have hs1 : s.peekCount ≤ 1 := by simpa [Result.state, hn] using hw.1
    have hw2 := term_within s hs1
    dsimp only
    cases hm : s.term with
    | abort e s2 => exact within_abort _ e s2 hm hw2
    | ok target s2 =>
      exact ⟨by simpa [Result.state, hm] using hw2.1, by simp⟩

theorem redir_within (t : Tree) (h : t.peekCount ≤ 1) : t.redir.Within := by
  obtain ⟨hw, hz⟩ := next_within t h
  unfold Tree.redir
  cases hn : t.next with
  | abort e s => exact within_abort _ e s hn hw
  | ok leader s =>
    have hs0 := hz leader s hn
    dsimp only
    split
    · simp [Result.Within, Result.state, hs0]
    · exact errorf_within s _ (by omega)
    · simp [Result.Within, Result.state, hs0]
    · exact redirFilename_within s _ _ (by omega)

theorem parseLoop_within (n : Nat) :
    ∀ t : Tree, t.peekCount ≤ 1 → (Tree.parseLoop n t).Within := by
  induction n with
  | zero => intro t h; simp [Tree.parseLoop, Result.Within, Result.state, h]
  | succ n ih =>
    intro t h
    have hw := peekNonSpace_within t h
    unfold Tree.parseLoop
    cases hn : t.peekNonSpace with
    | abort e s => exact within_abort _ e s hn hw
    | ok tok s =>
      have hs1 : s.peekCount ≤ 1 := by simpa [Result.state, hn] using hw.1
      dsimp only
      split
      · have hw2 := term_within s hs1
        cases hm : s.term with
        | abort e s2 => exact within_abort _ e s2 hm hw2
        | ok node s2 =>
          have hs2 : s2.peekCount ≤ 1 := by simpa [Result.state, hm] using hw2.1
          dsimp only
          split
          · simp [Result.Within, Result.state, hs2]
          · exact ih _ hs2
      · split
        · have hw2 := redir_within s hs1
          cases hm : s.redir with
          | abort e s2 => exact within_abort _ e s2 hm hw2
          | ok r s2 =>
            have hs2 : s2.peekCount ≤ 1 := by simpa [Result.state, hm] using hw2.1
            dsimp only
            split
            · simp [Result.Within, Result.state, hs2]
            · exact ih _ hs2
        · simp [Result.Within, Result.state, hs1]

theorem peek_within (t : Tree) (h : t.peekCount ≤ 1) : t.peek.Within := by
  obtain ⟨nm, pn, root, ctx, text, tab, lex, t0, t1, t2, pc⟩ := t
  simp only at h
  have hcases : pc = 0 ∨ pc = 1 := by omega
  rcases hcases with hc | hc
  · subst hc
    cases lex <;> simp [Tree.peek, Result.Within, Result.state]
  · subst hc
    simp [Tree.peek, Tree.tokenAt, Result.Within, Result.state]

theorem parse_within (t : Tree) (h : t.peekCount ≤ 1) : t.parse.Within := by
  have hw := peek_within t h
  unfold Tree.parse
  cases hn : t.peek with
  | abort e s => exact within_abort _ e s hn hw
  | ok tok s =>
    have hs1 : s.peekCount ≤ 1 := by simpa [Result.state, hn] using hw.1
    exact parseLoop_within _ _ hs1

/-- C17: a parse started by the entry point begins with no token buffered,
and every method of the cursor and of the parser that is entered with at
most one token buffered leaves at most one token buffered, whether it
returns or panics, and never reads the token buffer out of range; so
`peekCount` is 0 or 1 at every call made during the parse and in the
session `Do` leaves behind, and `Do` never panics on an index of the buffer
out of range. -/
theorem lookahead_at_most_one (lx : Lexer) (name text : GoString) (tab : Bool) :
    ((New name).prepare lx text tab).peekCount = 0
    ∧ (∀ t : Tree, t.peekCount ≤ 1 →
        t.next.Within ∧ t.peek.Within ∧ t.nextNonSpace.Within ∧ t.peekNonSpace.Within
        ∧ t.term.Within ∧ t.redir.Within ∧ t.parse.Within
        ∧ (∀ n, (Tree.parseLoop n t).Within)
        ∧ (∀ a t1, t.next = .ok a t1 → t1.backup.peekCount = 1))
    ∧ (∀ t1, (Do lx name text tab).state = some t1 → t1.peekCount ≤ 1)
    ∧ (∀ t1, Do lx name text tab ≠ .panicked .indexOutOfRange t1) := by
  have h0 : ((New name).prepare lx text tab).peekCount = 0 := rfl
  have hw := parse_within ((New name).prepare lx text tab) (by rw [h0]; omega)
  refine ⟨h0, ?_, ?_, ?_⟩
  · intro t h
    refine ⟨(next_within t h).1, peek_within t h, nextNonSpace_within t h,
      peekNonSpace_within t h, term_within t h, redir_within t h, parse_within t h,
      fun n => parseLoop_within n t h, ?_⟩
    intro a s hs
    simp [Tree.backup, (next_within t h).2 a s hs]
  · intro s hs
    simp only [Do, Tree.Parse] at hs
    cases hp : ((New name).prepare lx text tab).parse with
    | ok u t4 =>
      rw [hp] at hs hw
      simp only [Outcome.state, Option.some.injEq] at hs
      rw [← hs]
      have := hw.1
      simp only [Result.state] at this
      simp only [Tree.stopParse]
      split <;> exact this
    | abort e t4 =>
      rw [hp] at hs hw
      have h4 := hw.1
      simp only [Result.state] at h4
      cases e with
      | grammar g =>
        simp only [Outcome.state, Option.some.injEq] at hs
        rw [← hs]
        simp only [Tree.stopParse]
        split <;> exact h4
      | fault f =>
        simp only [Outcome.state, Option.some.injEq] at hs
        rw [← hs]; exact h4
      | diverge => simp [Outcome.state] at hs
  · intro s hs
    simp only [Do, Tree.Parse] at hs
    cases hp : ((New name).prepare lx text tab).parse with
    | ok u t4 => rw [hp] at hs; simp at hs
    | abort e t4 =>
      rw [hp] at hs hw
      cases e with
      | grammar g => simp at hs
      | fault f =>
        simp only [Outcome.panicked.injEq] at hs
        obtain ⟨hf, _⟩ := hs
        subst hf
        exact hw.2 t4 rfl
      | diverge => simp at hs

/-- Witness of C17: in the parse of `a > b` every call is made with at most
one token buffered, and so is the session left behind. -/
theorem lookahead_at_most_one_witness :
    (Tree.peekNonSpace
      { startAt [tok .ItemSpace 1 " ", tok .ItemRedirLeader 2 ">", tok .ItemSpace 3 " ",
                 tok .ItemBare 4 "b", tok .ItemEOF 5 ""] with
          token0 := tok .ItemBare 0 "a", peekCount := 1 }).Within :=
  ((lookahead_at_most_one
      ⟨[tok .ItemBare 0 "a", tok .ItemSpace 1 " ", tok .ItemRedirLeader 2 ">",
        tok .ItemSpace 3 " ", tok .ItemBare 4 "b", tok .ItemEOF 5 ""]⟩
      (str "sh") (str "a > b") false).2.1
    { startAt [tok .ItemSpace 1 " ", tok .ItemRedirLeader 2 ">", tok .ItemSpace 3 " ",
               tok .ItemBare 4 "b", tok .ItemEOF 5 ""] with
        token0 := tok .ItemBare 0 "a", peekCount := 1 }
    (by decide)).2.2.2.1
/-! ## The cleanup after a successful parse (C19) -/

theorem next_root (t : Tree) (a : Item) (t1 : Tree) (h : t.next = .ok a t1) :
    t1.Root = t.Root := by
  unfold Tree.next at h
  split at h
  · dsimp only at h
    split at h
    · simp only [Result.ok.injEq] at h
      rw [← h.2]
    · simp at h
  · split at h
    · simp at h
    · dsimp only at h
      split at h
      · simp only [Result.ok.injEq] at h
        rw [← h.2]
      · simp at h

theorem nextNonSpaceLoop_root (n : Nat) :
    ∀ (t : Tree) (a : Item) (t1 : Tree), Tree.nextNonSpaceLoop n t = .ok a t1 →
      t1.Root = t.Root := by
  induction n with
  | zero => intro t a t1 h; simp [Tree.nextNonSpaceLoop] at h
  | succ n ih =>
    intro t a t1 h
    unfold Tree.nextNonSpaceLoop at h
    cases hn : t.next with
    | abort e s => rw [hn] at h; simp at h
    | ok tok s =>
      rw [hn] at h
      dsimp only at h
      have hs := next_root t tok s hn
      split at h
      · simp only [Result.ok.injEq] at h
        rw [← h.2, hs]
      · rw [ih s a t1 h, hs]

theorem peekNonSpace_root (t : Tree) (a : Item) (t1 : Tree) (h : t.peekNonSpace = .ok a t1) :
    t1.Root = t.Root := by
  unfold Tree.peekNonSpace at h
  cases hn : Tree.nextNonSpaceLoop (t.remaining + 1) t with
  | abort e s => rw [hn] at h; simp at h
  | ok tok s =>
    rw [hn] at h
    simp only [Result.ok.injEq] at h
    rw [← h.2]
    exact nextNonSpaceLoop_root _ t tok s hn

theorem errorf_not_ok {α : Type} (t : Tree) (e : ParseError) (a : α) (t1 : Tree) :
    (t.errorf e : Result α) ≠ .ok a t1 := by
  unfold Tree.errorf
  dsimp only
  split <;> simp

theorem term_root (t : Tree) (a : Node) (t1 : Tree) (h : t.term = .ok a t1) :
    t1.Root = t.Root := by
  unfold Tree.term at h
  cases hn : t.next with
  | abort e s => rw [hn] at h; simp at h
  | ok tok s =>
    rw [hn] at h
    dsimp only at h
    have hs := next_root t tok s hn
    split at h
    · split at h
      · simp at h
      · exact absurd h (errorf_not_ok s _ a t1)
      · simp only [Result.ok.injEq] at h
        rw [← h.2, ← hs]
        split <;> rfl
    · exact absurd h (errorf_not_ok s _ a t1)

theorem redirFilename_root (t : Tree) (oldfd : Int) (flag : Nat) (a : Redir) (t1 : Tree)
    (h : t.redirFilename oldfd flag = .ok a t1) : t1.Root = t.Root := by
  unfold Tree.redirFilename at h
  cases hn : t.peekNonSpace with
  | abort e s => rw [hn] at h; simp at h
  | ok tok s =>
    rw [hn] at h
    dsimp only at h
    cases hm : s.term with
    | abort e s2 => rw [hm] at h; simp at h
    | ok target s2 =>
      rw [hm] at h
      simp only [Result.ok.injEq] at h
      rw [← h.2, term_root s target s2 hm, peekNonSpace_root t tok s hn]

theorem redir_root (t : Tree) (a : Redir) (t1 : Tree) (h : t.redir = .ok a t1) :
    t1.Root = t.Root := by
  unfold Tree.redir at h
  cases hn : t.next with
  | abort e s => rw [hn] at h; simp at h
  | ok leader s =>
    rw [hn] at h
    dsimp only at h
    have hs := next_root t leader s hn
    split at h
    · simp at h
    · exact absurd h (errorf_not_ok s _ a t1)
    · simp only [Result.ok.injEq] at h
      rw [← h.2, hs]
    · rw [redirFilename_root s _ _ a t1 h, hs]

theorem parseLoop_root (n : Nat) :
    ∀ (t t1 : Tree), Tree.parseLoop n t = .ok () t1 → t.Root.isSome = true →
      t1.Root.isSome = true := by
  induction n with
  | zero => intro t t1 h; simp [Tree.parseLoop] at h
  | succ n ih =>
    intro t t1 h hroot
    unfold Tree.parseLoop at h
    cases hn : t.peekNonSpace with
    | abort e s => rw [hn] at h; simp at h
    | ok tok s =>
      rw [hn] at h
      dsimp only at h
      have hs := peekNonSpace_root t tok s hn
      split at h
      · cases hm : s.term with
        | abort e s2 => rw [hm] at h; simp at h
        | ok node s2 =>
          rw [hm] at h
          dsimp only at h
          split at h
          · simp at h
          · exact ih _ t1 h rfl
      · split at h
        · cases hm : s.redir with
          | abort e s2 => rw [hm] at h; simp at h
          | ok r s2 =>
            rw [hm] at h
            dsimp only at h
            split at h
            · simp at h
            · exact ih _ t1 h rfl
        · simp only [Result.ok.injEq, true_and] at h
          rw [← h, hs]
          exact hroot

theorem parse_root (t t1 : Tree) (h : t.parse = .ok () t1) : t1.Root.isSome = true := by
  unfold Tree.parse at h
  cases hn : t.peek with
  | abort e s => rw [hn] at h; simp at h
  | ok tok s =>
    rw [hn] at h
    exact parseLoop_root _ _ t1 h rfl

/-- C19: whenever the parse of a call of `Do` completes without error, the
cleanup of `stopParse` is still applied to the session returned with the
nil error: with `tab = false` the continuation context is nil and the root
is the command node that was parsed; with `tab = true` the root is nil and
the continuation context is the one parsing left, that of the last term
parsed (argument or filename target) when the input is a sequence of
well-formed terms and redirections. -/
theorem cleanup_after_success (lx : Lexer) (name text : GoString) (tab : Bool) (t4 : Tree)
    (h : ((New name).prepare lx text tab).parse = .ok () t4) :
    Do lx name text tab = .returned t4.stopParse none
    ∧ t4.Root.isSome = true
    ∧ (tab = false →
        (Do lx name text tab).ctx = none ∧ (Do lx name text tab).root = t4.Root)
    ∧ (tab = true →
        (Do lx name text tab).root = none ∧ (Do lx name text tab).ctx = t4.Ctx)
    ∧ (∀ (ps : List Piece) (sps : List Item) (stop : Item) (rest : List Item) (first : Item)
        (tl : List Item),
        lx.items = ps.flatMap Piece.tokens ++ (sps ++ stop :: rest) →
        lx.items = first :: tl →
        (∀ p ∈ ps, p.wellFormed = true) → (∀ s ∈ sps, isSpace s = true) →
        isStop stop = true →
        t4.Root = some { Pos := first.Pos, Nodes := argsOf ps, Redirs := redirsOf ps }
        ∧ t4.Ctx = ctxAfter none ps) := by
  have hk := parse_kept ((New name).prepare lx text tab)
  have htab : t4.tab = tab := by
    have := hk.1
    rw [h] at this
    simpa [Result.state, Tree.prepare, Tree.startParse] using this
  have hdo : Do lx name text tab = .returned t4.stopParse none := by
    simp [Do, Tree.Parse, h]
  refine ⟨hdo, parse_root _ t4 h, ?_, ?_, ?_⟩
  · intro ht
    rw [hdo]
    simp [Outcome.ctx, Outcome.root, Tree.stopParse, htab, ht]
  · intro ht
    rw [hdo]
    simp [Outcome.ctx, Outcome.root, Tree.stopParse, htab, ht]
  · intro ps sps stop rest first tl hitems hfirst hwf hs hstop
    have hp := parse_pieces ((New name).prepare lx text tab) ps sps stop rest first tl hwf
      (by simp [Tree.pending, Tree.prepare, Tree.startParse, New, hitems])
      (by rw [← hitems, hfirst]) hs hstop
    rw [h] at hp
    simp only [Result.ok.injEq, true_and] at hp
    rw [hp]
    exact ⟨rfl, rfl⟩

/-- Witness of C19: the interactive parse of `ec` with the may-continue bit
set on the bareword returns a nil root and the argument continuation of
`ec`. -/
theorem cleanup_after_success_witness :
    (Do ⟨[⟨.ItemBare, 0, str "ec", MayContinue⟩, tok .ItemEOF 2 ""]⟩ (str "sh") (str "ec")
        true).root = none
    ∧ (Do ⟨[⟨.ItemBare, 0, str "ec", MayContinue⟩, tok .ItemEOF 2 ""]⟩ (str "sh") (str "ec")
        true).ctx = some (NewArgContext (str "ec")) :=
  (cleanup_after_success ⟨[⟨.ItemBare, 0, str "ec", MayContinue⟩, tok .ItemEOF 2 ""]⟩
    (str "sh") (str "ec") true
    { New (str "sh") with
        ParseName := str "sh", text := str "ec", tab := true,
        Root := some { Pos := 0, Nodes := [newString 0 (str "ec") (str "ec")], Redirs := [] },
        Ctx := some (NewArgContext (str "ec")),
        lex := some ⟨[]⟩, token0 := tok .ItemEOF 2 "", peekCount := 1 }
    (by decide)).2.2.2.1 rfl
/-! ## The error context (C15) and the partition of a leader (C18) -/

/-- C15 at the failing input: the rendering `ééééééééééé` has 11 characters
in 22 bytes; the length test of `ErrorContext` counts bytes and the cut of
`%.20s` counts characters, so nothing is cut off and the ellipsis is
appended all the same: the context is not the rendering itself.  On a
rendering of 26 ASCII characters the first 20 are kept before the ellipsis,
and one of 20 ASCII characters is returned as it is. -/
theorem error_context_ellipsis_without_cut :
    fmt.RuneCount (str "ééééééééééé") = 11
    ∧ (str "ééééééééééé").length = 22
    ∧ fmt.truncateString 20 (str "ééééééééééé") = str "ééééééééééé"
    ∧ Tree.ErrorContext (fun _ => str "ééééééééééé")
        { New (str "sh") with ParseName := str "sh", text := str "ééééééééééé" }
        (.StringNode 0 (str "ééééééééééé") (str "ééééééééééé"))
      = some (str "sh:1:0", str "ééééééééééé...")
    ∧ Tree.ErrorContext (fun _ => str "abcdefghijklmnopqrstuvwxyz")
        { New (str "sh") with ParseName := str "sh", text := str "a\nabcdefghijklmnopqrstuvwxyz" }
        (.StringNode 2 (str "abcdefghijklmnopqrstuvwxyz") (str "abcdefghijklmnopqrstuvwxyz"))
      = some (str "sh:2:0", str "abcdefghijklmnopqrst...")
    ∧ Tree.ErrorContext (fun _ => str "abcdefghijklmnopqrst")
        { New (str "sh") with ParseName := str "sh", text := str "x abcdefghijklmnopqrst" }
        (.StringNode 2 (str "abcdefghijklmnopqrst") (str "abcdefghijklmnopqrst"))
      = some (str "sh:1:2", str "abcdefghijklmnopqrst") := by
  decide

/-- C18 at the failing inputs: for the leader `>[`, whose `[` is its last
byte, the slice of the qualifier is out of range: the partition panics and
the parse of `cmd >[` leaves `Do` by a run-time panic; for the leader
`>[1=2`, which has no closing bracket, the last byte `2` is dropped from the
qualifier.  A leader without `[` is its own direction, and `>>[1=2]` gives
the direction `>>` and the qualifier `1=2`. -/
theorem partition_unclosed_bracket :
    partition (str ">[") = none
    ∧ (Do ⟨[tok .ItemBare 0 "cmd", tok .ItemSpace 3 " ", tok .ItemRedirLeader 4 ">[",
            tok .ItemEOF 6 ""]⟩ (str "sh") (str "cmd >[") false).fault
        = some .sliceOutOfRange
    ∧ (Do ⟨[tok .ItemBare 0 "cmd", tok .ItemSpace 3 " ", tok .ItemRedirLeader 4 ">[",
            tok .ItemEOF 6 ""]⟩ (str "sh") (str "cmd >[") false).isReturned = false
    ∧ partition (str ">[1=2") = some (str ">", str "1=")
    ∧ partition (str ">>") = some (str ">>", [])
    ∧ partition (str ">>[1=2]") = some (str ">>", str "1=2") := by
  decide

theorem truncateAux_ascii (fuel : Nat) :
    ∀ (n : Nat) (s : GoString), s.length ≤ fuel → (∀ b ∈ s, b.toNat < 0x80) →
      fmt.truncateAux fuel n s = s.take n := by
  induction fuel with
  | zero =>
    intro n s hlen _
    have : s = [] := List.length_eq_zero.mp (by omega)
    subst this
    simp [fmt.truncateAux]
  | succ fuel ih =>
    intro n s hlen hall
    cases s with
    | nil => simp [fmt.truncateAux]
    | cons b rest =>
      have hb : b.toNat < 0x80 := hall b (by simp)
      have hd : strconv.DecodeRune (b :: rest) = (b.toNat, 1) := by
        simp [strconv.DecodeRune, hb]
      cases n with
      | zero => simp [fmt.truncateAux]
      | succ n =>
        have hrec := ih n rest (by simp at hlen; omega) (fun x hx => hall x (by simp [hx]))
        simp [fmt.truncateAux, hd, hrec]

theorem ErrorContext_ascii (render : Node → GoString) (t : Tree) (n : Node)
    (text : GoString) (hslice : slice t.text 0 n.Position = some text)
    (hall : ∀ b ∈ render n, b.toNat < 0x80) :
    (Tree.ErrorContext render t n).map (fun p => p.2)
      = some (if (render n).length ≤ 20 then render n
              else (render n).take 20 ++ str "...") := by
  have htr : fmt.truncateString 20 (render n) = (render n).take 20 :=
    truncateAux_ascii _ 20 (render n) (Nat.le_refl _) hall
  simp only [Tree.ErrorContext, hslice, Option.map_some', htr]
  by_cases h : (render n).length ≤ 20
  · have h2 : ¬ ((render n).length > 20) := by omega
    simp [h, h2]
  · have h2 : (render n).length > 20 := by omega
    simp [h, h2]
/-! ## The context an interactive parse keeps on an error (C8) -/

theorem term_abort_error (t : Tree) (tok : Item) (rest : List Item) (err : UnquoteError)
    (hp : t.pending = some (tok :: rest)) (ht : isTerm tok = true)
    (hu : unquote tok = some (.error err)) :
    t.term = .abort (.grammar (.unquoting err))
      { t with Root := none, token0 := tok, lex := some ⟨rest⟩, peekCount := 0 } := by
  have ht2 : tok.Typ = .ItemBare ∨ tok.Typ = .ItemSingleQuoted ∨
      tok.Typ = .ItemDoubleQuoted := by simpa [isTerm] using ht
  simp [Tree.term, next_pending t tok rest hp, ht2, hu, Tree.error, Tree.errorf]

theorem term_abort_fault (t : Tree) (tok : Item) (rest : List Item)
    (hp : t.pending = some (tok :: rest)) (ht : isTerm tok = true)
    (hu : unquote tok = none) :
    t.term = .abort (.fault .sliceOutOfRange)
      { t with token0 := tok, lex := some ⟨rest⟩, peekCount := 0 } := by
  have ht2 : tok.Typ = .ItemBare ∨ tok.Typ = .ItemSingleQuoted ∨
      tok.Typ = .ItemDoubleQuoted := by simpa [isTerm] using ht
  simp [Tree.term, next_pending t tok rest hp, ht2, hu]

theorem redirFilename_step (t : Tree) (sps : List Item) (tok : Item) (rest : List Item)
    (oldfd : Int) (flag : Nat)
    (hp : t.pending = some (sps ++ tok :: rest)) (hs : ∀ s ∈ sps, isSpace s = true)
    (hb : isSpace tok = false) :
    t.redirFilename oldfd flag
      = match Tree.term { t with token0 := tok, lex := some ⟨rest⟩, peekCount := 1 } with
        | .abort e s => .abort e s
        | .ok target s => .ok (newFilenameRedir oldfd flag target) s := by
  rw [Tree.redirFilename, peekNonSpace_pending t sps tok rest hp hs hb]

theorem parseLoop_term_step (n : Nat) (t : Tree) (sps : List Item) (tok : Item)
    (rest : List Item) (hp : t.pending = some (sps ++ tok :: rest))
    (hs : ∀ s ∈ sps, isSpace s = true) (ht : isTerm tok = true) :
    Tree.parseLoop (n + 1) t
      = match Tree.term { t with token0 := tok, lex := some ⟨rest⟩, peekCount := 1 } with
        | .abort e s => .abort e s
        | .ok node s =>
          match s.Root with
          | none => .abort (.fault .nilDereference) s
          | some root => Tree.parseLoop n { s with Root := some (root.append node) } := by
  have ht2 : tok.Typ = .ItemBare ∨ tok.Typ = .ItemSingleQuoted ∨
      tok.Typ = .ItemDoubleQuoted := by simpa [isTerm] using ht
  rw [Tree.parseLoop, peekNonSpace_pending t sps tok rest hp hs
    (isSpace_false_of_isTerm tok ht)]
  simp only [ht2, if_true]

theorem parseLoop_redir_step (n : Nat) (t : Tree) (sps : List Item) (leader : Item)
    (rest : List Item) (hp : t.pending = some (sps ++ leader :: rest))
    (hs : ∀ s ∈ sps, isSpace s = true) (hl : leader.Typ = .ItemRedirLeader) :
    Tree.parseLoop (n + 1) t
      = match Tree.redir { t with token0 := leader, lex := some ⟨rest⟩, peekCount := 1 } with
        | .abort e s => .abort e s
        | .ok r s =>
          match s.Root with
          | none => .abort (.fault .nilDereference) s
          | some root =>
            Tree.parseLoop n
              { s with Root := some { root with Redirs := root.Redirs ++ [r] } } := by
  have hnt : ¬ (leader.Typ = .ItemBare ∨ leader.Typ = .ItemSingleQuoted ∨
      leader.Typ = .ItemDoubleQuoted) := by simp [hl]
  rw [Tree.parseLoop, peekNonSpace_pending t sps leader rest hp hs
    (isSpace_false_of_leader leader hl)]
  simp only []
  rw [if_neg hnt, if_pos hl]

theorem split_at_non_space :
    ∀ l : List Item, (∃ x ∈ l, isSpace x = false) →
      ∃ sps tok rest, l = sps ++ tok :: rest ∧ (∀ s ∈ sps, isSpace s = true)
        ∧ isSpace tok = false := by
  intro l
  induction l with
  | nil => intro h; obtain ⟨x, hx, _⟩ := h; simp at hx
  | cons a l ih =>
    intro h
    by_cases ha : isSpace a = false
    · exact ⟨[], a, l, rfl, by simp, ha⟩
    · have ha2 : isSpace a = true := by simpa using ha
      obtain ⟨x, hx, hxs⟩ := h
      have hxl : x ∈ l := by
        simp only [List.mem_cons] at hx
        rcases hx with hx | hx
        · subst hx; rw [ha2] at hxs; exact absurd hxs (by simp)
        · exact hx
      obtain ⟨sps, tok, rest, h1, h2, h3⟩ := ih ⟨x, hxl, hxs⟩
      refine ⟨a :: sps, tok, rest, by simp [h1], ?_, h3⟩
      intro s hs
      simp only [List.mem_cons] at hs
      rcases hs with hs | hs
      · subst hs; exact ha2
      · exact h2 s hs

theorem eof_not_space (x : Item) (h : x.Typ = .ItemEOF) : isSpace x = false := by
  simp [isSpace, h]

theorem eof_in_rest (sps : List Item) (tok : Item) (rest : List Item)
    (hs : ∀ s ∈ sps, isSpace s = true) (htok : tok.Typ ≠ .ItemEOF)
    (h : ∃ x ∈ sps ++ tok :: rest, x.Typ = .ItemEOF) : ∃ x ∈ rest, x.Typ = .ItemEOF := by
  obtain ⟨x, hx, hxe⟩ := h
  simp only [List.mem_append, List.mem_cons] at hx
  rcases hx with hx | hx | hx
  · have := hs x hx
    rw [eof_not_space x hxe] at this
    exact absurd this (by simp)
  · subst hx; exact absurd hxe htok
  · exact ⟨x, hx, hxe⟩

theorem wellFormed_arg_intro (sps : List Item) (tok : Item) (text : GoString)
    (hs : ∀ s ∈ sps, isSpace s = true) (ht : isTerm tok = true)
    (hu : unquote tok = some (.ok text)) : (Piece.arg sps tok).wellFormed = true := by
  have hall : sps.all isSpace = true := by simpa using hs
  simp [Piece.wellFormed, Piece.node, hall, termNode, ht, hu]

theorem wellFormed_redirFd_intro (sps : List Item) (leader : Item) (r : Redir)
    (hs : ∀ s ∈ sps, isSpace s = true) (hl : leader.Typ = .ItemRedirLeader)
    (hr : redirLeader leader.Val = .done r) : (Piece.redirFd sps leader).wellFormed = true := by
  have hall : sps.all isSpace = true := by simpa using hs
  simp [Piece.wellFormed, Piece.node, Piece.redir, hall, hl, hr]

theorem wellFormed_redirFile_intro (sps : List Item) (leader : Item) (sps2 : List Item)
    (tok : Item) (text : GoString) (oldfd : Int) (flag : Nat)
    (hs : ∀ s ∈ sps, isSpace s = true) (hl : leader.Typ = .ItemRedirLeader)
    (hr : redirLeader leader.Val = .filename oldfd flag)
    (hs2 : ∀ s ∈ sps2, isSpace s = true) (ht : isTerm tok = true)
    (hu : unquote tok = some (.ok text)) :
    (Piece.redirFile sps leader sps2 tok).wellFormed = true := by
  have hall : sps.all isSpace = true := by simpa using hs
  have hall2 : sps2.all isSpace = true := by simpa using hs2
  simp [Piece.wellFormed, Piece.node, Piece.redir, hall, hall2, hl, hr, termNode, ht, hu]
theorem isTerm_not_eof (tok : Item) (h : isTerm tok = true) : tok.Typ ≠ .ItemEOF := by
  intro he
  simp [isTerm, he] at h

theorem parseLoop_abort_decompose (e : ParseError) (t4 : Tree) (n : Nat) :
    ∀ (t : Tree) (root : CommandNode) (stream : List Item),
      t.pending = some stream → (∃ x ∈ stream, x.Typ = .ItemEOF) → t.Root = some root →
      Tree.parseLoop n t = .abort (.grammar e) t4 →
      ∃ (ps : List Piece) (f : Failure) (rest : List Item), (∀ p ∈ ps, p.wellFormed = true)
        ∧ stream = ps.flatMap Piece.tokens ++ (f.tokens ++ rest)
        ∧ f.error = some e ∧ t4.Ctx = ctxAfter t.Ctx ps ∧ t4.Root = none := by
  induction n with
  | zero =>
    intro t root stream _ _ _ h
    simp [Tree.parseLoop] at h
  | succ n ih =>
    intro t root stream hp heof hroot h
    obtain ⟨sps, tok, rest, hstream, hs, hb⟩ := split_at_non_space stream
      (by obtain ⟨x, hx, hxe⟩ := heof; exact ⟨x, hx, eof_not_space x hxe⟩)
    subst hstream
    have hall : sps.all isSpace = true := by simpa using hs
    have hp1 : Tree.pending { t with token0 := tok, lex := some ⟨rest⟩, peekCount := 1 }
        = some (tok :: rest) := by simp [Tree.pending]
    by_cases ht : isTerm tok = true
    · rw [parseLoop_term_step n t sps tok rest hp hs ht] at h
      cases hu : unquote tok with
      | none =>
        rw [term_abort_fault _ tok rest hp1 ht hu] at h
        simp at h
      | some res =>
        cases res with
        | error err =>
          rw [term_abort_error _ tok rest err hp1 ht hu] at h
          simp only [Result.abort.injEq, Abort.grammar.injEq] at h
          obtain ⟨he, h4⟩ := h
          refine ⟨[], .term sps tok, rest, by simp, by simp [Failure.tokens], ?_, ?_, ?_⟩
          · simp [Failure.error, hall, ht, termError, hu, he]
          · rw [← h4]; rfl
          · rw [← h4]
        | ok text =>
          rw [term_pending _ tok rest text hp1 ht hu] at h
          simp only [hroot] at h
          obtain ⟨ps, f, rest1, hwf, hst, hf, hc, hr⟩ := ih _
            (root.append (newString tok.Pos tok.Val text)) rest (by simp [Tree.pending])
            (eof_in_rest sps tok rest hs (isTerm_not_eof tok ht) heof) rfl h
          refine ⟨.arg sps tok :: ps, f, rest1, ?_, ?_, hf, ?_, hr⟩
          · intro p hp2
            simp only [List.mem_cons] at hp2
            rcases hp2 with hp2 | hp2
            · rw [hp2]; exact wellFormed_arg_intro sps tok text hs ht hu
            · exact hwf p hp2
          · simp [Piece.tokens, List.flatMap_cons, hst]
          · rw [hc]; rfl
    · have ht0 : isTerm tok = false := by simpa using ht
      by_cases hl : tok.Typ = .ItemRedirLeader
      · have hne : tok.Typ ≠ .ItemEOF := by rw [hl]; simp
        have heof2 := eof_in_rest sps tok rest hs hne heof
        rw [parseLoop_redir_step n t sps tok rest hp hs hl] at h
        cases hr : redirLeader tok.Val with
        | fault =>
          simp [Tree.redir, next_pending _ tok rest hp1, hr] at h
        | error e1 =>
          rw [redir_error _ tok rest e1 hp1 hr] at h
          simp only [Result.abort.injEq, Abort.grammar.injEq] at h
          obtain ⟨he, h4⟩ := h
          refine ⟨[], .leader sps tok, rest, by simp, by simp [Failure.tokens], ?_, ?_, ?_⟩
          · simp [Failure.error, hall, hl, hr, he]
          · rw [← h4]; rfl
          · rw [← h4]
        | done r =>
          rw [redir_done _ tok rest r hp1 hr] at h
          simp only [hroot] at h
          obtain ⟨ps, f, rest1, hwf, hst, hf, hc, hr2⟩ := ih _
            { root with Redirs := root.Redirs ++ [r] } rest (by simp [Tree.pending])
            heof2 rfl h
          refine ⟨.redirFd sps tok :: ps, f, rest1, ?_, ?_, hf, ?_, hr2⟩
          · intro p hp2
            simp only [List.mem_cons] at hp2
            rcases hp2 with hp2 | hp2
            · rw [hp2]; exact wellFormed_redirFd_intro sps tok r hs hl hr
            · exact hwf p hp2
          · simp [Piece.tokens, List.flatMap_cons, hst]
          · rw [hc]; rfl
        | filename oldfd flag =>
          obtain ⟨sps2, tok2, rest2, hrest, hs2, hb2⟩ := split_at_non_space rest
            (by obtain ⟨x, hx, hxe⟩ := heof2; exact ⟨x, hx, eof_not_space x hxe⟩)
          subst hrest
          have hall2 : sps2.all isSpace = true := by simpa using hs2
          rw [redir_to_filename _ tok (sps2 ++ tok2 :: rest2) oldfd flag hp1 hr] at h
          rw [redirFilename_step _ sps2 tok2 rest2 oldfd flag (by simp [Tree.pending])
            hs2 hb2] at h
          have hp2 : Tree.pending
              { ({ ({ t with token0 := tok, lex := some ⟨sps2 ++ tok2 :: rest2⟩,
                             peekCount := 1 } : Tree) with
                     token0 := tok, lex := some ⟨sps2 ++ tok2 :: rest2⟩,
                     peekCount := 0 } : Tree) with
                  token0 := tok2, lex := some ⟨rest2⟩, peekCount := 1 }
              = some (tok2 :: rest2) := by simp [Tree.pending]
          by_cases ht2 : isTerm tok2 = true
          · cases hu : unquote tok2 with
            | none =>
              rw [term_abort_fault _ tok2 rest2 hp2 ht2 hu] at h
              simp at h
            | some res =>
              cases res with
              | error err =>
                rw [term_abort_error _ tok2 rest2 err hp2 ht2 hu] at h
                simp only [Result.abort.injEq, Abort.grammar.injEq] at h
                obtain ⟨he, h4⟩ := h
                refine ⟨[], .target sps tok sps2 tok2, rest2, by simp,
                  by simp [Failure.tokens], ?_, ?_, ?_⟩
                · simp [Failure.error, hall, hall2, hl, hr, hb2, termError, ht2, hu, he]
                · rw [← h4]; rfl
                · rw [← h4]
              | ok text =>
                rw [term_pending _ tok2 rest2 text hp2 ht2 hu] at h
                simp only [hroot] at h
                obtain ⟨ps, f, rest1, hwf, hst, hf, hc, hr2⟩ := ih _
                  { root with Redirs := root.Redirs ++
                      [newFilenameRedir oldfd flag (newString tok2.Pos tok2.Val text)] }
                  rest2 (by simp [Tree.pending])
                  (eof_in_rest sps2 tok2 rest2 hs2 (isTerm_not_eof tok2 ht2) heof2) rfl h
                refine ⟨.redirFile sps tok sps2 tok2 :: ps, f, rest1, ?_, ?_, hf, ?_, hr2⟩
                · intro p hp3
                  simp only [List.mem_cons] at hp3
                  rcases hp3 with hp3 | hp3
                  · rw [hp3]
                    exact wellFormed_redirFile_intro sps tok sps2 tok2 text oldfd flag hs hl
                      hr hs2 ht2 hu
                  · exact hwf p hp3
                · simp [Piece.tokens, List.flatMap_cons, hst]
                · rw [hc]; rfl
          · have ht20 : isTerm tok2 = false := by simpa using ht2
            rw [term_unexpected _ tok2 rest2 hp2 ht20] at h
            simp only [Result.abort.injEq, Abort.grammar.injEq] at h
            obtain ⟨he, h4⟩ := h
            refine ⟨[], .target sps tok sps2 tok2, rest2, by simp,
              by simp [Failure.tokens], ?_, ?_, ?_⟩
            · simp [Failure.error, hall, hall2, hl, hr, hb2, termError, ht20, he]
            · rw [← h4]; rfl
            · rw [← h4]
      · have hstop : isStop tok = true := by simp [isStop, hb, ht0, hl]
        rw [parseLoop_stop n t sps tok rest hp hs hstop] at h
        simp at h
theorem parse_abort_decompose (t : Tree) (stream : List Item) (e : ParseError) (t4 : Tree)
    (hp : t.pending = some stream) (heof : ∃ x ∈ stream, x.Typ = .ItemEOF)
    (h : t.parse = .abort (.grammar e) t4) :
    ∃ (ps : List Piece) (f : Failure) (rest : List Item), (∀ p ∈ ps, p.wellFormed = true)
      ∧ stream = ps.flatMap Piece.tokens ++ (f.tokens ++ rest)
      ∧ f.error = some e ∧ t4.Ctx = ctxAfter t.Ctx ps ∧ t4.Root = none := by
  cases stream with
  | nil => simp at heof
  | cons first tl =>
    have hpk := peek_pending t first tl hp
    rw [Tree.parse, hpk] at h
    simp only at h
    exact parseLoop_abort_decompose e t4 _
      { t with Root := some (newCommand first.Pos), token0 := first, lex := some ⟨tl⟩,
               peekCount := 1 }
      (newCommand first.Pos) (first :: tl) (by simp [Tree.pending]) heof rfl h

/-! ## The session returned with an error by an interactive parse (C8) -/

/-- C8, as stated, fails: the interactive parse (`tab = true`) of `cmd >`
accepts the term `cmd` and then fails on the missing target; the session
returned with the error has a nil root, not a root holding `cmd`. -/
theorem fatal_interactive_counterexample :
    Do ⟨[tok .ItemBare 0 "cmd", tok .ItemSpace 3 " ", tok .ItemRedirLeader 4 ">",
         tok .ItemEOF 5 ""]⟩ (str "sh") (str "cmd >") true
      = .returned
          { New (str "sh") with
              ParseName := str "sh", text := str "cmd >", tab := true, Root := none,
              token0 := tok .ItemEOF 5 "" }
          (some (.unexpected (tok .ItemEOF 5 "") (str "term"))) := by
  decide

/-- C8 (amended): whenever the parse of an interactive call (`tab = true`) is
stopped by `errorf`, `Do` returns that error and the session returned with
it has a nil root; its continuation context is not discarded.  When the
token stream has an end-of-input token, the stream is a sequence `ps` of
accepted terms and redirections, followed by the tokens of the construct
`f` that raised the error `e`, and the context of the returned session is
`ctxAfter none ps`: the one set by the last term accepted before the error
(the argument context of its text when its end flag has `MayContinue`, nil
otherwise), and nil when no term was accepted. -/
theorem fatal_interactive_root_absent (lx : Lexer) (name text : GoString)
    (e : ParseError) (t4 : Tree)
    (h : ((New name).prepare lx text true).parse = .abort (.grammar e) t4) :
    Do lx name text true = .returned t4.stopParse (some e)
    ∧ (Do lx name text true).root = none
    ∧ (Do lx name text true).ctx = t4.Ctx
    ∧ t4.stopParse.Root = none ∧ t4.stopParse.Ctx = t4.Ctx
    ∧ ((∃ x ∈ lx.items, x.Typ = .ItemEOF) →
        ∃ (ps : List Piece) (f : Failure) (rest : List Item),
          (∀ p ∈ ps, p.wellFormed = true)
          ∧ lx.items = ps.flatMap Piece.tokens ++ (f.tokens ++ rest)
          ∧ f.error = some e
          ∧ (Do lx name text true).ctx = ctxAfter none ps
          ∧ (Do lx name text true).root = none
          ∧ (Do lx name text true).err = some e) := by
  have hk := parse_kept ((New name).prepare lx text true)
  have htab : t4.tab = true := by
    have := hk.1
    rw [h] at this
    simpa [Result.state, Tree.prepare, Tree.startParse] using this
  have hdo : Do lx name text true = .returned t4.stopParse (some e) := by
    simp [Do, Tree.Parse, h]
  have hs : t4.stopParse.Root = none := by simp [Tree.stopParse, htab]
  have hc : t4.stopParse.Ctx = t4.Ctx := by simp [Tree.stopParse, htab]
  refine ⟨hdo, by rw [hdo]; exact hs, by rw [hdo]; exact hc, hs, hc, ?_⟩
  intro heof
  obtain ⟨ps, f, rest, hwf, hst, hf, hctx, _⟩ :=
    parse_abort_decompose ((New name).prepare lx text true) lx.items e t4
      (by simp [Tree.pending, Tree.prepare, Tree.startParse, New]) heof h
  refine ⟨ps, f, rest, hwf, hst, hf, ?_, by rw [hdo]; exact hs, by rw [hdo]; rfl⟩
  rw [hdo]
  show t4.stopParse.Ctx = ctxAfter none ps
  rw [hc, hctx]
  rfl

/-- Witness of C8 (amended): the interactive parse of `cmd >` where the end
flag of the token `cmd` has `MayContinue`.  The term `cmd` is accepted, the
redirection fails on the missing target, and the session returned with the
error keeps the argument context of `cmd` and has a nil root. -/
theorem fatal_interactive_root_absent_witness :
    (∃ x ∈ [⟨.ItemBare, 0, str "cmd", MayContinue⟩, tok .ItemSpace 3 " ",
            tok .ItemRedirLeader 4 ">", tok .ItemEOF 5 ""], x.Typ = ItemType.ItemEOF)
    ∧ ctxAfter none [.arg [] ⟨.ItemBare, 0, str "cmd", MayContinue⟩]
        = some (NewArgContext (str "cmd"))
    ∧ (Do ⟨[⟨.ItemBare, 0, str "cmd", MayContinue⟩, tok .ItemSpace 3 " ",
            tok .ItemRedirLeader 4 ">", tok .ItemEOF 5 ""]⟩ (str "sh") (str "cmd >") true).root
        = none
    ∧ (Do ⟨[⟨.ItemBare, 0, str "cmd", MayContinue⟩, tok .ItemSpace 3 " ",
            tok .ItemRedirLeader 4 ">", tok .ItemEOF 5 ""]⟩ (str "sh") (str "cmd >") true).ctx
        = some (NewArgContext (str "cmd"))
    ∧ ∃ (ps : List Piece) (f : Failure) (rest : List Item),
        (∀ p ∈ ps, p.wellFormed = true)
        ∧ [⟨.ItemBare, 0, str "cmd", MayContinue⟩, tok .ItemSpace 3 " ",
           tok .ItemRedirLeader 4 ">", tok .ItemEOF 5 ""]
            = ps.flatMap Piece.tokens ++ (f.tokens ++ rest)
        ∧ f.error = some (.unexpected (tok .ItemEOF 5 "") (str "term"))
        ∧ (Do ⟨[⟨.ItemBare, 0, str "cmd", MayContinue⟩, tok .ItemSpace 3 " ",
                tok .ItemRedirLeader 4 ">", tok .ItemEOF 5 ""]⟩ (str "sh") (str "cmd >")
              true).ctx = ctxAfter none ps
        ∧ (Do ⟨[⟨.ItemBare, 0, str "cmd", MayContinue⟩, tok .ItemSpace 3 " ",
                tok .ItemRedirLeader 4 ">", tok .ItemEOF 5 ""]⟩ (str "sh") (str "cmd >")
              true).root = none
        ∧ (Do ⟨[⟨.ItemBare, 0, str "cmd", MayContinue⟩, tok .ItemSpace 3 " ",
                tok .ItemRedirLeader 4 ">", tok .ItemEOF 5 ""]⟩ (str "sh") (str "cmd >")
              true).err = some (.unexpected (tok .ItemEOF 5 "") (str "term")) :=
  have h := fatal_interactive_root_absent
    ⟨[⟨.ItemBare, 0, str "cmd", MayContinue⟩, tok .ItemSpace 3 " ",
      tok .ItemRedirLeader 4 ">", tok .ItemEOF 5 ""]⟩ (str "sh") (str "cmd >")
    (.unexpected (tok .ItemEOF 5 "") (str "term"))
    { New (str "sh") with
        ParseName := str "sh", text := str "cmd >", tab := true,
        Ctx := some (NewArgContext (str "cmd")),
        lex := some ⟨[]⟩,
        token0 := tok .ItemEOF 5 "" }
    (by decide)
  ⟨by decide, by decide, h.2.1, by rw [h.2.2.1], h.2.2.2.2.2 (by decide)⟩

end Dasc
